import Mathlib

/-!
Verification of the io-ts-human-reporter library (src/src/index.ts together
with its codecs and messages modules).

The embedding models:
* JavaScript values (`JSValue`) as finite trees; the strict-equality
  operator `===` is modelled by structural equality `jsEq` (within one
  validator run, identical sub-references are structurally identical, and
  the reporter only ever compares values flowing down one decode chain);
* io-ts codecs (`Codec`) covering the capability set the reporter
  dispatches on: primitives, interface (`t.type`) objects, arrays, tuples,
  unions and intersections;
* the reporter itself, transcribed function by function from
  src/src/index.ts; the recursive drivers `explain`/`explainAll` take an
  explicit fuel argument (the source recursion consumes one context entry
  per level, so the fuel chosen by the public entry points is sufficient);
* numeric similarity scores as exact fractions (`Frac`) compared by
  cross-multiplication: the source compares IEEE doubles, and on the
  integer ranges involved the comparisons agree with exact rational
  arithmetic.

Values and codecs are mutually inductive with their own list types so that
all functions are structurally recursive and kernel-computable.
-/

-- JavaScript runtime values, as the validator and reporter see them.
mutual
inductive JSValue where
  | undef : JSValue
  | nullV : JSValue
  | boolV (b : Bool) : JSValue
  | num (n : Int) : JSValue
  | str (s : String) : JSValue
  | arr (xs : JSList) : JSValue
  | obj (fields : JSFields) : JSValue
deriving Repr

inductive JSList where
  | nil : JSList
  | cons (v : JSValue) (t : JSList) : JSList
deriving Repr

inductive JSFields where
  | nil : JSFields
  | cons (k : String) (v : JSValue) (t : JSFields) : JSFields
deriving Repr
end

-- Structural (boolean) equality of values: the model of JavaScript `===`
-- as the reporter uses it on `actual` values of one validation run.
mutual
def JSValue.beq : JSValue → JSValue → Bool
  | .undef, .undef => true
  | .nullV, .nullV => true
  | .boolV a, .boolV b => a == b
  | .num a, .num b => a == b
  | .str a, .str b => a == b
  | .arr xs, .arr ys => JSList.beq xs ys
  | .obj xs, .obj ys => JSFields.beq xs ys
  | _, _ => false

def JSList.beq : JSList → JSList → Bool
  | .nil, .nil => true
  | .cons x xs, .cons y ys => JSValue.beq x y && JSList.beq xs ys
  | _, _ => false

def JSFields.beq : JSFields → JSFields → Bool
  | .nil, .nil => true
  | .cons k x xs, .cons l y ys => k == l && JSValue.beq x y && JSFields.beq xs ys
  | _, _ => false
end

mutual
theorem JSValue.beq_iff : ∀ a b : JSValue, (JSValue.beq a b = true) ↔ a = b := by
  intro a b
  cases a <;> cases b <;>
    simp [JSValue.beq, JSList.beq_iff_lists, JSFields.beq_iff_fields]

theorem JSList.beq_iff_lists : ∀ a b : JSList, (JSList.beq a b = true) ↔ a = b := by
  intro a b
  cases a <;> cases b <;>
    simp [JSList.beq, JSValue.beq_iff, JSList.beq_iff_lists, and_assoc]

theorem JSFields.beq_iff_fields : ∀ a b : JSFields, (JSFields.beq a b = true) ↔ a = b := by
  intro a b
  cases a <;> cases b <;>
    simp [JSFields.beq, JSValue.beq_iff, JSFields.beq_iff_fields, and_assoc]
end

instance : DecidableEq JSValue := fun a b => decidable_of_iff _ (JSValue.beq_iff a b)

/-- Abbreviation for `===` on values, used wherever the source compares
`actual` values. -/
def jsEq (a b : JSValue) : Bool := JSValue.beq a b

theorem jsEq_iff {a b : JSValue} : jsEq a b = true ↔ a = b := JSValue.beq_iff a b

theorem jsEq_refl (a : JSValue) : jsEq a a = true := jsEq_iff.mpr rfl

def JSList.toList : JSList → List JSValue
  | .nil => []
  | .cons v t => v :: t.toList

def JSFields.toList : JSFields → List (String × JSValue)
  | .nil => []
  | .cons k v t => (k, v) :: t.toList

def JSList.ofList : List JSValue → JSList
  | [] => .nil
  | v :: t => .cons v (JSList.ofList t)

def JSFields.ofList : List (String × JSValue) → JSFields
  | [] => .nil
  | (k, v) :: t => .cons k v (JSFields.ofList t)

/-- Convenience builder for object literals. -/
def JSValue.mkObj (fs : List (String × JSValue)) : JSValue := .obj (JSFields.ofList fs)

/-- Convenience builder for array literals. -/
def JSValue.mkArr (xs : List JSValue) : JSValue := .arr (JSList.ofList xs)

/-- `typeof v === 'number'`. -/
def JSValue.isNum : JSValue → Bool
  | .num _ => true
  | _ => false

/-- `typeof v === 'string'`. -/
def JSValue.isStr : JSValue → Bool
  | .str _ => true
  | _ => false

/-- `typeof v === 'boolean'`. -/
def JSValue.isBool : JSValue → Bool
  | .boolV _ => true
  | _ => false

/-- `v === null`. -/
def JSValue.isNull : JSValue → Bool
  | .nullV => true
  | _ => false

/-- `t.UnknownRecord.is`: a non-null object that is not an array. -/
def JSValue.isRec : JSValue → Bool
  | .obj _ => true
  | _ => false

/-- `t.UnknownArray.is`. -/
def JSValue.isArr : JSValue → Bool
  | .arr _ => true
  | _ => false

/-- Deduplication keeping the first occurrence of each element:
worker with the list of elements already seen. -/
def dedupeFirstAux [BEq α] (seen : List α) : List α → List α
  | [] => []
  | x :: xs =>
    if seen.contains x then dedupeFirstAux seen xs
    else x :: dedupeFirstAux (x :: seen) xs

/-- Deduplication keeping the first occurrence of each element, as
`[...new Set(xs)]` or a `filter`/`indexOf` based JavaScript dedupe does. -/
def dedupeFirst [BEq α] (xs : List α) : List α := dedupeFirstAux [] xs

/-- `Object.keys` of an object value (first occurrence wins, mirroring the
uniqueness of keys of a real JavaScript object); empty for non-objects. -/
def JSValue.objKeys : JSValue → List String
  | .obj fs => dedupeFirst (fs.toList.map Prod.fst)
  | _ => []

/-- Property access `v[k]`: `undefined` when absent or not an object. -/
def JSValue.getField : JSValue → String → JSValue
  | .obj fs, k =>
    match fs.toList.find? (fun kv => kv.1 == k) with
    | some kv => kv.2
    | none => .undef
  | _, _ => (.undef)

-- io-ts codecs, covering the capability set the reporter dispatches on
-- (src codecs module: union / intersection recognition, `getProps`,
-- `getArrayItemType`, `getTupleTypes`), with the default io-ts names.
mutual
inductive Codec where
  | number : Codec
  | strC : Codec
  | boolC : Codec
  | nullC : Codec
  | typeC (props : CProps) : Codec
  | arrayC (item : Codec) : Codec
  | tupleC (items : Codecs) : Codec
  | unionC (ts : Codecs) : Codec
  | interC (ts : Codecs) : Codec
deriving Repr

inductive Codecs where
  | nil : Codecs
  | cons (c : Codec) (t : Codecs) : Codecs
deriving Repr

inductive CProps where
  | nil : CProps
  | cons (k : String) (c : Codec) (t : CProps) : CProps
deriving Repr
end

def Codecs.toList : Codecs → List Codec
  | .nil => []
  | .cons c t => c :: t.toList

def CProps.toList : CProps → List (String × Codec)
  | .nil => []
  | .cons k c t => (k, c) :: t.toList

def Codecs.ofList : List Codec → Codecs
  | [] => .nil
  | c :: t => .cons c (Codecs.ofList t)

def CProps.ofList : List (String × Codec) → CProps
  | [] => .nil
  | (k, c) :: t => .cons k c (CProps.ofList t)

/-- Builder for `t.type({...})`. -/
def Codec.mkType (props : List (String × Codec)) : Codec := .typeC (CProps.ofList props)

/-- Builder for `t.union([...])`. -/
def Codec.mkUnion (ts : List Codec) : Codec := .unionC (Codecs.ofList ts)

/-- Builder for `t.intersection([...])`. -/
def Codec.mkInter (ts : List Codec) : Codec := .interC (Codecs.ofList ts)

/-- Builder for `t.tuple([...])`. -/
def Codec.mkTuple (ts : List Codec) : Codec := .tupleC (Codecs.ofList ts)

-- Default io-ts codec names (`getInterfaceTypeName` and friends); they
-- only surface inside `mismatch` message texts.
mutual
def Codec.name : Codec → String
  | .number => "number"
  | .strC => "string"
  | .boolC => "boolean"
  | .nullC => "null"
  | .typeC props => "\x7b " ++ CProps.nameParts props ++ " \x7d"
  | .arrayC item => "Array<" ++ item.name ++ ">"
  | .tupleC items => "[" ++ Codecs.nameParts ", " items ++ "]"
  | .unionC ts => "(" ++ Codecs.nameParts " | " ts ++ ")"
  | .interC ts => "(" ++ Codecs.nameParts " & " ts ++ ")"

def Codecs.nameParts : String → Codecs → String
  | _, .nil => ""
  | _, .cons c .nil => c.name
  | sep, .cons c t => c.name ++ sep ++ Codecs.nameParts sep t

def CProps.nameParts : CProps → String
  | .nil => ""
  | .cons k c .nil => k ++ ": " ++ c.name
  | .cons k c t => k ++ ": " ++ c.name ++ ", " ++ CProps.nameParts t
end

/-- `Codec.is.union`: the codec is a `t.UnionType`. -/
def Codec.isUnion : Codec → Bool
  | .unionC _ => true
  | _ => false

/-- `Codec.is.intersection`: the codec is a `t.IntersectionType`. -/
def Codec.isInter : Codec → Bool
  | .interC _ => true
  | _ => false

/-- `Codec.is.union(parentType)` where the parent may be `null`. -/
def isUnionO : Option Codec → Bool
  | some c => c.isUnion
  | none => false

/-- `Codec.is.intersection(parentType)` where the parent may be `null`. -/
def isInterO : Option Codec → Bool
  | some c => c.isInter
  | none => false

/-- `Object.assign(target, source)` on property records: a key already in
the target keeps its position and takes the source's value; a fresh key is
appended. -/
def objAssignOne (target : List (String × Codec)) (kv : String × Codec) :
    List (String × Codec) :=
  if target.any (fun p => p.1 == kv.1) then
    target.map (fun p => if p.1 == kv.1 then (p.1, kv.2) else p)
  else target ++ [kv]

def objAssign (target source : List (String × Codec)) : List (String × Codec) :=
  source.foldl objAssignOne target

-- `Codec.getProps`: named properties of object-shaped codecs; for an
-- intersection, the `Object.assign` merge of the members that have props,
-- `null` when no member has any.
mutual
def Codec.getProps : Codec → Option (List (String × Codec))
  | .typeC props => some props.toList
  | .interC ts =>
    let parts := Codecs.getPropsParts ts
    if parts.isEmpty then none else some (parts.foldl objAssign [])
  | _ => none

def Codecs.getPropsParts : Codecs → List (List (String × Codec))
  | .nil => []
  | .cons c t =>
    (match Codec.getProps c with
     | some p => [p]
     | none => []) ++ Codecs.getPropsParts t
end

/-- `Codec.getArrayItemType`. -/
def Codec.getArrayItemType : Codec → Option Codec
  | .arrayC item => some item
  | _ => none

/-- `Codec.getTupleTypes`. -/
def Codec.getTupleTypes : Codec → Option (List Codec)
  | .tupleC items => some items.toList
  | _ => none

-- Structural depth of a codec: the fuel bound for the fueled recursions
-- below (`isValidF`, `chainsF`).
mutual
def Codec.depth : Codec → Nat
  | .number => 1
  | .strC => 1
  | .boolC => 1
  | .nullC => 1
  | .typeC props => CProps.depth props + 1
  | .arrayC item => item.depth + 1
  | .tupleC items => Codecs.depth items + 1
  | .unionC ts => Codecs.depth ts + 1
  | .interC ts => Codecs.depth ts + 1

def Codecs.depth : Codecs → Nat
  | .nil => 0
  | .cons c t => max c.depth (Codecs.depth t)

def CProps.depth : CProps → Nat
  | .nil => 0
  | .cons _ c t => max c.depth (CProps.depth t)
end

/-- `t.Mixed.is` membership, fueled (the fuel is structural so that the
definition is kernel-computable; `Codec.isType` supplies the sufficient
`depth`-based fuel). -/
def isValidF : Nat → Codec → JSValue → Bool
  | 0, _, _ => false
  | _ + 1, .number, v => v.isNum
  | _ + 1, .strC, v => v.isStr
  | _ + 1, .boolC, v => v.isBool
  | _ + 1, .nullC, v => v.isNull
  | f + 1, .typeC props, v =>
    v.isRec && props.toList.all (fun kv => isValidF f kv.2 (v.getField kv.1))
  | f + 1, .arrayC item, v =>
    match v with
    | .arr xs => xs.toList.all (fun x => isValidF f item x)
    | _ => false
  | f + 1, .tupleC items, v =>
    match v with
    | .arr xs =>
      xs.toList.length == items.toList.length &&
        (List.zip items.toList xs.toList).all (fun p => isValidF f p.1 p.2)
    | _ => false
  | f + 1, .unionC ts, v => ts.toList.any (fun c => isValidF f c v)
  | f + 1, .interC ts, v => ts.toList.all (fun c => isValidF f c v)

/-- `codec.is(value)`. -/
def Codec.isType (c : Codec) (v : JSValue) : Bool := isValidF c.depth c v

/-- An exact fraction. The source computes similarity scores as IEEE
doubles; every score in play is a rational with a small positive
denominator, and the comparisons the source performs agree with exact
rational comparison, which `Frac.blt`/`Frac.beq` implement by
cross-multiplication (all constructed denominators are positive). -/
structure Frac where
  num : Int
  den : Int
deriving Repr, DecidableEq

def Frac.ofInt (n : Int) : Frac := ⟨n, 1⟩

/-- `a < b` as rationals (positive denominators). -/
def Frac.blt (a b : Frac) : Bool := a.num * b.den < b.num * a.den

/-- `a === b` as rationals (positive denominators). -/
def Frac.beq (a b : Frac) : Bool := a.num * b.den == b.num * a.den

/-- The rational a fraction denotes. -/
def Frac.toRat (a : Frac) : ℚ := (a.num : ℚ) / (a.den : ℚ)

/-- `arrA.filter(a => arrB.includes(a))`. -/
def intersectionList [BEq α] (arrA arrB : List α) : List α :=
  arrA.filter (fun a => arrB.contains a)

/-- `scoreObjectSimilarity`: similarity of an object-shaped candidate type
to a record-like actual value. -/
def scoreObjectSimilarity (type : Codec) (actual : JSValue) : Option Frac :=
  match Codec.getProps type with
  | none => none
  | some props =>
    if ¬ actual.isRec then none
    else
      let actualKeys := actual.objKeys
      let propsKeys := dedupeFirst (props.map Prod.fst)
      let matchedKeys := intersectionList actualKeys propsKeys
      let missingKeys : Int := (propsKeys.length : Int) - (matchedKeys.length : Int)
      if matchedKeys.length ≠ 0 then
        -- 1 + matched − missing/(missing+1), over the common denominator missing+1
        some ⟨(1 + (matchedKeys.length : Int)) * (missingKeys + 1) - missingKeys,
              missingKeys + 1⟩
      else
        -- 1 / (propsKeys.length + 1)
        some ⟨1, (propsKeys.length : Int) + 1⟩

/-- `scoreArraySimilarity`: number of actual items already satisfying the
array item type. -/
def scoreArraySimilarity (type : Codec) (actual : JSValue) : Option Frac :=
  match Codec.getArrayItemType type with
  | none => none
  | some itemType =>
    match actual with
    | .arr xs => some (Frac.ofInt (xs.toList.countP (fun x => itemType.isType x)))
    | _ => none

/-- `scoreTupleSimilarity`: `max(0, actual.length − declared.length)`. -/
def scoreTupleSimilarity (type : Codec) (actual : JSValue) : Option Frac :=
  match Codec.getTupleTypes type with
  | none => none
  | some itemTypes =>
    match actual with
    | .arr xs => some (Frac.ofInt (max 0 ((xs.toList.length : Int) - (itemTypes.length : Int))))
    | _ => none

-- ## Failure records

/-- One entry of an io-ts error `context`. -/
structure ContextEntry where
  key : String
  type : Codec
  actual : JSValue
deriving Repr

/-- A validation error record. This combines the source's `InputError`
(`t.ValidationError & Partial<ErrorFirstContextInfo>`) and `ErrorsExt`:
the optional extra fields of an `InputError` default here to the values
JavaScript coercion gives absent fields at their only read sites
(`!!rest.isExhausted` is `false` when the field is absent; the remaining
extras are only ever read after `attachExtraInfoToError` has set them). -/
structure ErrRec where
  context : List ContextEntry
  message : Option String := none
  key : String := ""
  type : Codec := Codec.nullC
  actual : JSValue := JSValue.undef
  isExhausted : Bool := false
  levelsUntilExhaustion : Int := -1
  wasParentExhausted : Bool := false
deriving Repr

-- ## Messages (messages module, latest iteration with `stringify`)

/-- The formatter interface exposed to callers. -/
structure Messages where
  path : List String → String
  stringify : JSValue → String
  missing : List String → List String → String
  mismatch : String → List String → JSValue → Codec → String
  custom : String → List String → String

/-- A partial formatter override (`Partial<Messages>`). -/
structure PMessages where
  path : Option (List String → String) := none
  stringify : Option (JSValue → String) := none
  missing : Option (List String → List String → String) := none
  mismatch : Option (String → List String → JSValue → Codec → String) := none
  custom : Option (String → List String → String) := none

def defaultPath (path : List String) : String := String.intercalate "." path

/-- The default compact value rendering. -/
def defaultStringify (thing : JSValue) : String :=
  match thing with
  | .num n => "`" ++ toString n ++ "`"
  | .boolV b => "`" ++ (if b then "true" else "false") ++ "`"
  | .str s => "\"" ++ (if s.length > 15 then (s.take 12) ++ "..." else s) ++ "\""
  | .undef => "`undefined`"
  | .nullV => "`null`"
  | .arr xs =>
    match xs.toList.length with
    | 0 => "`[]`"
    | 1 => "`[1 item]`"
    | n => "`[" ++ toString n ++ " items]`"
  | .obj fs =>
    let keys := dedupeFirst (fs.toList.map Prod.fst)
    if keys.length == 0 then "`\x7b\x7d`"
    else if keys.length ≤ 3 then "`\x7b" ++ String.intercalate "," keys ++ "\x7d`"
    else "`\x7b" ++ (String.intercalate "," (keys.take 3)) ++ "..." ++ "\x7d`"

/-- `Messages.default`: builds the default formatter, closing the derived
formatters over the (possibly overridden) `path` and `stringify`. -/
def Messages.default (p : PMessages := {}) : Messages :=
  let stringifyPath := p.path.getD defaultPath
  let stringifyValue := p.stringify.getD defaultStringify
  { path := stringifyPath
    stringify := stringifyValue
    missing := fun keys path =>
      "missing " ++ (if keys.length == 1 then "property" else "properties") ++
        " '" ++ String.intercalate "', '" keys ++ "' at '" ++ stringifyPath path ++ "'"
    mismatch := fun key path actual expected =>
      "got " ++ stringifyValue actual ++ " expected '" ++ expected.name ++
        "' at '" ++ stringifyPath (path ++ [key]) ++ "'"
    custom := fun msg path => msg ++ " at '" ++ stringifyPath path ++ "'" }

/-- `Messages.withDefault`: the default formatter with the present fields
of the override spread on top. -/
def Messages.withDefault (p : PMessages := {}) : Messages :=
  let d := Messages.default p
  { path := p.path.getD d.path
    stringify := p.stringify.getD d.stringify
    missing := p.missing.getD d.missing
    mismatch := p.mismatch.getD d.mismatch
    custom := p.custom.getD d.custom }

def defaultMessages : Messages := Messages.default

-- ## Options

/-- Fully resolved reporter options. -/
structure Options where
  path : List String
  parentType : Option Codec
  messages : Messages

/-- `DeepPartial<Options>` as the public entry points accept it. -/
structure POptions where
  path : Option (List String) := none
  parentType : Option (Option Codec) := none
  messages : Option PMessages := none

def Options.default : Options :=
  { path := [], parentType := none, messages := defaultMessages }

def Options.withDefault (opts : POptions) : Options :=
  { path := opts.path.getD [], parentType := opts.parentType.getD none
    messages := Messages.withDefault (opts.messages.getD {}) }

-- ## Utilities (src/src/utils.ts, plus the four helpers whose code is not
-- in the repository snapshot and is therefore modelled from the spec)

/-- `head` on message lists: `arr[0] || null` — the empty string is falsy,
so a leading `''` yields `null`. -/
def headStr : List String → Option String
  | [] => none
  | s :: _ => if s == "" then none else some s

/-- `head` on lists of objects (always truthy): `arr[0] || null`. -/
def headB : List α → Option α
  | [] => none
  | x :: _ => some x

/-- `groupBy` worker: append the record to its key's group, or open a new
group at the end (JavaScript object insertion order). -/
def addToGroup (acc : List (String × List ErrRec)) (e : ErrRec) :
    List (String × List ErrRec) :=
  if acc.any (fun g => g.1 == e.key) then
    acc.map (fun g => if g.1 == e.key then (g.1, g.2 ++ [e]) else g)
  else acc ++ [(e.key, [e])]

/-- `groupBy(arr, ({key}) => key)` as the assoc list of groups in key
first-seen order. -/
def groupByKey (l : List ErrRec) : List (String × List ErrRec) :=
  l.foldl addToGroup []

/-- Decimal value of a digit string. -/
def parseNatDigits (cs : List Char) : Nat :=
  cs.foldl (fun acc c => acc * 10 + (c.toNat - '0'.toNat)) 0

/-- A canonical array-index string (`'0'`, `'17'`, …): JavaScript objects
iterate these keys first, in ascending numeric order. -/
def isArrayIndexKey (s : String) : Bool :=
  let cs := s.toList
  ¬ cs.isEmpty && cs.all (fun c => '0' ≤ c && c ≤ '9') &&
    (s == "0" || cs.head? != some '0') && parseNatDigits cs < 4294967295

/-- Stable insertion into a list sorted ascending by a `Nat` measure: the
inserted element precedes the already-placed elements of equal measure
(they came later in the original list). -/
def insertByNat (measure : α → Nat) (x : α) : List α → List α
  | [] => [x]
  | y :: ys =>
    if measure y < measure x then y :: insertByNat measure x ys
    else x :: y :: ys

def sortByNat (measure : α → Nat) : List α → List α
  | [] => []
  | x :: xs => insertByNat measure x (sortByNat measure xs)

/-- `Object.entries`/`Object.values` iteration order of a JavaScript
object: integer-like keys first in ascending numeric order, then the
remaining keys in insertion order. -/
def jsEntriesOrder (l : List (String × β)) : List (String × β) :=
  sortByNat (fun p => parseNatDigits p.1.toList) (l.filter (fun p => isArrayIndexKey p.1)) ++
    l.filter (fun p => ¬ isArrayIndexKey p.1)

/-- Stable insertion into a list sorted ascending by an `Int` measure: the
inserted element precedes the already-placed elements of equal measure
(they came later in the original list). -/
def insertByInt (measure : α → Int) (x : α) : List α → List α
  | [] => [x]
  | y :: ys =>
    if measure y < measure x then y :: insertByInt measure x ys
    else x :: y :: ys

/-- Modelled from the spec: `sortBy` (imported from `./utils` but not part
of the repository snapshot) — a stable sort by a numeric measure, ascending
as the conventional JavaScript/lodash `sortBy` is. No claim below depends
on the direction: tied branches keep their relative order either way. -/
def sortBy (measure : α → Int) (l : List α) : List α :=
  match l with
  | [] => []
  | x :: xs => insertByInt measure x (sortBy measure xs)

/-- Modelled from the spec: `dedupe` (imported from `./utils` but not part
of the repository snapshot) — deduplication keeping first occurrences
("Collect qualifying keys, deduplicate", "collect and deduplicate all
classifier messages"). -/
def dedupe (xs : List String) : List String := dedupeFirst xs

/-- Modelled from the spec: `initTail` (imported from `./utils` but not
part of the repository snapshot) — splits a path into its leading segments
and its last segment ("drop the last path segment and suppress the key"):
`initTail(path) = [path.slice(0, -1), path[path.length - 1]]`. -/
def initTail (path : List String) : List String × Option String :=
  (path.dropLast, path.getLast?)

/-- Lexicographic `<` on a (similarity, narrowing) score pair. -/
def scorePairLt (a b : Frac × Int) : Bool :=
  a.1.blt b.1 || (a.1.beq b.1 && a.2 < b.2)

/-- Lexicographic equality on a (similarity, narrowing) score pair. -/
def scorePairEq (a b : Frac × Int) : Bool :=
  a.1.beq b.1 && a.2 == b.2

/-- The lexicographically maximal score pair among `score x` and the
scores of `xs` (the running maximum of a left fold). -/
def lexBest (score : α → Frac × Int) (x : α) (xs : List α) : Frac × Int :=
  xs.foldl (fun acc y => if scorePairLt acc (score y) then score y else acc) (score x)

/-- Modelled from the spec: `multiMaxByAll` (imported from `./utils` but
not part of the repository snapshot) — all elements whose score pair is
lexicographically maximal, in input order ("Select branch(es) with the
lexicographically maximal (similarity, narrowing) pair, comparing
similarity first. Keep ALL branches tied at the maximum"). -/
def multiMaxByAll (l : List α) (score : α → Frac × Int) : List α :=
  match l with
  | [] => []
  | x :: xs => (x :: xs).filter (fun y => scorePairEq (score y) (lexBest score x xs))

/-- `Math.max(...)` over a list of fractions (callers only pass nonempty
lists; the `[]` value is immaterial). -/
def maxFrac : List Frac → Frac
  | [] => Frac.ofInt (-1)
  | x :: xs => xs.foldl (fun a b => if a.blt b then b else a) x

-- ## The reporter core (src/src/index.ts)

/-- `context.findIndex(findLevelsUntilExhaustion)`: index of the first
position whose entry's `actual` differs from the next entry's, `-1` when
consecutive entries never differ. -/
def levelsUntilExhaustionIdx : List ContextEntry → Int
  | a :: b :: rest =>
    if jsEq a.actual b.actual then
      let r := levelsUntilExhaustionIdx (b :: rest)
      if r == -1 then -1 else r + 1
    else 0
  | _ => -1

/-- `attachExtraInfoToError`: pop the head context entry and compute the
narrowing metadata. -/
def attachExtraInfoToError (e : ErrRec) : Option ErrRec :=
  match e.context with
  | [] => none
  | h :: tail =>
    some { context := tail
           message := e.message
           key := h.key
           type := h.type
           actual := h.actual
           isExhausted := tail.all (fun c => jsEq c.actual h.actual)
           levelsUntilExhaustion := levelsUntilExhaustionIdx e.context
           wasParentExhausted := e.isExhausted }

/-- `detectTypeMismatches` over the grouped records (the source passes the
`groupBy` record and iterates `Object.values`; here the group list arrives
already in that iteration order). -/
def detectTypeMismatches (groups : List (String × List ErrRec)) (opts : Options) :
    List String :=
  groups.flatMap (fun g =>
    let currentErrorContexts := g.2
    let allExhausted := currentErrorContexts.all (fun e => e.isExhausted)
    currentErrorContexts.filterMap (fun e =>
      -- property missing/undefined
      if e.actual = JSValue.undef then none
      -- if parent type is union, report happens one recursion level deeper
      else if isUnionO opts.parentType then none
      -- if current type is intersection, report happens on its components
      else if e.type.isInter then none
      else
        let adjusted : List String × Option String :=
          if isInterO opts.parentType then initTail opts.path
          else (opts.path, some e.key)
        let error :=
          match e.message with
          | some m => opts.messages.custom m adjusted.1
          | none => opts.messages.mismatch (adjusted.2.getD "") adjusted.1 e.actual e.type
        if allExhausted then some error
        else if e.type.isUnion || ¬ e.isExhausted then none
        else some error))

/-- `getMissingPropertyFromErrorContext`. -/
def getMissingPropertyFromErrorContext (e : ErrRec) : Option String :=
  if e.actual ≠ JSValue.undef then none
  else if e.wasParentExhausted then none
  else some e.key

/-- `detectMissingProperties`: one combined message for the deduplicated
missing keys of the level, or nothing. -/
def detectMissingProperties (currentErrorContexts : List ErrRec) (opts : Options) :
    List String :=
  let missingFields := currentErrorContexts.filterMap getMissingPropertyFromErrorContext
  let uniqMissingFields := dedupe missingFields
  if uniqMissingFields.isEmpty then [] else [opts.messages.missing uniqMissingFields opts.path]

/-- `extendPath`. -/
def extendPath (branchKey : String) (opts : Options) : List String :=
  let isRoot := opts.path.isEmpty && branchKey == ""
  let shouldExtendPath :=
    ¬ isUnionO opts.parentType && ¬ isInterO opts.parentType && ¬ isRoot
  if shouldExtendPath then opts.path ++ [branchKey] else opts.path

/-- `maxLevelsUntilExhaustion` (`Math.max` over the group; groups are
nonempty, so the `[]` value is immaterial). -/
def maxLevelsUntilExhaustion (errors : List ErrRec) : Int :=
  match errors.map (fun e => e.levelsUntilExhaustion) with
  | [] => -1
  | x :: xs => xs.foldl max x

/-- The (similarity, narrowing) score of one branch in
`selectBestUnionVariant`. -/
def branchScore (errorsInBranch : List ErrRec) : Frac × Int :=
  let scores := errorsInBranch.map (fun e =>
    ((scoreObjectSimilarity e.type e.actual).getD
      ((scoreArraySimilarity e.type e.actual).getD
        ((scoreTupleSimilarity e.type e.actual).getD (Frac.ofInt (-1))))))
  (maxFrac scores, maxLevelsUntilExhaustion errorsInBranch)

/-- `selectBestUnionVariant`: the branches tied at the maximal score pair,
then `.slice(0, 1)`. -/
def selectBestUnionVariant (branches : List (String × List ErrRec)) :
    List (String × List ErrRec) :=
  (multiMaxByAll branches (fun b => branchScore b.2)).take 1

/-- `filterBranches`. -/
def filterBranches (parentType : Option Codec)
    (branches : List (String × List ErrRec)) : List (String × List ErrRec) :=
  let sorted := sortBy (fun b => maxLevelsUntilExhaustion b.2) branches
  if isUnionO parentType then selectBestUnionVariant sorted else sorted

/-- `explain` (first-only driver). The fuel is structural bookkeeping: each
recursion level pops one context entry from every surviving record, so any
fuel above the longest context is never exhausted (`reportFuel`). -/
def explain : Nat → List ErrRec → Options → Option String
  | 0, _, _ => none
  | fuel + 1, errors, opts =>
    let errorsOnLevelsBelow := errors.filterMap attachExtraInfoToError
    let errorsByPath := jsEntriesOrder (groupByKey errorsOnLevelsBelow)
    let errorToReport :=
      match headStr (detectTypeMismatches errorsByPath opts) with
      | some e => some e
      | none => headStr (detectMissingProperties errorsOnLevelsBelow opts)
    match errorToReport with
    | some e => some e
    | none =>
      match headB (filterBranches opts.parentType errorsByPath) with
      | none => none
      | some branch =>
        match headB branch.2 with
        | none => none
        | some firstError =>
          explain fuel branch.2
            { opts with
                path := extendPath branch.1 opts
                parentType := some firstError.type }

/-- `explainAll` (exhaustive driver). -/
def explainAll : Nat → List ErrRec → Options → List String
  | 0, _, _ => []
  | fuel + 1, errors, opts =>
    let errorsOnLevelsBelow := errors.filterMap attachExtraInfoToError
    let errorsByPath := jsEntriesOrder (groupByKey errorsOnLevelsBelow)
    let errorsToReport :=
      dedupe (detectTypeMismatches errorsByPath opts ++
        detectMissingProperties errorsOnLevelsBelow opts)
    let branches := filterBranches opts.parentType errorsByPath
    let subReports := branches.flatMap (fun branch =>
      match headB branch.2 with
      | none => []
      | some firstError =>
        explainAll fuel branch.2
          { opts with
              path := extendPath branch.1 opts
              parentType := some firstError.type })
    errorsToReport ++ subReports

/-- The longest context among the records. -/
def maxCtxLen (errors : List ErrRec) : Nat :=
  (errors.map (fun e => e.context.length)).foldl max 0

/-- Sufficient fuel for `explain`/`explainAll` on the given records. -/
def reportFuel (errors : List ErrRec) : Nat := maxCtxLen errors + 1

/-- `reportOne`: description of the first validation error, or nothing. -/
def reportOne (validation : Except (List ErrRec) JSValue)
    (opts : POptions := {}) : Option String :=
  match validation with
  | .error errors => explain (reportFuel errors) errors (Options.withDefault opts)
  | .ok _ => none

/-- `report`: descriptions of all validation errors found. -/
def report (validation : Except (List ErrRec) JSValue)
    (opts : POptions := {}) : List String :=
  match validation with
  | .error errors => explainAll (reportFuel errors) errors (Options.withDefault opts)
  | .ok _ => []

-- ## The validator collaborator
--
-- The reporter consumes `t.Validation` values produced by io-ts decoding.
-- The validator is an external collaborator (spec §6): its code is not in
-- the repository, so it is modelled here from the spec's description of
-- `FailureRecord`/`ContextEntry` (§3) and the behaviour io-ts documents:
-- every terminal failure contributes one record whose context is the
-- root-to-leaf trail of (key, type, actual) triples; object properties
-- append entries keyed by property name, array/tuple items by index,
-- union and intersection members by member index, each passing the value
-- being examined; a union succeeds when any member does, an intersection
-- when all do.

/-- Modelled from the spec: the failure chains of validating `v` against
`c`, relative to `c`'s own node (the caller appends the ambient prefix —
`decodeFail` adds the root entry). `none` means success; on failure the
list is nonempty. Fueled to stay kernel-computable; `Codec.depth` is
always sufficient fuel, and the fuel-0 value is never reached from
`decodeFail`. -/
def chainsF : Nat → Codec → JSValue → Option (List (List ContextEntry))
  | 0, _, _ => some [[]]
  | _ + 1, .number, v => if v.isNum then none else some [[]]
  | _ + 1, .strC, v => if v.isStr then none else some [[]]
  | _ + 1, .boolC, v => if v.isBool then none else some [[]]
  | _ + 1, .nullC, v => if v.isNull then none else some [[]]
  | f + 1, .typeC props, v =>
    if ¬ v.isRec then some [[]]
    else
      let errs := props.toList.flatMap (fun kv =>
        let av := v.getField kv.1
        match chainsF f kv.2 av with
        | none => []
        | some cs => cs.map (fun ch => (⟨kv.1, kv.2, av⟩ : ContextEntry) :: ch))
      if errs.isEmpty then none else some errs
  | f + 1, .arrayC item, v =>
    match v with
    | .arr xs =>
      let errs := xs.toList.enum.flatMap (fun p =>
        match chainsF f item p.2 with
        | none => []
        | some cs => cs.map (fun ch => (⟨toString p.1, item, p.2⟩ : ContextEntry) :: ch))
      if errs.isEmpty then none else some errs
    | _ => some [[]]
  | f + 1, .tupleC items, v =>
    match v with
    | .arr xs =>
      let errs := items.toList.enum.flatMap (fun p =>
        let av := xs.toList.getD p.1 JSValue.undef
        match chainsF f p.2 av with
        | none => []
        | some cs => cs.map (fun ch => (⟨toString p.1, p.2, av⟩ : ContextEntry) :: ch))
      if errs.isEmpty then none else some errs
    | _ => some [[]]
  | f + 1, .unionC ts, v =>
    let results := ts.toList.enum.map (fun p => (p.1, p.2, chainsF f p.2 v))
    if results.any (fun r => r.2.2.isNone) then none
    else
      some (results.flatMap (fun r =>
        match r.2.2 with
        | none => []
        | some cs => cs.map (fun ch => (⟨toString r.1, r.2.1, v⟩ : ContextEntry) :: ch)))
  | f + 1, .interC ts, v =>
    let errs := ts.toList.enum.flatMap (fun p =>
      match chainsF f p.2 v with
      | none => []
      | some cs => cs.map (fun ch => (⟨toString p.1, p.2, v⟩ : ContextEntry) :: ch))
    if errs.isEmpty then none else some errs

/-- Modelled from the spec: the failure records of `c.decode(v)` — each
chain prefixed with the root context entry `{key: '', type: c, actual: v}`;
`none` when decoding succeeds. -/
def decodeFail (c : Codec) (v : JSValue) : Option (List ErrRec) :=
  (chainsF c.depth c v).map (fun chs =>
    chs.map (fun ch => ({ context := (⟨"", c, v⟩ : ContextEntry) :: ch } : ErrRec)))

/-- Modelled from the spec: `c.decode(v)` as a `t.Validation`. -/
def decodeV (c : Codec) (v : JSValue) : Except (List ErrRec) JSValue :=
  match decodeFail c v with
  | some errors => .error errors
  | none => .ok v

-- ## Spec-side characterizations (used by the claim theorems to state the
-- properties independently of the transcribed definitions)

/-- The spec's description of `levelsUntilExhaustion`: the index of the
first position in the chain where consecutive entries' `actual` values
differ, with sentinel `-1` when they never differ. -/
def specFirstDiff (ctx : List ContextEntry) : Int :=
  match (List.zip ctx ctx.tail).findIdx? (fun p => p.1.actual ≠ p.2.actual) with
  | some i => (i : Int)
  | none => -1

/-- Result relation for the first-only driver under a changed `missing`
formatter: both runs report nothing, the same text, or the `missing` texts
of the two formatters applied to the same keys and path. -/
def relOneMissing (f : List String → List String → String) (d : Messages)
    (a b : Option String) : Prop :=
  (a = none ∧ b = none) ∨ (∃ s, a = some s ∧ b = some s) ∨
    (∃ keys path, a = some (f keys path) ∧ b = some (d.missing keys path))

/-- Result relation for the exhaustive driver under a changed `missing`
formatter: the two lists agree message for message, except that a
missing-field message carries each run's own formatter text, and a
missing-field message may be deduplicated away in one run when its text
collides with an earlier message of its level. -/
inductive RelMissing (f : List String → List String → String) (d : Messages) :
    List String → List String → Prop where
  | nil : RelMissing f d [] []
  | same (s : String) {ts ds : List String} :
      RelMissing f d ts ds → RelMissing f d (s :: ts) (s :: ds)
  | miss (keys path : List String) {ts ds : List String} :
      RelMissing f d ts ds → RelMissing f d (f keys path :: ts) (d.missing keys path :: ds)
  | dropL (keys path : List String) {ts ds : List String} :
      RelMissing f d ts ds → RelMissing f d ts (d.missing keys path :: ds)
  | dropR (keys path : List String) {ts ds : List String} :
      RelMissing f d ts ds → RelMissing f d (f keys path :: ts) ds

/-- The object-similarity formula exactly as the claim states it, in exact
rational arithmetic. -/
def specObjectScore (propNames actualKeys : List String) : ℚ :=
  let matched : ℚ := ((intersectionList actualKeys propNames).length : ℚ)
  let propertyCount : ℚ := (propNames.length : ℚ)
  let missing : ℚ := propertyCount - matched
  if matched ≠ 0 then 1 + matched - missing / (missing + 1)
  else 1 / (propertyCount + 1)

-- ## Lemmas

theorem jsEq_eq_decide (a b : JSValue) : jsEq a b = decide (a = b) := by
  cases hc : jsEq a b with
  | true => simp [jsEq_iff.mp hc]
  | false =>
    have hne : ¬ a = b := by
      intro h
      rw [h, jsEq_refl b] at hc
      cases hc
    simp [hne]

theorem specFirstDiff_nil : specFirstDiff [] = -1 := rfl

theorem specFirstDiff_single (a : ContextEntry) : specFirstDiff [a] = -1 := rfl

theorem specFirstDiff_cons_cons (a b : ContextEntry) (rest : List ContextEntry) :
    specFirstDiff (a :: b :: rest) =
      if a.actual = b.actual then
        (if specFirstDiff (b :: rest) = -1 then -1 else specFirstDiff (b :: rest) + 1)
      else 0 := by
  unfold specFirstDiff
  simp only [List.tail_cons, List.zip_cons_cons, List.findIdx?_cons]
  by_cases h : a.actual = b.actual
  · simp only [h, if_true, decide_not, List.findIdx?_succ]
    cases hfind : List.findIdx? (fun p => !decide (p.1.actual = p.2.actual))
        ((b :: rest).zip rest) with
    | none => simp [hfind]
    | some i => simp [hfind]
  · simp [h]

theorem levelsIdx_eq_specFirstDiff (ctx : List ContextEntry) :
    levelsUntilExhaustionIdx ctx = specFirstDiff ctx := by
  induction ctx with
  | nil => rfl
  | cons a tail ih =>
    cases tail with
    | nil => rfl
    | cons b rest =>
      rw [levelsUntilExhaustionIdx, ih, jsEq_eq_decide, specFirstDiff_cons_cons]
      by_cases h : a.actual = b.actual
      · by_cases h2 : specFirstDiff (b :: rest) = -1 <;> simp [h, h2]
      · simp [h]

theorem mem_dedupeFirstAux [BEq α] [LawfulBEq α] {x : α} :
    ∀ (l seen : List α), x ∈ dedupeFirstAux seen l ↔ x ∈ l ∧ x ∉ seen := by
  intro l
  induction l with
  | nil => intro seen; simp [dedupeFirstAux]
  | cons y ys ih =>
    intro seen
    rw [dedupeFirstAux]
    by_cases h : seen.contains y
    · rw [if_pos h, ih]
      have hy : y ∈ seen := by
        simpa using h
      constructor
      · rintro ⟨h1, h2⟩
        exact ⟨List.mem_cons_of_mem _ h1, h2⟩
      · rintro ⟨h1, h2⟩
        rcases List.mem_cons.mp h1 with rfl | h1
        · exact absurd hy h2
        · exact ⟨h1, h2⟩
    · rw [if_neg h]
      have hy : y ∉ seen := by
        simpa using h
      simp only [List.mem_cons, ih]
      constructor
      · rintro (rfl | ⟨h1, h2⟩)
        · exact ⟨Or.inl rfl, hy⟩
        · exact ⟨Or.inr h1, fun hx => h2 (Or.inr hx)⟩
      · rintro ⟨rfl | h1, h2⟩
        · exact Or.inl rfl
        · by_cases hxy : x = y
          · exact Or.inl hxy
          · exact Or.inr ⟨h1, by simp [hxy, h2]⟩

theorem mem_dedupeFirst [BEq α] [LawfulBEq α] {x : α} (l : List α) :
    x ∈ dedupeFirst l ↔ x ∈ l := by
  rw [dedupeFirst, mem_dedupeFirstAux]
  simp

theorem nodup_dedupeFirstAux [BEq α] [LawfulBEq α] :
    ∀ (l seen : List α), (dedupeFirstAux seen l).Nodup := by
  intro l
  induction l with
  | nil => intro seen; simp [dedupeFirstAux]
  | cons y ys ih =>
    intro seen
    rw [dedupeFirstAux]
    by_cases h : seen.contains y
    · rw [if_pos h]; exact ih seen
    · rw [if_neg h]
      refine List.nodup_cons.mpr ⟨?_, ih (y :: seen)⟩
      intro hy
      exact ((mem_dedupeFirstAux ys (y :: seen)).mp hy).2 (List.mem_cons_self y seen)

theorem nodup_dedupeFirst [BEq α] [LawfulBEq α] (l : List α) : (dedupeFirst l).Nodup :=
  nodup_dedupeFirstAux l []

theorem intersectionList_length_le [BEq α] [LawfulBEq α] [DecidableEq α]
    {arrA arrB : List α} (h : arrA.Nodup) :
    (intersectionList arrA arrB).length ≤ arrB.length := by
  have hsub : intersectionList arrA arrB ⊆ arrB := by
    intro x hx
    have := List.of_mem_filter hx
    simpa using this
  exact ((h.filter _).subperm hsub).length_le

theorem nodup_objKeys (v : JSValue) : v.objKeys.Nodup := by
  cases v <;> simp [JSValue.objKeys, nodup_dedupeFirst]

theorem all_jsEq_eq_decide (tail : List ContextEntry) (a : JSValue) :
    (tail.all fun c => jsEq c.actual a) = decide (∀ c ∈ tail, c.actual = a) := by
  cases h : tail.all fun c => jsEq c.actual a with
  | true =>
    have := List.all_eq_true.mp h
    symm
    simp only [decide_eq_true_eq]
    intro c hc
    exact jsEq_iff.mp (this c hc)
  | false =>
    symm
    simp only [decide_eq_false_iff_not]
    intro hall
    have : (tail.all fun c => jsEq c.actual a) = true :=
      List.all_eq_true.mpr fun c hc => jsEq_iff.mpr (hall c hc)
    rw [this] at h
    cases h

-- ## Claim C8

/-- C8: the context normalizer drops a record with empty context; otherwise
it pops the head entry (hoisting its key/type/actual and keeping the tail
as the remaining context), sets `isExhausted` exactly when every remaining
tail entry's `actual` equals the head's, sets `levelsUntilExhaustion` to
the index of the first position in the original chain where consecutive
entries' `actual` values differ (sentinel -1 when they never differ), and
threads the ancestor's exhaustion flag into `wasParentExhausted`. -/
theorem C8_context_normalizer (e : ErrRec) :
    (e.context = [] → attachExtraInfoToError e = none) ∧
    (∀ h tail, e.context = h :: tail →
      attachExtraInfoToError e = some
        { context := tail
          message := e.message
          key := h.key
          type := h.type
          actual := h.actual
          isExhausted := decide (∀ c ∈ tail, c.actual = h.actual)
          levelsUntilExhaustion := specFirstDiff e.context
          wasParentExhausted := e.isExhausted }) := by
  constructor
  · intro hc
    simp [attachExtraInfoToError, hc]
  · intro h tail hc
    simp [attachExtraInfoToError, hc, all_jsEq_eq_decide, levelsIdx_eq_specFirstDiff]

theorem C8_context_normalizer_witness :
    attachExtraInfoToError { context := [] } = none ∧
    attachExtraInfoToError
        { context := [⟨"a", Codec.number, JSValue.num 1⟩,
                      ⟨"b", Codec.number, JSValue.num 2⟩] } =
      some { context := [⟨"b", Codec.number, JSValue.num 2⟩]
             message := none
             key := "a"
             type := Codec.number
             actual := JSValue.num 1
             isExhausted :=
               decide (∀ c ∈ [(⟨"b", Codec.number, JSValue.num 2⟩ : ContextEntry)],
                 c.actual = JSValue.num 1)
             levelsUntilExhaustion :=
               specFirstDiff [⟨"a", Codec.number, JSValue.num 1⟩,
                 ⟨"b", Codec.number, JSValue.num 2⟩]
             wasParentExhausted := false } :=
  ⟨(C8_context_normalizer { context := [] }).1 rfl,
   (C8_context_normalizer _).2 ⟨"a", Codec.number, JSValue.num 1⟩
     [⟨"b", Codec.number, JSValue.num 2⟩] rfl⟩

-- ## Claim C6

/-- C6: whenever the candidate type exposes named properties and the
actual value is record-like, the object-similarity score exists and, read
as a rational number, equals `1 + matched − missing/(missing+1)` when
`matched > 0` and `1/(propertyCount+1)` when `matched = 0`, with `matched`
the size of the intersection of the actual value's keys and the type's
property names and `missing = propertyCount − matched`
(`specObjectScore` spells out exactly that formula). -/
theorem C6_object_similarity_formula (type : Codec) (actual : JSValue)
    (props : List (String × Codec)) (hp : Codec.getProps type = some props)
    (hr : actual.isRec = true) :
    ∃ q : Frac, scoreObjectSimilarity type actual = some q ∧
      q.toRat = specObjectScore (dedupeFirst (props.map Prod.fst)) actual.objKeys := by
  have hk := @intersectionList_length_le _ _ _ _ actual.objKeys
    (dedupeFirst (props.map Prod.fst)) (nodup_objKeys actual)
  rw [scoreObjectSimilarity, hp]
  dsimp only
  rw [hr]
  rw [if_neg (by simp)]
  set propNames := dedupeFirst (props.map Prod.fst) with hpn
  set m := (intersectionList actual.objKeys propNames).length with hm
  set n := propNames.length with hn
  by_cases h0 : m ≠ 0
  · rw [if_pos h0]
    refine ⟨_, rfl, ?_⟩
    rw [specObjectScore]
    rw [if_pos (by rw [← hm]; exact_mod_cast h0)]
    rw [Frac.toRat]
    have hk' : ((n : Int) - (m : Int)) + 1 > 0 := by omega
    have hden : (((n : Int) - (m : Int) + 1 : Int) : ℚ) ≠ 0 := by
      exact_mod_cast hk'.ne'
    rw [← hm, ← hn]
    push_cast
    push_cast at hden
    field_simp
  · rw [if_neg h0]
    refine ⟨_, rfl, ?_⟩
    push_neg at h0
    rw [specObjectScore]
    rw [if_neg (by rw [← hm]; simpa using congrArg (Nat.cast : Nat → ℚ) h0)]
    rw [Frac.toRat]
    rw [← hn]
    push_cast
    ring

theorem C6_object_similarity_formula_witness :
    ∃ q : Frac,
      scoreObjectSimilarity (Codec.mkType [("b", Codec.number), ("c", Codec.number)])
          (JSValue.mkObj [("c", JSValue.num 42)]) = some q ∧
      q.toRat = specObjectScore
        (dedupeFirst ([("b", Codec.number), ("c", Codec.number)].map Prod.fst))
        (JSValue.mkObj [("c", JSValue.num 42)]).objKeys :=
  C6_object_similarity_formula _ _ _ rfl rfl

-- ## Claim C5

/-- C5: in both recursion modes the branch key is appended to the
accumulated path unless the ambient type is a union, the ambient type is
an intersection, or it is the absolute root call with an empty key (first
conjunct: `extendPath` is the one path rule both drivers call); and, as
the spec's example, a mismatch nested inside a union that sits inside an
object reports a path with the object's real property names but no
synthetic union segment (second conjunct). -/
theorem C5_path_extension :
    (∀ (branchKey : String) (opts : Options),
      extendPath branchKey opts =
        if isUnionO opts.parentType = true ∨ isInterO opts.parentType = true ∨
            (opts.path = [] ∧ branchKey = "") then opts.path
        else opts.path ++ [branchKey]) ∧
    report (decodeV (Codec.mkType [("x", Codec.mkUnion [Codec.mkType [("y", Codec.number)]])])
        (JSValue.mkObj [("x", JSValue.mkObj [("y", JSValue.str "s")])])) =
      ["got \"s\" expected 'number' at 'x.y'"] ∧
    reportOne (decodeV (Codec.mkType [("x", Codec.mkUnion [Codec.mkType [("y", Codec.number)]])])
        (JSValue.mkObj [("x", JSValue.mkObj [("y", JSValue.str "s")])])) =
      some "got \"s\" expected 'number' at 'x.y'" := by
  refine ⟨?_, by decide, by decide⟩
  intro branchKey opts
  rw [extendPath]
  by_cases h1 : isUnionO opts.parentType = true
  · simp [h1]
  · by_cases h2 : isInterO opts.parentType = true
    · simp [h1, h2]
    · by_cases h3 : opts.path = [] ∧ branchKey = ""
      · have : opts.path.isEmpty && (branchKey == "") = true := by
          simp [h3.1, h3.2]
        simp [h1, h2, h3, this]
      · have : (opts.path.isEmpty && (branchKey == "")) = false := by
          rcases not_and_or.mp h3 with h | h <;> simp [h]
        simp [h1, h2, h3, this]

-- ## Claim C4

/-- C4: at any level, a record qualifies as missing exactly when its
`actual` is undefined and `wasParentExhausted` is false; the qualifying
keys are collected and deduplicated and, when any remain, exactly ONE
combined message is emitted for the level — never one message per key
(the emitted list has length at most 1). The spec's example:
`{a:number,b:number,c:number}` decoding `{b:42}` yields the single
combined message listing `a` and `c`. -/
theorem C4_missing_aggregation :
    (∀ (e : ErrRec),
      getMissingPropertyFromErrorContext e =
        if e.actual = JSValue.undef ∧ e.wasParentExhausted = false then some e.key
        else none) ∧
    (∀ (recs : List ErrRec) (opts : Options),
      (detectMissingProperties recs opts).length ≤ 1 ∧
      detectMissingProperties recs opts =
        (if dedupe (recs.filterMap getMissingPropertyFromErrorContext) = [] then []
         else [opts.messages.missing
           (dedupe (recs.filterMap getMissingPropertyFromErrorContext)) opts.path])) ∧
    report (decodeV (Codec.mkType [("a", Codec.number), ("b", Codec.number),
        ("c", Codec.number)]) (JSValue.mkObj [("b", JSValue.num 42)])) =
      ["missing properties 'a', 'c' at ''"] ∧
    reportOne (decodeV (Codec.mkType [("a", Codec.number), ("b", Codec.number),
        ("c", Codec.number)]) (JSValue.mkObj [("b", JSValue.num 42)])) =
      some "missing properties 'a', 'c' at ''" := by
  refine ⟨?_, ?_, by decide, by decide⟩
  · intro e
    rw [getMissingPropertyFromErrorContext]
    by_cases h1 : e.actual = JSValue.undef
    · by_cases h2 : e.wasParentExhausted
      · simp [h1, h2]
      · simp [h1, h2]
    · simp [h1]
  · intro recs opts
    rw [detectMissingProperties]
    by_cases h : dedupe (recs.filterMap getMissingPropertyFromErrorContext) = []
    · simp [h]
    · simp [h, List.isEmpty_iff]

-- ## Claim C3

/-- C3: for the union `{a:number} | {b:number,c:number}` decoding `{c:42}`,
the reporter emits only the missing-property message for `b` — in both
modes — and the second variant's similarity score is strictly greater than
the first's (property overlap on `c`). -/
theorem C3_union_overlap_disambiguation :
    report (decodeV (Codec.mkUnion [Codec.mkType [("a", Codec.number)],
        Codec.mkType [("b", Codec.number), ("c", Codec.number)]])
      (JSValue.mkObj [("c", JSValue.num 42)])) = ["missing property 'b' at ''"] ∧
    reportOne (decodeV (Codec.mkUnion [Codec.mkType [("a", Codec.number)],
        Codec.mkType [("b", Codec.number), ("c", Codec.number)]])
      (JSValue.mkObj [("c", JSValue.num 42)])) = some "missing property 'b' at ''" ∧
    (∃ q1 q2 : Frac,
      scoreObjectSimilarity (Codec.mkType [("a", Codec.number)])
          (JSValue.mkObj [("c", JSValue.num 42)]) = some q1 ∧
      scoreObjectSimilarity (Codec.mkType [("b", Codec.number), ("c", Codec.number)])
          (JSValue.mkObj [("c", JSValue.num 42)]) = some q2 ∧
      q1.blt q2 = true) := by
  refine ⟨by decide, by decide, ⟨Frac.mk 1 2, Frac.mk 3 2, by decide, by decide, by decide⟩⟩

-- ## Claim C7

/-- C7: for the intersection `{a:number} & {b:string}` decoding `{}` the
exhaustive report contains two independent missing-property messages, one
for `a` and one for `b`, not one grouped message listing both keys. -/
theorem C7_intersection_independent_reports :
    report (decodeV (Codec.mkInter [Codec.mkType [("a", Codec.number)],
        Codec.mkType [("b", Codec.strC)]]) (JSValue.mkObj [])) =
      ["missing property 'a' at ''", "missing property 'b' at ''"] := by
  decide

-- ## Order lemmas for score pairs

/-- Propositional strict lexicographic order on score pairs. -/
def PairLtP (a b : Frac × Int) : Prop :=
  a.1.toRat < b.1.toRat ∨ (a.1.toRat = b.1.toRat ∧ a.2 < b.2)

/-- Propositional equality of score pairs (as rationals). -/
def PairEqP (a b : Frac × Int) : Prop :=
  a.1.toRat = b.1.toRat ∧ a.2 = b.2

theorem frac_blt_iff {a b : Frac} (ha : 0 < a.den) (hb : 0 < b.den) :
    a.blt b = true ↔ a.toRat < b.toRat := by
  rw [Frac.blt, Frac.toRat, Frac.toRat, decide_eq_true_eq]
  rw [div_lt_div_iff₀ (by exact_mod_cast ha) (by exact_mod_cast hb)]
  constructor
  · intro h; exact_mod_cast h
  · intro h; exact_mod_cast h

theorem frac_beq_iff {a b : Frac} (ha : 0 < a.den) (hb : 0 < b.den) :
    a.beq b = true ↔ a.toRat = b.toRat := by
  rw [Frac.beq, Frac.toRat, Frac.toRat, beq_iff_eq]
  rw [div_eq_div_iff (by exact_mod_cast ha.ne') (by exact_mod_cast hb.ne')]
  constructor
  · intro h; exact_mod_cast h
  · intro h; exact_mod_cast h

theorem scorePairLt_iff {a b : Frac × Int} (ha : 0 < a.1.den) (hb : 0 < b.1.den) :
    scorePairLt a b = true ↔ PairLtP a b := by
  rw [scorePairLt, PairLtP, Bool.or_eq_true, Bool.and_eq_true,
    frac_blt_iff ha hb, frac_beq_iff ha hb, decide_eq_true_eq]

theorem scorePairEq_iff {a b : Frac × Int} (ha : 0 < a.1.den) (hb : 0 < b.1.den) :
    scorePairEq a b = true ↔ PairEqP a b := by
  rw [scorePairEq, PairEqP, Bool.and_eq_true, frac_beq_iff ha hb, beq_iff_eq]

theorem scorePairLt_false_iff {a b : Frac × Int} (ha : 0 < a.1.den) (hb : 0 < b.1.den) :
    scorePairLt a b = false ↔ ¬ PairLtP a b := by
  rw [← scorePairLt_iff ha hb]
  cases scorePairLt a b <;> simp

theorem pairLtP_irrefl (a : Frac × Int) : ¬ PairLtP a a := by
  rw [PairLtP]
  rintro (h | ⟨_, h⟩) <;> exact lt_irrefl _ h

-- ## Positivity of the denominators produced by the scoring functions

theorem scoreObjectSimilarity_den_pos {t : Codec} {v : JSValue} {q : Frac}
    (h : scoreObjectSimilarity t v = some q) : 0 < q.den := by
  rw [scoreObjectSimilarity] at h
  cases hp : Codec.getProps t with
  | none => rw [hp] at h; cases h
  | some props =>
    rw [hp] at h
    dsimp only at h
    by_cases hr : v.isRec = true
    · rw [hr, if_neg (by simp)] at h
      have hk := @intersectionList_length_le _ _ _ _ v.objKeys
        (dedupeFirst (props.map Prod.fst)) (nodup_objKeys v)
      by_cases h0 : (intersectionList v.objKeys (dedupeFirst (props.map Prod.fst))).length ≠ 0
      · rw [if_pos h0] at h
        cases h
        dsimp only
        omega
      · rw [if_neg h0] at h
        cases h
        dsimp only
        omega
    · rw [eq_false_of_ne_true hr] at h
      simp only [Bool.false_eq_true, not_false_eq_true, if_true] at h
      cases h

theorem scoreArraySimilarity_den_pos {t : Codec} {v : JSValue} {q : Frac}
    (h : scoreArraySimilarity t v = some q) : 0 < q.den := by
  rw [scoreArraySimilarity] at h
  cases hi : Codec.getArrayItemType t with
  | none => rw [hi] at h; cases h
  | some it =>
    rw [hi] at h
    cases v <;> simp only [Option.some.injEq] at h <;> try cases h
    simp [Frac.ofInt]

theorem scoreTupleSimilarity_den_pos {t : Codec} {v : JSValue} {q : Frac}
    (h : scoreTupleSimilarity t v = some q) : 0 < q.den := by
  rw [scoreTupleSimilarity] at h
  cases hi : Codec.getTupleTypes t with
  | none => rw [hi] at h; cases h
  | some its =>
    rw [hi] at h
    cases v <;> simp only [Option.some.injEq] at h <;> try cases h
    simp [Frac.ofInt]

theorem recScore_den_pos (e : ErrRec) :
    0 < (((scoreObjectSimilarity e.type e.actual).getD
      ((scoreArraySimilarity e.type e.actual).getD
        ((scoreTupleSimilarity e.type e.actual).getD (Frac.ofInt (-1)))))).den := by
  cases ho : scoreObjectSimilarity e.type e.actual with
  | some q => simpa [ho] using scoreObjectSimilarity_den_pos ho
  | none =>
    cases ha : scoreArraySimilarity e.type e.actual with
    | some q => simpa [ho, ha] using scoreArraySimilarity_den_pos ha
    | none =>
      cases ht : scoreTupleSimilarity e.type e.actual with
      | some q => simpa [ho, ha, ht] using scoreTupleSimilarity_den_pos ht
      | none => simp [ho, ha, ht, Frac.ofInt]

theorem maxFrac_mem (l : List Frac) (h0 : l ≠ []) : maxFrac l ∈ l := by
  cases l with
  | nil => cases h0 rfl
  | cons x xs =>
    rw [maxFrac]
    clear h0
    induction xs generalizing x with
    | nil => simp
    | cons y ys ih =>
      rw [List.foldl_cons]
      by_cases hlt : x.blt y = true
      · rw [hlt, if_pos rfl]
        rcases List.mem_cons.mp (ih y) with h1 | h1
        · simp [h1]
        · simp [h1]
      · rw [Bool.eq_false_iff.mpr hlt, if_neg (by simp)]
        rcases List.mem_cons.mp (ih x) with h1 | h1
        · simp [h1]
        · simp [h1]

theorem maxFrac_den_pos {l : List Frac} (h : ∀ x ∈ l, 0 < x.den) (h0 : l ≠ []) :
    0 < (maxFrac l).den :=
  h _ (maxFrac_mem l h0)

theorem branchScore_den_pos (errs : List ErrRec) :
    0 < (branchScore errs).1.den := by
  rw [branchScore]
  dsimp only
  cases errs with
  | nil => simp [maxFrac, Frac.ofInt]
  | cons e es =>
    apply maxFrac_den_pos
    · intro x hx
      rcases List.mem_map.mp hx with ⟨e, _, rfl⟩
      exact recScore_den_pos e
    · simp

theorem pairLtP_trans {a b c : Frac × Int} :
    PairLtP a b → PairLtP b c → PairLtP a c := by
  rw [PairLtP, PairLtP, PairLtP]
  rintro (h1 | ⟨h1, h1'⟩) (h2 | ⟨h2, h2'⟩)
  · exact Or.inl (lt_trans h1 h2)
  · exact Or.inl (h2 ▸ h1)
  · exact Or.inl (h1 ▸ h2)
  · exact Or.inr ⟨h1.trans h2, lt_trans h1' h2'⟩

theorem pairLtP_asymm {a b : Frac × Int} : PairLtP a b → ¬ PairLtP b a := by
  intro h1 h2
  exact pairLtP_irrefl a (pairLtP_trans h1 h2)

theorem pairEqP_iff_not_lt {a b : Frac × Int} :
    PairEqP a b ↔ ¬ PairLtP a b ∧ ¬ PairLtP b a := by
  rw [PairEqP, PairLtP, PairLtP]
  constructor
  · rintro ⟨h1, h2⟩
    constructor
    · rintro (h | ⟨_, h⟩)
      · exact absurd h (by rw [h1]; exact lt_irrefl _)
      · exact absurd h (by rw [h2]; exact lt_irrefl _)
    · rintro (h | ⟨_, h⟩)
      · exact absurd h (by rw [h1]; exact lt_irrefl _)
      · exact absurd h (by rw [h2]; exact lt_irrefl _)
  · rintro ⟨h1, h2⟩
    push_neg at h1 h2
    have e1 : a.1.toRat = b.1.toRat := le_antisymm (h2.1) (h1.1)
    exact ⟨e1, le_antisymm (h2.2 e1.symm) (h1.2 e1)⟩

theorem pairEqP_lt_congr {a b c : Frac × Int} (h : PairEqP a b) :
    PairLtP a c ↔ PairLtP b c := by
  obtain ⟨h1, h2⟩ := h
  rw [PairLtP, PairLtP, h1, h2]

theorem pairEqP_symm {a b : Frac × Int} (h : PairEqP a b) : PairEqP b a :=
  ⟨h.1.symm, h.2.symm⟩

theorem pairEqP_trans {a b c : Frac × Int} (h1 : PairEqP a b) (h2 : PairEqP b c) :
    PairEqP a c :=
  ⟨h1.1.trans h2.1, h1.2.trans h2.2⟩

theorem pairNotLtP_trans {a b c : Frac × Int} :
    ¬ PairLtP a b → ¬ PairLtP b c → ¬ PairLtP a c := by
  rw [PairLtP, PairLtP, PairLtP]
  intro h1 h2
  push_neg at h1 h2 ⊢
  obtain ⟨hb1, hb2⟩ := h1
  obtain ⟨hc1, hc2⟩ := h2
  refine ⟨le_trans hc1 hb1, ?_⟩
  intro he
  have hab : a.1.toRat ≤ b.1.toRat := by rw [he]; exact hc1
  have e1 : a.1.toRat = b.1.toRat := le_antisymm hab hb1
  have hbc : b.1.toRat ≤ c.1.toRat := by rw [← he]; exact hb1
  have e2 : b.1.toRat = c.1.toRat := le_antisymm hbc hc1
  exact le_trans (hc2 e2) (hb2 e1)

-- The running best of `multiMaxByAll`'s fold: it is the seed or one of the
-- scores, it never loses to the seed, and no listed element beats it.
theorem foldBest_spec {α : Type} (score : α → Frac × Int) :
    ∀ (xs : List α) (a0 : Frac × Int), (∀ a, 0 < (score a).1.den) → 0 < a0.1.den →
      (List.foldl (fun acc y => if scorePairLt acc (score y) then score y else acc) a0 xs
          = a0 ∨
        ∃ z ∈ xs,
          List.foldl (fun acc y => if scorePairLt acc (score y) then score y else acc) a0 xs
            = score z) ∧
      ¬ PairLtP
        (List.foldl (fun acc y => if scorePairLt acc (score y) then score y else acc) a0 xs)
        a0 ∧
      (∀ y ∈ xs,
        ¬ PairLtP
          (List.foldl (fun acc y => if scorePairLt acc (score y) then score y else acc)
            a0 xs) (score y)) := by
  intro xs
  induction xs with
  | nil =>
    intro a0 _ _
    exact ⟨Or.inl rfl, pairLtP_irrefl a0, by intro y hy; cases hy⟩
  | cons x xs ih =>
    intro a0 hden hden0
    rw [List.foldl_cons]
    by_cases hlt : scorePairLt a0 (score x) = true
    · rw [hlt, if_pos rfl]
      obtain ⟨ihm, ihseed, ihmax⟩ := ih (score x) hden (hden x)
      have hlt' : PairLtP a0 (score x) := (scorePairLt_iff hden0 (hden x)).mp hlt
      refine ⟨?_, ?_, ?_⟩
      · rcases ihm with h | ⟨z, hz, h⟩
        · exact Or.inr ⟨x, by simp, h⟩
        · exact Or.inr ⟨z, by simp [hz], h⟩
      · intro hcon
        exact ihseed (pairLtP_trans hcon hlt')
      · intro y hy
        rcases List.mem_cons.mp hy with rfl | hy
        · exact ihseed
        · exact ihmax y hy
    · rw [Bool.eq_false_iff.mpr hlt, if_neg (by simp)]
      obtain ⟨ihm, ihseed, ihmax⟩ := ih a0 hden hden0
      have hlt' : ¬ PairLtP a0 (score x) :=
        (scorePairLt_false_iff hden0 (hden x)).mp (Bool.eq_false_iff.mpr hlt)
      refine ⟨?_, ihseed, ?_⟩
      · rcases ihm with h | ⟨z, hz, h⟩
        · exact Or.inl h
        · exact Or.inr ⟨z, by simp [hz], h⟩
      intro y hy
      rcases List.mem_cons.mp hy with rfl | hy
      · exact pairNotLtP_trans ihseed hlt'
      · exact ihmax y hy

-- ## sortBy: permutation and stability

theorem insertByInt_perm (m : α → Int) (x : α) :
    ∀ l : List α, (insertByInt m x l).Perm (x :: l) := by
  intro l
  induction l with
  | nil => rfl
  | cons y ys ih =>
    rw [insertByInt]
    by_cases h : m y < m x
    · rw [if_pos h]
      exact (List.Perm.cons y ih).trans (List.Perm.swap x y ys)
    · rw [if_neg h]

theorem sortBy_perm (m : α → Int) : ∀ l : List α, (sortBy m l).Perm l := by
  intro l
  induction l with
  | nil => rfl
  | cons x xs ih =>
    rw [sortBy]
    exact (insertByInt_perm m x (sortBy m xs)).trans (List.Perm.cons x ih)

theorem mem_sortBy {m : α → Int} {l : List α} {x : α} :
    x ∈ sortBy m l ↔ x ∈ l :=
  (sortBy_perm m l).mem_iff

theorem filter_insertByInt_neg {p : α → Bool} {x : α} (hpx : p x = false)
    (m : α → Int) : ∀ s : List α, (insertByInt m x s).filter p = s.filter p := by
  intro s
  induction s with
  | nil => simp [insertByInt, hpx]
  | cons y ys ih =>
    rw [insertByInt]
    by_cases h : m y < m x
    · rw [if_pos h]
      rw [List.filter_cons, List.filter_cons]
      cases p y <;> simp [ih]
    · rw [if_neg h]
      rw [List.filter_cons, hpx]
      simp

theorem filter_insertByInt_pos {p : α → Bool} {x : α} (hpx : p x = true)
    (m : α → Int) :
    ∀ s : List α, (∀ y ∈ s, p y = true → m x ≤ m y) →
      (insertByInt m x s).filter p = x :: s.filter p := by
  intro s
  induction s with
  | nil => intro _; simp [insertByInt, hpx]
  | cons y ys ih =>
    intro h
    rw [insertByInt]
    by_cases hm : m y < m x
    · rw [if_pos hm]
      have hpy : p y = false := by
        cases hy : p y with
        | false => rfl
        | true => exact absurd (h y (by simp) hy) (by omega)
      rw [List.filter_cons, hpy]
      simp only [Bool.false_eq_true, if_false]
      rw [ih (fun z hz hpz => h z (by simp [hz]) hpz)]
      rw [List.filter_cons, hpy]
      simp
    · rw [if_neg hm]
      rw [List.filter_cons, hpx]
      simp

theorem filter_sortBy {p : α → Bool} {m : α → Int} {c : Int} :
    ∀ l : List α, (∀ y ∈ l, p y = true → m y = c) →
      (sortBy m l).filter p = l.filter p := by
  intro l
  induction l with
  | nil => intro _; rfl
  | cons x xs ih =>
    intro h
    rw [sortBy]
    by_cases hpx : p x = true
    · rw [filter_insertByInt_pos hpx m (sortBy m xs) (fun y hy hpy => by
        rw [h x (by simp) hpx, h y (by simp [mem_sortBy.mp hy]) hpy])]
      rw [ih (fun y hy hpy => h y (by simp [hy]) hpy)]
      rw [List.filter_cons, hpx]
      simp
    · have hpx' : p x = false := Bool.eq_false_iff.mpr hpx
      rw [filter_insertByInt_neg hpx' m (sortBy m xs)]
      rw [ih (fun y hy hpy => h y (by simp [hy]) hpy)]
      rw [List.filter_cons, hpx']
      simp

theorem selectBest_spec (l : List (String × List ErrRec)) :
    (selectBestUnionVariant l).length ≤ 1 ∧
    ∀ b ∈ selectBestUnionVariant l,
      b ∈ l ∧
      (∀ y ∈ l, ¬ PairLtP (branchScore b.2) (branchScore y.2)) ∧
      ∃ rest, l.filter (fun y => scorePairEq (branchScore y.2) (branchScore b.2)) =
        b :: rest := by
  rw [selectBestUnionVariant]
  cases l with
  | nil => simp [multiMaxByAll]
  | cons x xs =>
    rw [multiMaxByAll]
    have hden : ∀ a : String × List ErrRec, 0 < ((fun b => branchScore b.2) a).1.den :=
      fun a => branchScore_den_pos a.2
    obtain ⟨hbm, hbseed, hbmax⟩ :=
      foldBest_spec (fun b => branchScore b.2) xs (branchScore x.2) hden
        (branchScore_den_pos x.2)
    rw [show (List.foldl
        (fun acc y => if scorePairLt acc (branchScore y.2) then branchScore y.2 else acc)
        (branchScore x.2) xs) = lexBest (fun b => branchScore b.2) x xs from rfl] at hbm hbseed hbmax
    set best := lexBest (fun b => branchScore b.2) x xs with hbest
    have hbden : 0 < best.1.den := by
      rcases hbm with h | ⟨z, _, h⟩
      · rw [h]; exact branchScore_den_pos x.2
      · rw [h]; exact branchScore_den_pos z.2
    have hmaxall : ∀ y ∈ x :: xs, ¬ PairLtP best (branchScore y.2) := by
      intro y hy
      rcases List.mem_cons.mp hy with rfl | hy
      · exact hbseed
      · exact hbmax y hy
    constructor
    · simp
    · intro b hb
      have hfl : ∃ rest,
          (x :: xs).filter (fun y => scorePairEq (branchScore y.2) best) = b :: rest := by
        cases hf : (x :: xs).filter (fun y => scorePairEq (branchScore y.2) best) with
        | nil => rw [hf] at hb; cases hb
        | cons c cs =>
          rw [hf] at hb
          simp only [List.take_succ_cons, List.take_zero, List.mem_singleton] at hb
          exact ⟨cs, by rw [hb]⟩
      obtain ⟨rest, hrest⟩ := hfl
      have hbmem : b ∈ (x :: xs).filter (fun y => scorePairEq (branchScore y.2) best) := by
        rw [hrest]; simp
      have hbl : b ∈ x :: xs := (List.mem_filter.mp hbmem).1
      have hbeq : PairEqP (branchScore b.2) best :=
        (scorePairEq_iff (hden b) hbden).mp (List.mem_filter.mp hbmem).2
      refine ⟨hbl, ?_, ?_⟩
      · intro y hy
        rw [pairEqP_lt_congr hbeq]
        exact hmaxall y hy
      · refine ⟨rest, ?_⟩
        rw [← hrest]
        apply List.filter_congr
        intro y hy
        cases h1 : scorePairEq (branchScore y.2) (branchScore b.2) with
        | true =>
          symm
          rw [scorePairEq_iff (hden y) hbden]
          exact pairEqP_trans ((scorePairEq_iff (hden y) (hden b)).mp h1) hbeq
        | false =>
          symm
          rw [← Bool.not_eq_true, scorePairEq_iff (hden y) hbden]
          intro hc
          rw [← Bool.not_eq_true, scorePairEq_iff (hden y) (hden b)] at h1
          exact h1 (pairEqP_trans hc (pairEqP_symm hbeq))

-- ## Claim C2

/-- C2 counterexample: two union variants tied at the maximal score pair —
`scorePairEq` of their branch scores holds — yet `selectBestUnionVariant`
(the selection exhaustive reporting uses, via `filterBranches`) keeps only
ONE branch, and the end-to-end exhaustive report of the tied union
`{a:number} | {b:number}` decoding `{}` mentions only variant `a`'s
missing property, not variant `b`'s. -/
theorem C2_counterexample_exhaustive_tie :
    scorePairEq
        (branchScore [{ context := []
                        type := Codec.mkType [("a", Codec.number)]
                        actual := JSValue.mkObj [] }])
        (branchScore [{ context := []
                        type := Codec.mkType [("b", Codec.number)]
                        actual := JSValue.mkObj [] }]) = true ∧
    (selectBestUnionVariant
        [("0", [{ context := []
                  type := Codec.mkType [("a", Codec.number)]
                  actual := JSValue.mkObj [] }]),
         ("1", [{ context := []
                  type := Codec.mkType [("b", Codec.number)]
                  actual := JSValue.mkObj [] }])]).length = 1 ∧
    (selectBestUnionVariant
        [("0", [{ context := []
                  type := Codec.mkType [("a", Codec.number)]
                  actual := JSValue.mkObj [] }]),
         ("1", [{ context := []
                  type := Codec.mkType [("b", Codec.number)]
                  actual := JSValue.mkObj [] }])]).map Prod.fst = ["0"] ∧
    report (decodeV (Codec.mkUnion [Codec.mkType [("a", Codec.number)],
        Codec.mkType [("b", Codec.number)]]) (JSValue.mkObj [])) =
      ["missing property 'a' at ''"] := by
  refine ⟨by decide, by decide, by decide, by decide⟩

/-- C2 as amended: when the ambient type is a union, BOTH drivers keep at
most one branch — the first branch (in the order handed to selection)
whose (similarity, narrowing) pair is lexicographically maximal; tied
branches beyond the first are dropped in exhaustive mode too. For
non-union ambient types no scoring happens: the branches are kept in
full (stably sorted by narrowing), a permutation of the input. -/
theorem C2_amended_branch_selection (branches : List (String × List ErrRec))
    (pt : Option Codec) :
    (isUnionO pt = true →
      (filterBranches pt branches).length ≤ 1 ∧
      ∀ b ∈ filterBranches pt branches,
        b ∈ branches ∧
        (∀ y ∈ branches, ¬ PairLtP (branchScore b.2) (branchScore y.2)) ∧
        ∃ pre post, branches = pre ++ b :: post ∧
          ∀ p ∈ pre, ¬ PairEqP (branchScore p.2) (branchScore b.2)) ∧
    (isUnionO pt = false →
      filterBranches pt branches =
        sortBy (fun b => maxLevelsUntilExhaustion b.2) branches ∧
      (filterBranches pt branches).Perm branches) := by
  constructor
  · intro hu
    have hfb : filterBranches pt branches =
        selectBestUnionVariant (sortBy (fun b => maxLevelsUntilExhaustion b.2) branches) := by
      rw [filterBranches, if_pos hu]
    set sorted := sortBy (fun b => maxLevelsUntilExhaustion b.2) branches with hsorted
    obtain ⟨hlen, hspec⟩ := selectBest_spec sorted
    rw [hfb]
    refine ⟨hlen, ?_⟩
    intro b hb
    obtain ⟨hbmem, hbmax, rest, hrest⟩ := hspec b hb
    have hbranches : b ∈ branches := mem_sortBy.mp hbmem
    refine ⟨hbranches, ?_, ?_⟩
    · intro y hy
      exact hbmax y (mem_sortBy.mpr hy)
    · -- stability: the tied-at-max elements share the sort measure, so the
      -- filter over the sorted list equals the filter over the input
      have hmeasure : ∀ y ∈ branches,
          scorePairEq (branchScore y.2) (branchScore b.2) = true →
            maxLevelsUntilExhaustion y.2 = (branchScore b.2).2 := by
        intro y _ hy
        have := (scorePairEq_iff (branchScore_den_pos y.2) (branchScore_den_pos b.2)).mp hy
        exact this.2
      have hstable := @filter_sortBy _
        (fun y => scorePairEq (branchScore y.2) (branchScore b.2))
        (fun b => maxLevelsUntilExhaustion b.2) ((branchScore b.2).2)
        branches hmeasure
      rw [← hsorted] at hstable
      rw [hstable] at hrest
      obtain ⟨l1, l2, hsplit, hpre, _, _⟩ := List.filter_eq_cons_iff.mp hrest
      refine ⟨l1, l2, hsplit, ?_⟩
      intro p hp
      intro hc
      have := hpre p hp
      rw [scorePairEq_iff (branchScore_den_pos p.2) (branchScore_den_pos b.2)] at this
      exact absurd hc (by simpa using this)
  · intro hn
    have hfb : filterBranches pt branches =
        sortBy (fun b => maxLevelsUntilExhaustion b.2) branches := by
      rw [filterBranches, if_neg (by simp [hn])]
    exact ⟨hfb, hfb ▸ sortBy_perm _ branches⟩

theorem C2_amended_branch_selection_witness :
    isUnionO (some (Codec.mkUnion [Codec.number])) = true ∧
    (filterBranches (some (Codec.mkUnion [Codec.number]))
        [("0", [({ context := [] } : ErrRec)])]).length ≤ 1 :=
  ⟨rfl, ((C2_amended_branch_selection [("0", [({ context := [] } : ErrRec)])]
    (some (Codec.mkUnion [Codec.number]))).1 rfl).1⟩

-- ## RelMissing infrastructure (claim C9)

theorem relMissing_refl (f : List String → List String → String) (d : Messages) :
    ∀ l : List String, RelMissing f d l l := by
  intro l
  induction l with
  | nil => exact RelMissing.nil
  | cons x xs ih => exact RelMissing.same x ih

theorem relMissing_append {f : List String → List String → String} {d : Messages}
    {ts ds ts' ds' : List String} (h1 : RelMissing f d ts ds)
    (h2 : RelMissing f d ts' ds') : RelMissing f d (ts ++ ts') (ds ++ ds') := by
  induction h1 with
  | nil => exact h2
  | same s _ ih => exact RelMissing.same s ih
  | miss keys path _ ih => exact RelMissing.miss keys path ih
  | dropL keys path _ ih => exact RelMissing.dropL keys path ih
  | dropR keys path _ ih => exact RelMissing.dropR keys path ih

theorem contains_iff_mem [BEq α] [LawfulBEq α] {l : List α} {x : α} :
    l.contains x = true ↔ x ∈ l :=
  List.elem_iff

theorem dedupeFirstAux_append_singleton [BEq α] [LawfulBEq α] (a : α) :
    ∀ (M seen : List α),
      dedupeFirstAux seen (M ++ [a]) =
        dedupeFirstAux seen M ++ (if a ∈ seen ∨ a ∈ M then [] else [a]) := by
  intro M
  induction M with
  | nil =>
    intro seen
    simp only [List.nil_append, dedupeFirstAux]
    by_cases h : a ∈ seen
    · rw [if_pos (contains_iff_mem.mpr h), if_pos (Or.inl h)]
    · rw [if_neg (fun hc => h (contains_iff_mem.mp hc)),
        if_neg (by rintro (h1 | h1); exact h h1; cases h1)]
  | cons x xs ih =>
    intro seen
    rw [List.cons_append, dedupeFirstAux, dedupeFirstAux]
    by_cases h : seen.contains x
    · rw [if_pos h, if_pos h, ih seen]
      have hx : x ∈ seen := contains_iff_mem.mp h
      by_cases ha : a ∈ seen ∨ a ∈ xs
      · rw [if_pos ha, if_pos (by
          rcases ha with ha | ha
          · exact Or.inl ha
          · exact Or.inr (List.mem_cons_of_mem _ ha))]
      · rw [if_neg ha, if_neg (by
          rintro (h1 | h1)
          · exact ha (Or.inl h1)
          · rcases List.mem_cons.mp h1 with rfl | h1
            · exact ha (Or.inl hx)
            · exact ha (Or.inr h1))]
    · rw [if_neg h, if_neg h, ih (x :: seen), List.cons_append]
      congr 1
      by_cases ha : a ∈ x :: seen ∨ a ∈ xs
      · rw [if_pos ha, if_pos (by
          rcases ha with ha | ha
          · rcases List.mem_cons.mp ha with rfl | ha
            · exact Or.inr (List.mem_cons_self _ _)
            · exact Or.inl ha
          · exact Or.inr (List.mem_cons_of_mem _ ha))]
      · rw [if_neg ha, if_neg (by
          rintro (h1 | h1)
          · exact ha (Or.inl (List.mem_cons_of_mem _ h1))
          · rcases List.mem_cons.mp h1 with rfl | h1
            · exact ha (Or.inl (List.mem_cons_self _ _))
            · exact ha (Or.inr h1))]

theorem dedupe_append_singleton (a : String) (M : List String) :
    dedupe (M ++ [a]) = dedupe M ++ (if a ∈ M then [] else [a]) := by
  rw [dedupe, dedupe, dedupeFirst, dedupeFirst, dedupeFirstAux_append_singleton]
  simp

theorem relMissing_dedupe_level (f : List String → List String → String)
    (d : Messages) (M : List String) (keys path : List String) :
    RelMissing f d (dedupe (M ++ [f keys path])) (dedupe (M ++ [d.missing keys path])) := by
  rw [dedupe_append_singleton, dedupe_append_singleton]
  by_cases h1 : f keys path ∈ M
  · by_cases h2 : d.missing keys path ∈ M
    · rw [if_pos h1, if_pos h2]
      simpa using relMissing_refl f d (dedupe M)
    · rw [if_pos h1, if_neg h2]
      simpa using relMissing_append (relMissing_refl f d (dedupe M))
        (RelMissing.dropL keys path RelMissing.nil)
  · by_cases h2 : d.missing keys path ∈ M
    · rw [if_neg h1, if_pos h2]
      simpa using relMissing_append (relMissing_refl f d (dedupe M))
        (RelMissing.dropR keys path RelMissing.nil)
    · rw [if_neg h1, if_neg h2]
      exact relMissing_append (relMissing_refl f d (dedupe M))
        (RelMissing.miss keys path RelMissing.nil)

theorem defaultMessages_missing_ne_empty (keys path : List String) :
    defaultMessages.missing keys path ≠ "" := by
  intro h
  have hlen : (defaultMessages.missing keys path).length = 0 := by rw [h]; rfl
  rw [defaultMessages, Messages.default] at hlen
  simp only [String.length_append] at hlen
  have h1 : ("missing " : String).length = 8 := rfl
  omega

-- one-step unfolding of the drivers, with the options record split into its
-- fields so that both runs expose syntactically identical scrutinees

theorem explainAll_succ (n : Nat) (errors : List ErrRec) (path : List String)
    (pt : Option Codec) (m : Messages) :
    explainAll (n + 1) errors ⟨path, pt, m⟩ =
      dedupe (detectTypeMismatches
          (jsEntriesOrder (groupByKey (errors.filterMap attachExtraInfoToError)))
          ⟨path, pt, m⟩ ++
        detectMissingProperties (errors.filterMap attachExtraInfoToError) ⟨path, pt, m⟩) ++
      (filterBranches pt
          (jsEntriesOrder (groupByKey (errors.filterMap attachExtraInfoToError)))).flatMap
        (fun branch =>
          match headB branch.2 with
          | none => []
          | some firstError =>
            explainAll n branch.2
              ⟨extendPath branch.1 ⟨path, pt, m⟩, some firstError.type, m⟩) := rfl

theorem explain_succ (n : Nat) (errors : List ErrRec) (path : List String)
    (pt : Option Codec) (m : Messages) :
    explain (n + 1) errors ⟨path, pt, m⟩ =
      (match
        (match headStr (detectTypeMismatches
            (jsEntriesOrder (groupByKey (errors.filterMap attachExtraInfoToError)))
            ⟨path, pt, m⟩) with
         | some e => some e
         | none =>
           headStr (detectMissingProperties (errors.filterMap attachExtraInfoToError)
             ⟨path, pt, m⟩)) with
      | some e => some e
      | none =>
        match headB (filterBranches pt
            (jsEntriesOrder (groupByKey (errors.filterMap attachExtraInfoToError)))) with
        | none => none
        | some branch =>
          match headB branch.2 with
          | none => none
          | some firstError =>
            explain n branch.2
              ⟨extendPath branch.1 ⟨path, pt, m⟩, some firstError.type, m⟩) := rfl

/-- `detectTypeMismatches` never reads the `missing` formatter, so replacing
only that field leaves its output unchanged (definitionally). -/
theorem detectTypeMismatches_missing (g : List (String × List ErrRec))
    (f : List String → List String → String) (d : Messages)
    (path : List String) (pt : Option Codec) :
    detectTypeMismatches g ⟨path, pt, { d with missing := f }⟩ =
      detectTypeMismatches g ⟨path, pt, d⟩ := rfl

theorem detectMissingProperties_eq (ctxs : List ErrRec) (path : List String)
    (pt : Option Codec) (m : Messages) :
    detectMissingProperties ctxs ⟨path, pt, m⟩ =
      (if (dedupe (ctxs.filterMap getMissingPropertyFromErrorContext)).isEmpty then []
       else [m.missing (dedupe (ctxs.filterMap getMissingPropertyFromErrorContext)) path]) :=
  rfl

theorem headStr_detectMissingProperties (ctxs : List ErrRec) (path : List String)
    (pt : Option Codec) (m : Messages) (h : ∀ keys p, m.missing keys p ≠ "") :
    headStr (detectMissingProperties ctxs ⟨path, pt, m⟩) =
      (if (dedupe (ctxs.filterMap getMissingPropertyFromErrorContext)).isEmpty then none
       else some (m.missing (dedupe (ctxs.filterMap getMissingPropertyFromErrorContext))
         path)) := by
  rw [detectMissingProperties_eq]
  cases hU : (dedupe (ctxs.filterMap getMissingPropertyFromErrorContext)).isEmpty with
  | true => rfl
  | false =>
    rw [if_neg Bool.false_ne_true, if_neg Bool.false_ne_true]
    simp [headStr, h]

/-- Master simulation: as long as neither `missing` formatter ever returns
the empty string, a run whose options override only `missing` stays related
(at every fuel, error list, path and ambient type) to the default-formatter
run — same messages except for the text of missing-field messages, which
may also be deduplicated away when the text collides inside one level. -/
theorem missing_override_master (f : List String → List String → String) (d : Messages)
    (hf : ∀ keys path, f keys path ≠ "")
    (hd : ∀ keys path, d.missing keys path ≠ "") :
    ∀ fuel errors (path : List String) (pt : Option Codec),
      RelMissing f d (explainAll fuel errors ⟨path, pt, { d with missing := f }⟩)
          (explainAll fuel errors ⟨path, pt, d⟩) ∧
        relOneMissing f d (explain fuel errors ⟨path, pt, { d with missing := f }⟩)
          (explain fuel errors ⟨path, pt, d⟩) := by
  intro fuel
  induction fuel with
  | zero =>
    intro errors path pt
    exact ⟨RelMissing.nil, Or.inl ⟨rfl, rfl⟩⟩
  | succ n ih =>
    intro errors path pt
    have hflat : ∀ bs : List (String × List ErrRec),
        RelMissing f d
          (bs.flatMap (fun branch =>
            match headB branch.2 with
            | none => []
            | some firstError =>
              explainAll n branch.2
                ⟨extendPath branch.1 ⟨path, pt, { d with missing := f }⟩,
                  some firstError.type, { d with missing := f }⟩))
          (bs.flatMap (fun branch =>
            match headB branch.2 with
            | none => []
            | some firstError =>
              explainAll n branch.2
                ⟨extendPath branch.1 ⟨path, pt, d⟩, some firstError.type, d⟩)) := by
      intro bs
      induction bs with
      | nil => exact RelMissing.nil
      | cons b rest ihb =>
        simp only [List.flatMap_cons]
        cases hb : headB b.2 with
        | none => simpa using ihb
        | some fe => exact relMissing_append ((ih b.2 _ _).1) ihb
    constructor
    · rw [explainAll_succ, explainAll_succ, detectTypeMismatches_missing,
        detectMissingProperties_eq, detectMissingProperties_eq]
      cases hU : (dedupe (((errors.filterMap attachExtraInfoToError)).filterMap
          getMissingPropertyFromErrorContext)).isEmpty with
      | true =>
        rw [if_pos rfl, if_pos rfl]
        exact relMissing_append (relMissing_refl f d _) (hflat _)
      | false =>
        rw [if_neg Bool.false_ne_true, if_neg Bool.false_ne_true]
        exact relMissing_append (relMissing_dedupe_level f d _ _ _) (hflat _)
    · rw [explain_succ, explain_succ, detectTypeMismatches_missing,
        headStr_detectMissingProperties _ _ pt _ hf,
        headStr_detectMissingProperties _ _ pt _ hd]
      cases hTM : headStr (detectTypeMismatches
          (jsEntriesOrder (groupByKey (errors.filterMap attachExtraInfoToError)))
          ⟨path, pt, d⟩) with
      | some e => exact Or.inr (Or.inl ⟨e, rfl, rfl⟩)
      | none =>
        cases hU : (dedupe (((errors.filterMap attachExtraInfoToError)).filterMap
            getMissingPropertyFromErrorContext)).isEmpty with
        | false =>
          exact Or.inr (Or.inr ⟨dedupe (((errors.filterMap attachExtraInfoToError)).filterMap
            getMissingPropertyFromErrorContext), path, rfl, rfl⟩)
        | true =>
          cases hB : headB (filterBranches pt
              (jsEntriesOrder (groupByKey (errors.filterMap attachExtraInfoToError)))) with
          | none => exact Or.inl ⟨rfl, rfl⟩
          | some branch =>
            show relOneMissing f d
              (match headB branch.2 with
               | none => none
               | some firstError =>
                 explain n branch.2
                   ⟨extendPath branch.1 ⟨path, pt, { d with missing := f }⟩,
                     some firstError.type, { d with missing := f }⟩)
              (match headB branch.2 with
               | none => none
               | some firstError =>
                 explain n branch.2
                   ⟨extendPath branch.1 ⟨path, pt, d⟩, some firstError.type, d⟩)
            cases hFE : headB branch.2 with
            | none => exact Or.inl ⟨rfl, rfl⟩
            | some fe => exact (ih branch.2 _ _).2

-- ## Claim C9

/-- C9 counterexample: overriding only the `missing` formatter with one
that returns the empty string changes WHICH messages are reported, not
merely their text — for `\x7ba: number\x7d` decoding `\x7b\x7d`,
`reportOne` stops reporting anything (the head message is taken with
`arr[0] || null`, and `''` is falsy) while the default run reports the
missing property, and the exhaustive report still carries one (empty)
message. -/
theorem C9_counterexample_empty_missing_override :
    reportOne (decodeV (Codec.mkType [("a", Codec.number)]) (JSValue.mkObj []))
        { messages := some { missing := some (fun _ _ => "") } } = none ∧
    reportOne (decodeV (Codec.mkType [("a", Codec.number)]) (JSValue.mkObj [])) =
      some "missing property 'a' at ''" ∧
    report (decodeV (Codec.mkType [("a", Codec.number)]) (JSValue.mkObj []))
        { messages := some { missing := some (fun _ _ => "") } } = [""] ∧
    report (decodeV (Codec.mkType [("a", Codec.number)]) (JSValue.mkObj [])) =
      ["missing property 'a' at ''"] :=
  ⟨by decide, by decide, by decide, by decide⟩

/-- C9 as amended: for every validation result, overriding only the
`missing` formatter with a formatter that never returns the empty string
changes only the text of missing-field messages: the exhaustive reports of
the two runs agree message for message (each run carrying its own
missing-field text, a missing-field message possibly deduplicated away on
an in-level text collision), and the single-result runs report nothing
together, the very same mismatch/custom text, or the two formatters'
missing-field texts for the same keys and path. -/
theorem C9_amended_formatter_noninterference
    (f : List String → List String → String)
    (hf : ∀ keys path, f keys path ≠ "")
    (validation : Except (List ErrRec) JSValue) :
    RelMissing f defaultMessages
      (report validation { messages := some { missing := some f } })
      (report validation) ∧
    relOneMissing f defaultMessages
      (reportOne validation { messages := some { missing := some f } })
      (reportOne validation) := by
  cases validation with
  | ok v => exact ⟨RelMissing.nil, Or.inl ⟨rfl, rfl⟩⟩
  | error errors =>
    exact missing_override_master f defaultMessages hf defaultMessages_missing_ne_empty
      (reportFuel errors) errors [] none

theorem C9_amended_formatter_noninterference_witness :
    RelMissing (fun _ _ => "required") defaultMessages
      (report (decodeV (Codec.mkType [("a", Codec.number)]) (JSValue.mkObj []))
        { messages := some { missing := some (fun _ _ => "required") } })
      (report (decodeV (Codec.mkType [("a", Codec.number)]) (JSValue.mkObj []))) ∧
    relOneMissing (fun _ _ => "required") defaultMessages
      (reportOne (decodeV (Codec.mkType [("a", Codec.number)]) (JSValue.mkObj []))
        { messages := some { missing := some (fun _ _ => "required") } })
      (reportOne (decodeV (Codec.mkType [("a", Codec.number)]) (JSValue.mkObj []))) :=
  C9_amended_formatter_noninterference (fun _ _ => "required")
    (fun _ _ => (by decide : ("required" : String) ≠ "")) _

-- # Machinery for claims C1 and C10: decoder-produced failure structure

-- ## B1 definitions

/-- Boolean key-distinctness, kernel-computable. -/
def nodupKeys : List String → Bool
  | [] => true
  | x :: xs => ¬ xs.contains x && nodupKeys xs

-- Modelled from the spec: well-formedness of the io-ts types the spec's
-- claims quantify over — object types cannot repeat a property name
-- (object literals have unique keys) and `t.union` takes at least one
-- member (its signature demands two or more).
mutual
def Codec.wf : Codec → Bool
  | .number => true
  | .strC => true
  | .boolC => true
  | .nullC => true
  | .typeC props => nodupKeys (props.toList.map Prod.fst) && CProps.wfAll props
  | .arrayC item => item.wf
  | .tupleC items => Codecs.wfAll items
  | .unionC ts => ¬ ts.toList.isEmpty && Codecs.wfAll ts
  | .interC ts => Codecs.wfAll ts

def Codecs.wfAll : Codecs → Bool
  | .nil => true
  | .cons c t => c.wf && Codecs.wfAll t

def CProps.wfAll : CProps → Bool
  | .nil => true
  | .cons _ c t => c.wf && CProps.wfAll t
end

/-- The child nodes a failing validation of `T` against `w` descends into:
key, child codec, child value — exactly as `chainsF` prepends them. -/
def childList : Codec → JSValue → List (String × Codec × JSValue)
  | .typeC props, v => props.toList.map (fun kv => (kv.1, kv.2, v.getField kv.1))
  | .arrayC item, v =>
    match v with
    | .arr xs => xs.toList.enum.map (fun p => (toString p.1, item, p.2))
    | _ => []
  | .tupleC items, v =>
    match v with
    | .arr xs => items.toList.enum.map
        (fun p => (toString p.1, p.2, xs.toList.getD p.1 JSValue.undef))
    | _ => []
  | .unionC ts, v => ts.toList.enum.map (fun p => (toString p.1, p.2, v))
  | .interC ts, v => ts.toList.enum.map (fun p => (toString p.1, p.2, v))
  | _, _ => []

/-- The failure chains one child contributes, decorated with the child's
context entry; empty when the child validates. -/
def KidChains (f : Nat) (kid : String × Codec × JSValue) : List (List ContextEntry) :=
  match chainsF f kid.2.1 kid.2.2 with
  | none => []
  | some cs => cs.map (fun ch => (⟨kid.1, kid.2.1, kid.2.2⟩ : ContextEntry) :: ch)

/-- A wholesale failure: the node's own kind check rejects the value, so
the failure carries no child entries (unions and intersections never fail
wholesale — their failures are their members' failures). -/
def wholesaleFail : Codec → JSValue → Bool
  | .number, v => ¬ v.isNum
  | .strC, v => ¬ v.isStr
  | .boolC, v => ¬ v.isBool
  | .nullC, v => ¬ v.isNull
  | .typeC _, v => ¬ v.isRec
  | .arrayC _, v => ¬ v.isArr
  | .tupleC _, v => ¬ v.isArr
  | .unionC _, _ => false
  | .interC _, _ => false

-- ## Nat.repr round-trip (array/tuple/member keys are `String(i)`)

theorem parse_toDigitsCore :
    ∀ fuel n ds, n < fuel →
      List.foldl (fun acc c => acc * 10 + (c.toNat - '0'.toNat)) 0
          (Nat.toDigitsCore 10 fuel n ds) =
        List.foldl (fun acc c => acc * 10 + (c.toNat - '0'.toNat)) n ds := by
  intro fuel
  induction fuel with
  | zero => intro n ds h; omega
  | succ fuel ih =>
    intro n ds h
    rw [Nat.toDigitsCore]
    have hd : (Nat.digitChar (n % 10)).toNat - '0'.toNat = n % 10 := by
      have h10 : n % 10 < 10 := Nat.mod_lt _ (by omega)
      interval_cases h : n % 10 <;> rfl
    by_cases h0 : n / 10 = 0
    · rw [if_pos h0]
      simp only [List.foldl_cons]
      rw [hd]
      have heq : 0 * 10 + n % 10 = n := by omega
      rw [heq]
    · rw [if_neg h0, ih (n / 10) _ (by omega)]
      simp only [List.foldl_cons]
      rw [hd]
      have heq : n / 10 * 10 + n % 10 = n := by omega
      rw [heq]

theorem parseNatDigits_repr (n : Nat) : parseNatDigits (Nat.repr n).toList = n := by
  have h : (Nat.repr n).toList = Nat.toDigitsCore 10 (n + 1) n [] := rfl
  rw [parseNatDigits, h, parse_toDigitsCore (n + 1) n [] (by omega)]
  rfl

theorem toString_nat_inj {i j : Nat} (h : toString i = toString j) : i = j := by
  have hi : parseNatDigits (Nat.repr i).toList = i := parseNatDigits_repr i
  have hj : parseNatDigits (Nat.repr j).toList = j := parseNatDigits_repr j
  have hr : (Nat.repr i) = (Nat.repr j) := h
  rw [hr, hj] at hi
  exact hi.symm

-- ## nodupKeys

theorem nodupKeys_iff : ∀ l : List String, nodupKeys l = true ↔ l.Nodup := by
  intro l
  induction l with
  | nil => simp [nodupKeys]
  | cons x xs ih =>
    simp only [nodupKeys, Bool.and_eq_true, Bool.not_eq_true', List.nodup_cons, ih]
    constructor
    · rintro ⟨h1, h2⟩
      refine ⟨fun hc => ?_, h2⟩
      rw [contains_iff_mem.mpr hc] at h1
      cases h1
    · rintro ⟨h1, h2⟩
      refine ⟨?_, h2⟩
      cases hc : xs.contains x with
      | false => rfl
      | true => exact absurd (contains_iff_mem.mp hc) h1

-- ## enum-key distinctness

theorem enum_keys_nodup (l : List α) :
    ((l.enum).map (fun p => toString p.1)).Nodup := by
  have h1 : (l.enum).map (fun p => toString p.1) =
      (List.range l.length).map (fun i => toString i) := by
    rw [← List.enum_map_fst l, List.map_map]
    rfl
  rw [h1]
  exact (List.nodup_range _).map (fun a b h => toString_nat_inj h)

-- ## helper list lemma

theorem flatMap_map_comp {l : List α} {f : α → β} {g : β → List γ} :
    (l.map f).flatMap g = l.flatMap (fun x => g (f x)) := by
  induction l with
  | nil => rfl
  | cons x xs ih => simp only [List.map_cons, List.flatMap_cons, ih]

-- ## wf projections

theorem wfAll_codecs_mem :
    ∀ ts : Codecs, Codecs.wfAll ts = true → ∀ c ∈ ts.toList, Codec.wf c = true
  | .nil => by intro _ c hc; cases hc
  | .cons c0 t => by
    intro h c hc
    rw [Codecs.wfAll, Bool.and_eq_true] at h
    rw [Codecs.toList] at hc
    rcases List.mem_cons.mp hc with rfl | hc
    · exact h.1
    · exact wfAll_codecs_mem t h.2 c hc

theorem wfAll_cprops_mem :
    ∀ ps : CProps, CProps.wfAll ps = true → ∀ k c, (k, c) ∈ ps.toList →
      Codec.wf c = true
  | .nil => by intro _ k c hc; cases hc
  | .cons k0 c0 t => by
    intro h k c hc
    rw [CProps.wfAll, Bool.and_eq_true] at h
    rw [CProps.toList] at hc
    rcases List.mem_cons.mp hc with heq | hc
    · cases heq; exact h.1
    · exact wfAll_cprops_mem t h.2 k c hc

-- ## depth bounds

theorem depth_pos (c : Codec) : 1 ≤ c.depth := by
  cases c <;> rw [Codec.depth] <;> omega

theorem codecs_depth_le :
    ∀ ts : Codecs, ∀ c ∈ ts.toList, c.depth ≤ Codecs.depth ts
  | .nil => by intro c hc; cases hc
  | .cons c0 t => by
    intro c hc
    rw [Codecs.toList] at hc
    rw [Codecs.depth]
    rcases List.mem_cons.mp hc with rfl | hc
    · exact le_max_left _ _
    · exact le_trans (codecs_depth_le t c hc) (le_max_right _ _)

theorem cprops_depth_le :
    ∀ ps : CProps, ∀ k c, (k, c) ∈ ps.toList → c.depth ≤ CProps.depth ps
  | .nil => by intro k c hc; cases hc
  | .cons k0 c0 t => by
    intro k c hc
    rw [CProps.toList] at hc
    rw [CProps.depth]
    rcases List.mem_cons.mp hc with heq | hc
    · cases heq; exact le_max_left _ _
    · exact le_trans (cprops_depth_le t k c hc) (le_max_right _ _)

theorem childList_depth_lt {T : Codec} {w : JSValue} {k : String} {ct : Codec}
    {cv : JSValue} (h : (k, ct, cv) ∈ childList T w) : ct.depth < T.depth := by
  cases T with
  | number => cases h
  | strC => cases h
  | boolC => cases h
  | nullC => cases h
  | typeC props =>
    rw [childList] at h
    obtain ⟨kv, hkv, heq⟩ := List.mem_map.mp h
    cases heq
    rw [Codec.depth]
    have := cprops_depth_le props kv.1 kv.2 (by simpa using hkv)
    omega
  | arrayC item =>
    cases w with
    | arr xs =>
      simp only [childList] at h
      obtain ⟨p, hp, heq⟩ := List.mem_map.mp h
      cases heq
      rw [Codec.depth]
      omega
    | undef => simp [childList] at h
    | nullV => simp [childList] at h
    | boolV b => simp [childList] at h
    | num n => simp [childList] at h
    | str s => simp [childList] at h
    | obj fs => simp [childList] at h
  | tupleC items =>
    cases w with
    | arr xs =>
      simp only [childList] at h
      obtain ⟨p, hp, heq⟩ := List.mem_map.mp h
      cases heq
      rw [Codec.depth]
      have hmem : p.2 ∈ items.toList := by
        have := List.mem_enum_iff_get?.mp hp
        exact List.get?_mem this
      have := codecs_depth_le items p.2 hmem
      omega
    | undef => simp [childList] at h
    | nullV => simp [childList] at h
    | boolV b => simp [childList] at h
    | num n => simp [childList] at h
    | str s => simp [childList] at h
    | obj fs => simp [childList] at h
  | unionC ts =>
    rw [childList] at h
    obtain ⟨p, hp, heq⟩ := List.mem_map.mp h
    cases heq
    rw [Codec.depth]
    have hmem : p.2 ∈ ts.toList := by
      have := List.mem_enum_iff_get?.mp hp
      exact List.get?_mem this
    have := codecs_depth_le ts p.2 hmem
    omega
  | interC ts =>
    rw [childList] at h
    obtain ⟨p, hp, heq⟩ := List.mem_map.mp h
    cases heq
    rw [Codec.depth]
    have hmem : p.2 ∈ ts.toList := by
      have := List.mem_enum_iff_get?.mp hp
      exact List.get?_mem this
    have := codecs_depth_le ts p.2 hmem
    omega

theorem childList_wf {T : Codec} {w : JSValue} {k : String} {ct : Codec}
    {cv : JSValue} (hwf : Codec.wf T = true) (h : (k, ct, cv) ∈ childList T w) :
    Codec.wf ct = true := by
  cases T with
  | number => cases h
  | strC => cases h
  | boolC => cases h
  | nullC => cases h
  | typeC props =>
    rw [childList] at h
    obtain ⟨kv, hkv, heq⟩ := List.mem_map.mp h
    cases heq
    rw [Codec.wf, Bool.and_eq_true] at hwf
    exact wfAll_cprops_mem props hwf.2 kv.1 kv.2 (by simpa using hkv)
  | arrayC item =>
    cases w with
    | arr xs =>
      simp only [childList] at h
      obtain ⟨p, hp, heq⟩ := List.mem_map.mp h
      cases heq
      exact hwf
    | undef => simp [childList] at h
    | nullV => simp [childList] at h
    | boolV b => simp [childList] at h
    | num n => simp [childList] at h
    | str s => simp [childList] at h
    | obj fs => simp [childList] at h
  | tupleC items =>
    cases w with
    | arr xs =>
      simp only [childList] at h
      obtain ⟨p, hp, heq⟩ := List.mem_map.mp h
      cases heq
      rw [Codec.wf] at hwf
      exact wfAll_codecs_mem items hwf p.2 (List.get?_mem (List.mem_enum_iff_get?.mp hp))
    | undef => simp [childList] at h
    | nullV => simp [childList] at h
    | boolV b => simp [childList] at h
    | num n => simp [childList] at h
    | str s => simp [childList] at h
    | obj fs => simp [childList] at h
  | unionC ts =>
    rw [childList] at h
    obtain ⟨p, hp, heq⟩ := List.mem_map.mp h
    cases heq
    rw [Codec.wf, Bool.and_eq_true] at hwf
    exact wfAll_codecs_mem ts hwf.2 p.2 (List.get?_mem (List.mem_enum_iff_get?.mp hp))
  | interC ts =>
    rw [childList] at h
    obtain ⟨p, hp, heq⟩ := List.mem_map.mp h
    cases heq
    rw [Codec.wf] at hwf
    exact wfAll_codecs_mem ts hwf p.2 (List.get?_mem (List.mem_enum_iff_get?.mp hp))

theorem childList_keys_nodup {T : Codec} {w : JSValue} (hwf : Codec.wf T = true) :
    ((childList T w).map (fun kcv => kcv.1)).Nodup := by
  cases T with
  | number => simp [childList]
  | strC => simp [childList]
  | boolC => simp [childList]
  | nullC => simp [childList]
  | typeC props =>
    rw [childList, List.map_map]
    rw [Codec.wf, Bool.and_eq_true] at hwf
    have hn := (nodupKeys_iff (props.toList.map Prod.fst)).mp hwf.1
    simpa [Function.comp] using hn
  | arrayC item =>
    cases w with
    | arr xs =>
      simp only [childList, List.map_map]
      exact enum_keys_nodup xs.toList
    | undef => simp [childList]
    | nullV => simp [childList]
    | boolV b => simp [childList]
    | num n => simp [childList]
    | str s => simp [childList]
    | obj fs => simp [childList]
  | tupleC items =>
    cases w with
    | arr xs =>
      simp only [childList, List.map_map]
      exact enum_keys_nodup items.toList
    | undef => simp [childList]
    | nullV => simp [childList]
    | boolV b => simp [childList]
    | num n => simp [childList]
    | str s => simp [childList]
    | obj fs => simp [childList]
  | unionC ts =>
    rw [childList, List.map_map]
    exact enum_keys_nodup ts.toList
  | interC ts =>
    rw [childList, List.map_map]
    exact enum_keys_nodup ts.toList

-- ## KidChains basics

theorem KidChains_mem_ne_nil {f : Nat} {kid : String × Codec × JSValue}
    {ch : List ContextEntry} (h : ch ∈ KidChains f kid) : ch ≠ [] := by
  rw [KidChains] at h
  cases hc : chainsF f kid.2.1 kid.2.2 with
  | none => rw [hc] at h; cases h
  | some cs =>
    rw [hc] at h
    obtain ⟨ch', _, rfl⟩ := List.mem_map.mp h
    simp

theorem KidChains_head {f : Nat} {kid : String × Codec × JSValue}
    {ch : List ContextEntry} (h : ch ∈ KidChains f kid) :
    ∃ rest cs, ch = (⟨kid.1, kid.2.1, kid.2.2⟩ : ContextEntry) :: rest ∧
      chainsF f kid.2.1 kid.2.2 = some cs ∧ rest ∈ cs := by
  rw [KidChains] at h
  cases hc : chainsF f kid.2.1 kid.2.2 with
  | none => rw [hc] at h; cases h
  | some cs =>
    rw [hc] at h
    obtain ⟨rest, hrest, rfl⟩ := List.mem_map.mp h
    exact ⟨rest, cs, rfl, rfl, hrest⟩

-- ## chainsF shape characterization

theorem chainsF_shape {f : Nat} {T : Codec} {w : JSValue}
    {cs : List (List ContextEntry)} (h : chainsF (f + 1) T w = some cs) :
    (cs = [[]] ∧ wholesaleFail T w = true) ∨
      ((∀ ch ∈ cs, ch ≠ []) ∧ cs = (childList T w).flatMap (KidChains f)) := by
  cases T with
  | number =>
    rw [chainsF] at h
    split at h
    · cases h
    next hv =>
      cases h
      refine Or.inl ⟨rfl, ?_⟩
      rw [wholesaleFail]
      simp [Bool.eq_false_iff.mpr hv]
  | strC =>
    rw [chainsF] at h
    split at h
    · cases h
    next hv =>
      cases h
      refine Or.inl ⟨rfl, ?_⟩
      rw [wholesaleFail]
      simp [Bool.eq_false_iff.mpr hv]
  | boolC =>
    rw [chainsF] at h
    split at h
    · cases h
    next hv =>
      cases h
      refine Or.inl ⟨rfl, ?_⟩
      rw [wholesaleFail]
      simp [Bool.eq_false_iff.mpr hv]
  | nullC =>
    rw [chainsF] at h
    split at h
    · cases h
    next hv =>
      cases h
      refine Or.inl ⟨rfl, ?_⟩
      rw [wholesaleFail]
      simp [Bool.eq_false_iff.mpr hv]
  | typeC props =>
    rw [chainsF] at h
    split at h
    next hv =>
      cases h
      refine Or.inl ⟨rfl, ?_⟩
      rw [wholesaleFail]
      simp [Bool.eq_false_iff.mpr hv]
    next hv =>
      try dsimp only at h
      split at h
      · cases h
      · cases h
        refine Or.inr ⟨?_, ?_⟩
        · intro ch hch
          obtain ⟨kv, hkv, hchk⟩ := List.mem_flatMap.mp hch
          exact KidChains_mem_ne_nil
            (show ch ∈ KidChains f (kv.1, kv.2, w.getField kv.1) from hchk)
        · rw [childList, flatMap_map_comp]
          rfl
  | arrayC item =>
    cases w with
    | arr xs =>
      rw [chainsF] at h
      try dsimp only at h
      split at h
      · cases h
      · cases h
        refine Or.inr ⟨?_, ?_⟩
        · intro ch hch
          obtain ⟨p, hp, hchp⟩ := List.mem_flatMap.mp hch
          exact KidChains_mem_ne_nil
            (show ch ∈ KidChains f (toString p.1, item, p.2) from hchp)
        · simp only [childList]
          rw [flatMap_map_comp]
          rfl
    | undef =>
      rw [chainsF] at h
      · cases h
        exact Or.inl ⟨rfl, rfl⟩
      · intro xs hxs
        cases hxs
    | nullV =>
      rw [chainsF] at h
      · cases h
        exact Or.inl ⟨rfl, rfl⟩
      · intro xs hxs
        cases hxs
    | boolV b =>
      rw [chainsF] at h
      · cases h
        exact Or.inl ⟨rfl, rfl⟩
      · intro xs hxs
        cases hxs
    | num n =>
      rw [chainsF] at h
      · cases h
        exact Or.inl ⟨rfl, rfl⟩
      · intro xs hxs
        cases hxs
    | str s =>
      rw [chainsF] at h
      · cases h
        exact Or.inl ⟨rfl, rfl⟩
      · intro xs hxs
        cases hxs
    | obj fs =>
      rw [chainsF] at h
      · cases h
        exact Or.inl ⟨rfl, rfl⟩
      · intro xs hxs
        cases hxs
  | tupleC items =>
    cases w with
    | arr xs =>
      rw [chainsF] at h
      try dsimp only at h
      split at h
      · cases h
      · cases h
        refine Or.inr ⟨?_, ?_⟩
        · intro ch hch
          obtain ⟨p, hp, hchp⟩ := List.mem_flatMap.mp hch
          exact KidChains_mem_ne_nil
            (show ch ∈ KidChains f (toString p.1, p.2, xs.toList.getD p.1 JSValue.undef)
              from hchp)
        · simp only [childList]
          rw [flatMap_map_comp]
          rfl
    | undef =>
      rw [chainsF] at h
      · cases h
        exact Or.inl ⟨rfl, rfl⟩
      · intro xs hxs
        cases hxs
    | nullV =>
      rw [chainsF] at h
      · cases h
        exact Or.inl ⟨rfl, rfl⟩
      · intro xs hxs
        cases hxs
    | boolV b =>
      rw [chainsF] at h
      · cases h
        exact Or.inl ⟨rfl, rfl⟩
      · intro xs hxs
        cases hxs
    | num n =>
      rw [chainsF] at h
      · cases h
        exact Or.inl ⟨rfl, rfl⟩
      · intro xs hxs
        cases hxs
    | str s =>
      rw [chainsF] at h
      · cases h
        exact Or.inl ⟨rfl, rfl⟩
      · intro xs hxs
        cases hxs
    | obj fs =>
      rw [chainsF] at h
      · cases h
        exact Or.inl ⟨rfl, rfl⟩
      · intro xs hxs
        cases hxs
  | unionC ts =>
    rw [chainsF] at h
    try dsimp only at h
    split at h
    · cases h
    · cases h
      refine Or.inr ⟨?_, ?_⟩
      · intro ch hch
        obtain ⟨r, hr, hchr⟩ := List.mem_flatMap.mp hch
        obtain ⟨p, hp, rfl⟩ := List.mem_map.mp hr
        exact KidChains_mem_ne_nil
          (show ch ∈ KidChains f (toString p.1, p.2, w) from hchr)
      · rw [childList, flatMap_map_comp, flatMap_map_comp]
        rfl
  | interC ts =>
    rw [chainsF] at h
    try dsimp only at h
    split at h
    · cases h
    · cases h
      refine Or.inr ⟨?_, ?_⟩
      · intro ch hch
        obtain ⟨p, hp, hchp⟩ := List.mem_flatMap.mp hch
        exact KidChains_mem_ne_nil
          (show ch ∈ KidChains f (toString p.1, p.2, w) from hchp)
      · rw [childList, flatMap_map_comp]
        rfl

-- ## chainsF nonemptiness (well-formed codecs)

theorem chainsF_ne_nil :
    ∀ (f : Nat) (T : Codec) (w : JSValue) (cs : List (List ContextEntry)),
      Codec.wf T = true → chainsF f T w = some cs → cs ≠ [] := by
  intro f
  induction f with
  | zero =>
    intro T w cs _ h
    rw [chainsF] at h
    cases h
    simp
  | succ f ih =>
    intro T w cs hwf h
    cases T with
    | number =>
      rw [chainsF] at h
      split at h
      · cases h
      · cases h; simp
    | strC =>
      rw [chainsF] at h
      split at h
      · cases h
      · cases h; simp
    | boolC =>
      rw [chainsF] at h
      split at h
      · cases h
      · cases h; simp
    | nullC =>
      rw [chainsF] at h
      split at h
      · cases h
      · cases h; simp
    | typeC props =>
      rw [chainsF] at h
      split at h
      · cases h; simp
      · try dsimp only at h
        split at h
        · cases h
        next hne =>
          cases h
          intro hnil
          rw [hnil] at hne
          exact hne rfl
    | arrayC item =>
      cases w with
      | arr xs =>
        rw [chainsF] at h
        try dsimp only at h
        split at h
        · cases h
        next hne =>
          cases h
          intro hnil
          rw [hnil] at hne
          exact hne rfl
      | undef =>
        rw [chainsF] at h
        · cases h; simp
        · intro xs hxs; cases hxs
      | nullV =>
        rw [chainsF] at h
        · cases h; simp
        · intro xs hxs; cases hxs
      | boolV b =>
        rw [chainsF] at h
        · cases h; simp
        · intro xs hxs; cases hxs
      | num n =>
        rw [chainsF] at h
        · cases h; simp
        · intro xs hxs; cases hxs
      | str s =>
        rw [chainsF] at h
        · cases h; simp
        · intro xs hxs; cases hxs
      | obj fs =>
        rw [chainsF] at h
        · cases h; simp
        · intro xs hxs; cases hxs
    | tupleC items =>
      cases w with
      | arr xs =>
        rw [chainsF] at h
        try dsimp only at h
        split at h
        · cases h
        next hne =>
          cases h
          intro hnil
          rw [hnil] at hne
          exact hne rfl
      | undef =>
        rw [chainsF] at h
        · cases h; simp
        · intro xs hxs; cases hxs
      | nullV =>
        rw [chainsF] at h
        · cases h; simp
        · intro xs hxs; cases hxs
      | boolV b =>
        rw [chainsF] at h
        · cases h; simp
        · intro xs hxs; cases hxs
      | num n =>
        rw [chainsF] at h
        · cases h; simp
        · intro xs hxs; cases hxs
      | str s =>
        rw [chainsF] at h
        · cases h; simp
        · intro xs hxs; cases hxs
      | obj fs =>
        rw [chainsF] at h
        · cases h; simp
        · intro xs hxs; cases hxs
    | interC ts =>
      rw [chainsF] at h
      try dsimp only at h
      split at h
      · cases h
      next hne =>
        cases h
        intro hnil
        rw [hnil] at hne
        exact hne rfl
    | unionC ts =>
      rw [chainsF] at h
      try dsimp only at h
      split at h
      · cases h
      next hany =>
        cases h
        rw [Codec.wf, Bool.and_eq_true] at hwf
        obtain ⟨hne, hall⟩ := hwf
        cases hts : ts.toList with
        | nil =>
          rw [hts] at hne
          simp at hne
        | cons m ms =>
          have hmem : ((0 : Nat), m) ∈ ts.toList.enum := by
            rw [hts, List.enum_cons]
            exact List.mem_cons_self _ _
          have hrmem : ((0 : Nat), m, chainsF f m w) ∈ ts.toList.enum.map
              (fun p => (p.1, p.2, chainsF f p.2 w)) :=
            List.mem_map.mpr ⟨(0, m), hmem, rfl⟩
          have hwfm : Codec.wf m = true :=
            wfAll_codecs_mem ts hall m (by rw [hts]; exact List.mem_cons_self _ _)
          cases hc : chainsF f m w with
          | none =>
            exfalso
            apply hany
            refine List.any_eq_true.mpr ⟨(0, m, chainsF f m w), hrmem, ?_⟩
            rw [hc]
            rfl
          | some cs0 =>
            have hcs0 : cs0 ≠ [] := ih m w cs0 hwfm hc
            cases hcs0' : cs0 with
            | nil => exact absurd hcs0' hcs0
            | cons c0 crest =>
              intro hnil
              have hmem2 : ((⟨toString (0 : Nat), m, w⟩ : ContextEntry) :: c0) ∈
                  (ts.toList.enum.map (fun p => (p.1, p.2, chainsF f p.2 w))).flatMap
                    (fun r =>
                      match r.2.2 with
                      | none => []
                      | some cs => cs.map (fun ch =>
                          (⟨toString r.1, r.2.1, w⟩ : ContextEntry) :: ch)) := by
                refine List.mem_flatMap.mpr ⟨(0, m, chainsF f m w), hrmem, ?_⟩
                rw [hc]
                dsimp only
                exact List.mem_map.mpr ⟨c0, by rw [hcs0']; exact List.mem_cons_self _ _, rfl⟩
              rw [hts] at hmem2
              exact absurd hnil (List.ne_nil_of_mem hmem2)

-- ## union chains start at the union's own value

theorem chainsF_union_head {f : Nat} {ts : Codecs} {cv : JSValue}
    {cs : List (List ContextEntry)} (h : chainsF (f + 1) (Codec.unionC ts) cv = some cs)
    {ch : List ContextEntry} (hch : ch ∈ cs) :
    ∃ en rest, ch = en :: rest ∧ en.actual = cv := by
  rcases chainsF_shape h with ⟨_, hw⟩ | ⟨_, heq⟩
  · rw [wholesaleFail] at hw
    cases hw
  · rw [heq] at hch
    obtain ⟨kid, hkid, hchk⟩ := List.mem_flatMap.mp hch
    obtain ⟨rest, cs', heqc, _, _⟩ := KidChains_head hchk
    refine ⟨_, rest, heqc, ?_⟩
    rw [childList] at hkid
    obtain ⟨p, _, rfl⟩ := List.mem_map.mp hkid
    rfl

-- ## a chain with no entries is the wholesale singleton

theorem chainsF_nil_mem_wholesale {f : Nat} {T : Codec} {w : JSValue}
    {cs : List (List ContextEntry)} (h : chainsF (f + 1) T w = some cs)
    (hnil : [] ∈ cs) : cs = [[]] ∧ wholesaleFail T w = true := by
  rcases chainsF_shape h with hc | ⟨hne, _⟩
  · exact hc
  · exact absurd rfl (hne [] hnil)

-- ## per-record similarity score

/-- The similarity score `selectBestUnionVariant` computes for one record:
object, else array, else tuple similarity, else `-1` (the JS `??` chain). -/
def recScore (e : ErrRec) : Frac :=
  (scoreObjectSimilarity e.type e.actual).getD
    ((scoreArraySimilarity e.type e.actual).getD
      ((scoreTupleSimilarity e.type e.actual).getD (Frac.ofInt (-1))))

theorem branchScore_eq (errs : List ErrRec) :
    branchScore errs = (maxFrac (errs.map recScore), maxLevelsUntilExhaustion errs) := rfl

theorem recScore_den_pos' (e : ErrRec) : 0 < (recScore e).den := recScore_den_pos e

theorem recScore_of_wholesale {ct : Codec} {cv : JSValue}
    (hw : wholesaleFail ct cv = true) (e : ErrRec) (ht : e.type = ct)
    (ha : e.actual = cv) : recScore e = Frac.ofInt (-1) := by
  rw [recScore, ht, ha]
  cases ct with
  | number => rfl
  | strC => rfl
  | boolC => rfl
  | nullC => rfl
  | typeC props =>
    rw [wholesaleFail] at hw
    have hrec : cv.isRec = false := by
      cases hr : cv.isRec
      · rfl
      · rw [hr] at hw; cases hw
    rw [scoreObjectSimilarity]
    rw [show Codec.getProps (Codec.typeC props) = some props.toList from rfl]
    dsimp only
    rw [hrec]
    simp [scoreArraySimilarity, scoreTupleSimilarity, Codec.getArrayItemType,
      Codec.getTupleTypes]
  | arrayC item =>
    rw [wholesaleFail] at hw
    have harr : cv.isArr = false := by
      cases hr : cv.isArr
      · rfl
      · rw [hr] at hw; cases hw
    cases cv with
    | arr xs => rw [JSValue.isArr] at harr; cases harr
    | undef => rfl
    | nullV => rfl
    | boolV b => rfl
    | num n => rfl
    | str s => rfl
    | obj fs => rfl
  | tupleC items =>
    rw [wholesaleFail] at hw
    have harr : cv.isArr = false := by
      cases hr : cv.isArr
      · rfl
      · rw [hr] at hw; cases hw
    cases cv with
    | arr xs => rw [JSValue.isArr] at harr; cases harr
    | undef => rfl
    | nullV => rfl
    | boolV b => rfl
    | num n => rfl
    | str s => rfl
    | obj fs => rfl
  | unionC ts => rw [wholesaleFail] at hw; cases hw
  | interC ts => rw [wholesaleFail] at hw; cases hw

theorem recScore_of_union {ts : Codecs} (e : ErrRec) (ht : e.type = Codec.unionC ts) :
    recScore e = Frac.ofInt (-1) := by
  rw [recScore, ht]
  rfl


-- ## B3: grouping and decomposition plumbing

/-- The record list before a level's pop splits into consecutive blocks,
one per failing child, whose contexts are that child's decorated chains. -/
inductive PopSegs (f : Nat) : List ErrRec → List (String × Codec × JSValue) → Prop where
  | nil : PopSegs f [] []
  | skip (kid : String × Codec × JSValue) {E : List ErrRec}
      {kids : List (String × Codec × JSValue)} :
      chainsF f kid.2.1 kid.2.2 = none → PopSegs f E kids → PopSegs f E (kid :: kids)
  | seg (kid : String × Codec × JSValue) (cs : List (List ContextEntry))
      {E1 E : List ErrRec} {kids : List (String × Codec × JSValue)} :
      chainsF f kid.2.1 kid.2.2 = some cs →
      E1.map (fun e => e.context) =
        cs.map (fun ch => (⟨kid.1, kid.2.1, kid.2.2⟩ : ContextEntry) :: ch) →
      PopSegs f E kids → PopSegs f (E1 ++ E) (kid :: kids)

theorem popSegs_of_map_eq :
    ∀ (kids : List (String × Codec × JSValue)) (E : List ErrRec) (f : Nat),
      E.map (fun e => e.context) = kids.flatMap (KidChains f) → PopSegs f E kids := by
  intro kids
  induction kids with
  | nil =>
    intro E f h
    rw [List.flatMap_nil] at h
    rw [List.map_eq_nil] at h
    rw [h]
    exact PopSegs.nil
  | cons kid rest ih =>
    intro E f h
    rw [List.flatMap_cons] at h
    obtain ⟨E1, E2, rfl, h1, h2⟩ := List.map_eq_append.mp h
    cases hc : chainsF f kid.2.1 kid.2.2 with
    | none =>
      rw [KidChains, hc] at h1
      rw [List.map_eq_nil] at h1
      rw [h1, List.nil_append]
      exact PopSegs.skip kid hc (ih E2 f h2)
    | some cs =>
      rw [KidChains, hc] at h1
      exact PopSegs.seg kid cs hc h1 (ih E2 f h2)

theorem popSegs_keys :
    ∀ {f : Nat} {E : List ErrRec} {kids : List (String × Codec × JSValue)},
      PopSegs f E kids → ∀ r ∈ E.filterMap attachExtraInfoToError,
        r.key ∈ kids.map (fun kcv => kcv.1) := by
  intro f E kids h
  induction h with
  | nil => intro r hr; cases hr
  | skip kid hc hPS ih =>
    intro r hr
    exact List.mem_cons_of_mem _ (ih r hr)
  | seg kid cs hc hmap hPS ih =>
    intro r hr
    rw [List.filterMap_append, List.mem_append] at hr
    rcases hr with hr | hr
    · obtain ⟨e, he, hat⟩ := List.mem_filterMap.mp hr
      have hctx : e.context ∈ cs.map (fun ch =>
          (⟨kid.1, kid.2.1, kid.2.2⟩ : ContextEntry) :: ch) := by
        rw [← hmap]
        exact List.mem_map_of_mem _ he
      obtain ⟨ch, _, hch⟩ := List.mem_map.mp hctx
      rw [attachExtraInfoToError, ← hch] at hat
      cases hat
      exact List.mem_cons_self _ _
    · exact List.mem_cons_of_mem _ (ih r hr)

-- membership characterization of the popped records

theorem mem_filterMap_attach {E : List ErrRec} {r : ErrRec}
    (h : r ∈ E.filterMap attachExtraInfoToError) :
    ∃ e ∈ E, ∃ hd tl, e.context = hd :: tl ∧
      r = { context := tl
            message := e.message
            key := hd.key
            type := hd.type
            actual := hd.actual
            isExhausted := tl.all (fun c => jsEq c.actual hd.actual)
            levelsUntilExhaustion := levelsUntilExhaustionIdx e.context
            wasParentExhausted := e.isExhausted } := by
  obtain ⟨e, he, hat⟩ := List.mem_filterMap.mp h
  cases hctx : e.context with
  | nil => rw [attachExtraInfoToError, hctx] at hat; cases hat
  | cons hd tl =>
    rw [attachExtraInfoToError, hctx] at hat
    cases hat
    exact ⟨e, he, hd, tl, hctx, by rw [hctx]⟩

theorem attach_mem_of_mem {E : List ErrRec} {e : ErrRec} (he : e ∈ E)
    {hd : ContextEntry} {tl : List ContextEntry} (hctx : e.context = hd :: tl) :
    ({ context := tl
       message := e.message
       key := hd.key
       type := hd.type
       actual := hd.actual
       isExhausted := tl.all (fun c => jsEq c.actual hd.actual)
       levelsUntilExhaustion := levelsUntilExhaustionIdx e.context
       wasParentExhausted := e.isExhausted } : ErrRec) ∈
      E.filterMap attachExtraInfoToError := by
  refine List.mem_filterMap.mpr ⟨e, he, ?_⟩
  rw [attachExtraInfoToError, hctx]

-- ## addToGroup / groupByKey structure

theorem addToGroup_new {acc : List (String × List ErrRec)} {y : ErrRec}
    (hacc : ∀ g ∈ acc, g.1 ≠ y.key) :
    addToGroup acc y = acc ++ [(y.key, [y])] := by
  rw [addToGroup, if_neg]
  intro hc
  obtain ⟨g, hg, hgy⟩ := List.any_eq_true.mp hc
  exact hacc g hg (by simpa using hgy)

theorem addToGroup_existing {acc : List (String × List ErrRec)} {k : String}
    {zs : List ErrRec} {y : ErrRec} (hk : y.key = k)
    (hacc : ∀ g ∈ acc, g.1 ≠ k) :
    addToGroup (acc ++ [(k, zs)]) y = acc ++ [(k, zs ++ [y])] := by
  rw [addToGroup, if_pos]
  · rw [List.map_append]
    congr 1
    · refine (List.map_congr_left ?_).trans (List.map_id acc)
      intro g hg
      have hne : ¬ ((g.1 == y.key) = true) := by
        simp only [beq_iff_eq, hk]
        exact hacc g hg
      rw [if_neg hne]
      rfl
    · rw [List.map_cons, List.map_nil, if_pos (by simp [hk])]
  · refine List.any_eq_true.mpr ⟨(k, zs), by simp, by simp [hk]⟩

theorem addToGroup_head {g0 : String × List ErrRec}
    {acc : List (String × List ErrRec)} {y : ErrRec} (h : g0.1 ≠ y.key) :
    addToGroup (g0 :: acc) y = g0 :: addToGroup acc y := by
  rw [addToGroup, addToGroup, List.any_cons]
  have hg0 : (g0.1 == y.key) = false := by simpa using h
  rw [hg0, Bool.false_or]
  by_cases hc : acc.any (fun g => g.1 == y.key) = true
  · rw [if_pos hc, if_pos hc, List.map_cons, if_neg (by simp [h])]
  · rw [if_neg hc, if_neg hc, List.cons_append]

theorem foldl_addToGroup_head {g0 : String × List ErrRec} :
    ∀ {zs : List ErrRec} {acc : List (String × List ErrRec)},
      (∀ z ∈ zs, g0.1 ≠ z.key) →
      List.foldl addToGroup (g0 :: acc) zs = g0 :: List.foldl addToGroup acc zs := by
  intro zs
  induction zs with
  | nil => intro acc _; rfl
  | cons z zs ih =>
    intro acc h
    rw [List.foldl_cons, List.foldl_cons, addToGroup_head (h z (by simp))]
    exact ih (fun z hz => h z (by simp [hz]))

theorem foldl_addToGroup_run {k : String} :
    ∀ (ys : List ErrRec) (acc : List (String × List ErrRec)) (zs : List ErrRec),
      (∀ r ∈ ys, r.key = k) → (∀ g ∈ acc, g.1 ≠ k) →
      List.foldl addToGroup (acc ++ [(k, zs)]) ys = acc ++ [(k, zs ++ ys)] := by
  intro ys
  induction ys with
  | nil => intro acc zs _ _; simp
  | cons y ys ih =>
    intro acc zs hys hacc
    rw [List.foldl_cons, addToGroup_existing (hys y (by simp)) hacc]
    rw [ih acc (zs ++ [y]) (fun r hr => hys r (by simp [hr])) hacc]
    simp

theorem groupByKey_block {k : String} {ys zs : List ErrRec}
    (hys : ∀ r ∈ ys, r.key = k) (hne : ys ≠ [])
    (hzs : ∀ z ∈ zs, k ≠ z.key) :
    groupByKey (ys ++ zs) = (k, ys) :: groupByKey zs := by
  cases ys with
  | nil => cases hne rfl
  | cons y ys' =>
    rw [groupByKey, List.foldl_append, List.foldl_cons]
    have h1 : addToGroup [] y = [(y.key, [y])] := by
      rw [addToGroup_new (by intro g hg; cases hg)]
      rfl
    rw [h1, hys y (by simp)]
    have h2 : List.foldl addToGroup ([] ++ [(k, [y])]) ys' = [] ++ [(k, [y] ++ ys')] :=
      foldl_addToGroup_run ys' [] [y] (fun r hr => hys r (by simp [hr]))
        (by intro g hg; cases hg)
    rw [List.nil_append] at h2
    rw [h2]
    rw [show ((k, [y] ++ ys') : String × List ErrRec) = (k, y :: ys') by simp]
    exact foldl_addToGroup_head hzs

-- ## popping one block of decorated records

theorem popped_of_decorated :
    ∀ (E1 : List ErrRec) (cs : List (List ContextEntry)) (en : ContextEntry),
      E1.map (fun e => e.context) = cs.map (fun ch => en :: ch) →
      (E1.filterMap attachExtraInfoToError).map (fun r => r.context) = cs ∧
      (∀ r ∈ E1.filterMap attachExtraInfoToError, r.key = en.key ∧ r.type = en.type ∧
        r.actual = en.actual) ∧
      (E1.filterMap attachExtraInfoToError = [] ↔ E1 = []) := by
  intro E1
  induction E1 with
  | nil =>
    intro cs en h
    have hcs : cs = [] := by
      rw [List.map_nil] at h
      cases cs with
      | nil => rfl
      | cons ch cs' => simp at h
    refine ⟨?_, (by intro r hr; cases hr), by simp⟩
    rw [hcs]
    rfl
  | cons e E1' ih =>
    intro cs en h
    cases cs with
    | nil => simp at h
    | cons ch cs' =>
      rw [List.map_cons, List.map_cons] at h
      have hctx : e.context = en :: ch := by
        injection h with h1 h2
      have htail : E1'.map (fun e => e.context) = cs'.map (fun ch => en :: ch) := by
        injection h with h1 h2
      obtain ⟨ih1, ih2, ih3⟩ := ih cs' en htail
      have hat : attachExtraInfoToError e = some
          { context := ch
            message := e.message
            key := en.key
            type := en.type
            actual := en.actual
            isExhausted := ch.all (fun c => jsEq c.actual en.actual)
            levelsUntilExhaustion := levelsUntilExhaustionIdx e.context
            wasParentExhausted := e.isExhausted } := by
        rw [attachExtraInfoToError, hctx]
      rw [List.filterMap_cons, hat]
      refine ⟨?_, ?_, by simp⟩
      · rw [List.map_cons, ih1]
      · intro r hr
        rcases List.mem_cons.mp hr with rfl | hr
        · exact ⟨rfl, rfl, rfl⟩
        · exact ih2 r hr

-- ## the grouped level structure

theorem grouped_of_popSegs :
    ∀ {f : Nat} {E : List ErrRec} {kids : List (String × Codec × JSValue)},
      PopSegs f E kids → (kids.map (fun kcv => kcv.1)).Nodup →
      ∃ gsegs : List ((String × Codec × JSValue) × List ErrRec),
        groupByKey (E.filterMap attachExtraInfoToError) =
          gsegs.map (fun g => (g.1.1, g.2)) ∧
        (gsegs.map Prod.fst).Sublist kids ∧
        (∀ g ∈ gsegs,
          g.2 ≠ [] ∧
          (∃ cs, chainsF f g.1.2.1 g.1.2.2 = some cs ∧
            g.2.map (fun r => r.context) = cs) ∧
          (∀ r ∈ g.2, r.key = g.1.1 ∧ r.type = g.1.2.1 ∧ r.actual = g.1.2.2 ∧
            r ∈ E.filterMap attachExtraInfoToError)) ∧
        (∀ r ∈ E.filterMap attachExtraInfoToError, ∃ g ∈ gsegs, r ∈ g.2) := by
  intro f E kids h
  induction h with
  | nil =>
    intro _
    exact ⟨[], rfl, List.nil_sublist _, (by intro g hg; cases hg),
      (by intro r hr; cases hr)⟩
  | skip kid hc hPS ih =>
    intro hnodup
    obtain ⟨gsegs, h1, h2, h3, h4⟩ := ih (List.nodup_cons.mp hnodup).2
    exact ⟨gsegs, h1, h2.cons _, h3, h4⟩
  | @seg kid cs E1 E2 kidsr hc hmap hPS ih =>
    intro hnodup
    obtain ⟨gsegs, h1, h2, h3, h4⟩ := ih (List.nodup_cons.mp hnodup).2
    obtain ⟨hp1, hp2, hp3⟩ := popped_of_decorated E1 cs ⟨kid.1, kid.2.1, kid.2.2⟩ hmap
    have happ : (E1 ++ E2).filterMap attachExtraInfoToError =
        E1.filterMap attachExtraInfoToError ++ E2.filterMap attachExtraInfoToError :=
      List.filterMap_append E1 E2 attachExtraInfoToError
    by_cases hB1 : E1.filterMap attachExtraInfoToError = []
    · rw [hB1, List.nil_append] at happ
      refine ⟨gsegs, ?_, h2.cons _, ?_, ?_⟩
      · rw [happ, h1]
      · intro g hg
        obtain ⟨hg1, hg2, hg3⟩ := h3 g hg
        exact ⟨hg1, hg2, fun r hr => by
          obtain ⟨ha, hb, hcc, hd⟩ := hg3 r hr
          exact ⟨ha, hb, hcc, by rw [happ]; exact hd⟩⟩
      · intro r hr
        rw [happ] at hr
        exact h4 r hr
    · have hkeys1 : ∀ r ∈ E1.filterMap attachExtraInfoToError, r.key = kid.1 :=
        fun r hr => (hp2 r hr).1
      have hkeys2 : ∀ z ∈ E2.filterMap attachExtraInfoToError, kid.1 ≠ z.key := by
        intro z hz hcz
        have hmem := popSegs_keys hPS z hz
        rw [← hcz] at hmem
        exact (List.nodup_cons.mp hnodup).1 hmem
      have hgrp : groupByKey ((E1 ++ E2).filterMap attachExtraInfoToError) =
          (kid.1, E1.filterMap attachExtraInfoToError) ::
            groupByKey (E2.filterMap attachExtraInfoToError) := by
        rw [happ]
        exact groupByKey_block hkeys1 hB1 hkeys2
      refine ⟨(kid, E1.filterMap attachExtraInfoToError) :: gsegs, ?_, h2.cons₂ _, ?_, ?_⟩
      · rw [hgrp, List.map_cons, h1]
      · intro g hg
        rcases List.mem_cons.mp hg with rfl | hg
        · refine ⟨hB1, ⟨cs, hc, hp1⟩, ?_⟩
          intro r hr
          obtain ⟨ha, hb, hcc⟩ := hp2 r hr
          exact ⟨ha, hb, hcc, by rw [happ]; exact List.mem_append_left _ hr⟩
        · obtain ⟨hg1, hg2, hg3⟩ := h3 g hg
          exact ⟨hg1, hg2, fun r hr => by
            obtain ⟨ha, hb, hcc, hd⟩ := hg3 r hr
            exact ⟨ha, hb, hcc, by rw [happ]; exact List.mem_append_right _ hd⟩⟩
      · intro r hr
        rw [happ] at hr
        rcases List.mem_append.mp hr with hr | hr
        · exact ⟨(kid, E1.filterMap attachExtraInfoToError), List.mem_cons_self _ _, hr⟩
        · obtain ⟨g, hg, hgr⟩ := h4 r hr
          exact ⟨g, List.mem_cons_of_mem _ hg, hgr⟩

-- ## jsEntriesOrder is a permutation

theorem insertByNat_perm (m : α → Nat) (x : α) :
    ∀ l : List α, (insertByNat m x l).Perm (x :: l) := by
  intro l
  induction l with
  | nil => rfl
  | cons y ys ih =>
    rw [insertByNat]
    by_cases h : m y < m x
    · rw [if_pos h]
      exact (List.Perm.cons y ih).trans (List.Perm.swap x y ys)
    · rw [if_neg h]

theorem sortByNat_perm (m : α → Nat) : ∀ l : List α, (sortByNat m l).Perm l := by
  intro l
  induction l with
  | nil => rfl
  | cons x xs ih =>
    rw [sortByNat]
    exact (insertByNat_perm m x (sortByNat m xs)).trans (List.Perm.cons x ih)

theorem jsEntriesOrder_perm (l : List (String × β)) : (jsEntriesOrder l).Perm l := by
  rw [jsEntriesOrder]
  refine ((sortByNat_perm _ _).append_right _).trans ?_
  have hconv : l.filter (fun p => ¬ isArrayIndexKey p.1) =
      l.filter (fun p => ! isArrayIndexKey p.1) := by
    apply List.filter_congr
    intro x _
    simp [decide_not]
  rw [hconv]
  exact List.filter_append_perm _ l

theorem mem_jsEntriesOrder {l : List (String × β)} {x : String × β} :
    x ∈ jsEntriesOrder l ↔ x ∈ l :=
  (jsEntriesOrder_perm l).mem_iff

theorem jsEntriesOrder_ne_nil {l : List (String × β)} (h : l ≠ []) :
    jsEntriesOrder l ≠ [] := by
  intro hc
  have hlen := (jsEntriesOrder_perm l).length_eq
  rw [hc] at hlen
  exact h (List.length_eq_zero.mp hlen.symm)

-- ## B4: nonempty default message texts

theorem defaultMessages_mismatch_ne_empty (key : String) (path : List String)
    (actual : JSValue) (expected : Codec) :
    defaultMessages.mismatch key path actual expected ≠ "" := by
  intro h
  have hlen : (defaultMessages.mismatch key path actual expected).length = 0 := by
    rw [h]; rfl
  rw [defaultMessages, Messages.default] at hlen
  simp only [String.length_append] at hlen
  have h1 : ("got " : String).length = 4 := rfl
  omega

theorem defaultMessages_custom_ne_empty (m : String) (path : List String) :
    defaultMessages.custom m path ≠ "" := by
  intro h
  have hlen : (defaultMessages.custom m path).length = 0 := by
    rw [h]; rfl
  rw [defaultMessages, Messages.default] at hlen
  simp only [String.length_append] at hlen
  have h1 : (" at '" : String).length = 5 := rfl
  omega

theorem headStr_cons_of_ne {s : String} {l : List String} (h : s ≠ "") :
    headStr (s :: l) = some s := by
  rw [headStr, if_neg]
  simpa using h

theorem headStr_nil_eq : headStr [] = none := rfl

-- ## dedupe basics

theorem dedupe_cons (s : String) (l : List String) :
    dedupe (s :: l) = s :: dedupeFirstAux [s] l := by
  rw [dedupe, dedupeFirst, dedupeFirstAux, if_neg]
  simp

theorem dedupe_nil_iff {l : List String} : dedupe l = [] ↔ l = [] := by
  cases l with
  | nil => simp [dedupe, dedupeFirst, dedupeFirstAux]
  | cons s t =>
    rw [dedupe_cons]
    simp

-- ## B5: score bounds

theorem scoreObject_pos {t : Codec} {v : JSValue} {q : Frac}
    (h : scoreObjectSimilarity t v = some q) : 0 < q.toRat := by
  rw [scoreObjectSimilarity] at h
  cases hp : Codec.getProps t with
  | none => rw [hp] at h; cases h
  | some props =>
    rw [hp] at h
    dsimp only at h
    by_cases hr : v.isRec = true
    · rw [hr, if_neg (by simp)] at h
      have hk := @intersectionList_length_le _ _ _ _ v.objKeys
        (dedupeFirst (props.map Prod.fst)) (nodup_objKeys v)
      by_cases h0 : (intersectionList v.objKeys (dedupeFirst (props.map Prod.fst))).length ≠ 0
      · rw [if_pos h0] at h
        cases h
        rw [Frac.toRat]
        apply div_pos
        · set m : Nat := (intersectionList v.objKeys (dedupeFirst (List.map Prod.fst props))).length with hm
          set p : Nat := (dedupeFirst (List.map Prod.fst props)).length with hp2
          dsimp only
          have hm1 : 1 ≤ m := by omega
          have hm1q : (1 : ℚ) ≤ (m : ℚ) := by exact_mod_cast hm1
          have hmpq : (m : ℚ) ≤ (p : ℚ) := by exact_mod_cast hk
          push_cast
          nlinarith
        · set m : Nat := (intersectionList v.objKeys (dedupeFirst (List.map Prod.fst props))).length with hm
          set p : Nat := (dedupeFirst (List.map Prod.fst props)).length with hp2
          dsimp only
          have hmpq : (m : ℚ) ≤ (p : ℚ) := by exact_mod_cast hk
          push_cast
          nlinarith
      · rw [if_neg h0] at h
        cases h
        rw [Frac.toRat]
        apply div_pos
        · norm_num
        · dsimp only
          push_cast
          positivity
    · rw [eq_false_of_ne_true hr] at h
      simp only [Bool.false_eq_true, not_false_eq_true, if_true] at h
      cases h

theorem scoreArray_nonneg {t : Codec} {v : JSValue} {q : Frac}
    (h : scoreArraySimilarity t v = some q) : 0 ≤ q.toRat := by
  rw [scoreArraySimilarity] at h
  cases hi : Codec.getArrayItemType t with
  | none => rw [hi] at h; cases h
  | some it =>
    rw [hi] at h
    cases v <;> simp only [Option.some.injEq] at h <;> try cases h
    rw [Frac.ofInt, Frac.toRat]
    apply div_nonneg
    · positivity
    · norm_num

theorem scoreTuple_nonneg {t : Codec} {v : JSValue} {q : Frac}
    (h : scoreTupleSimilarity t v = some q) : 0 ≤ q.toRat := by
  rw [scoreTupleSimilarity] at h
  cases hi : Codec.getTupleTypes t with
  | none => rw [hi] at h; cases h
  | some its =>
    rw [hi] at h
    cases v <;> simp only [Option.some.injEq] at h <;> try cases h
    rw [Frac.ofInt, Frac.toRat]
    apply div_nonneg
    · positivity
    · norm_num

theorem toRat_ofInt (n : Int) : (Frac.ofInt n).toRat = (n : ℚ) := by
  rw [Frac.ofInt, Frac.toRat]
  norm_num

theorem recScore_ge_neg1 (e : ErrRec) :
    (Frac.ofInt (-1)).toRat ≤ (recScore e).toRat := by
  rw [recScore]
  cases ho : scoreObjectSimilarity e.type e.actual with
  | some q =>
    rw [Option.getD_some, toRat_ofInt]
    have := scoreObject_pos ho
    push_cast
    linarith
  | none =>
    rw [Option.getD_none]
    cases ha : scoreArraySimilarity e.type e.actual with
    | some q =>
      rw [Option.getD_some, toRat_ofInt]
      have := scoreArray_nonneg ha
      push_cast
      linarith
    | none =>
      rw [Option.getD_none]
      cases ht : scoreTupleSimilarity e.type e.actual with
      | some q =>
        rw [Option.getD_some, toRat_ofInt]
        have := scoreTuple_nonneg ht
        push_cast
        linarith
      | none =>
        rw [Option.getD_none]

-- ## B5: selection lemmas

theorem headB_eq_head : ∀ l : List α, headB l = l.head?
  | [] => rfl
  | _ :: _ => rfl

theorem scorePairEq_refl (a : Frac × Int) : scorePairEq a a = true := by
  rw [scorePairEq]
  simp [Frac.beq]

theorem foldMaxFrac_spec :
    ∀ (xs : List Frac) (a0 : Frac), 0 < a0.den → (∀ x ∈ xs, 0 < x.den) →
      0 < (xs.foldl (fun a b => if a.blt b then b else a) a0).den ∧
      a0.toRat ≤ (xs.foldl (fun a b => if a.blt b then b else a) a0).toRat ∧
      ∀ y ∈ xs, y.toRat ≤ (xs.foldl (fun a b => if a.blt b then b else a) a0).toRat := by
  intro xs
  induction xs with
  | nil =>
    intro a0 h0 _
    exact ⟨h0, le_refl _, by intro y hy; cases hy⟩
  | cons x xs ih =>
    intro a0 h0 hd
    rw [List.foldl_cons]
    by_cases hlt : a0.blt x = true
    · rw [if_pos hlt]
      obtain ⟨ihd, ihseed, ihmax⟩ := ih x (hd x (by simp)) (fun y hy => hd y (by simp [hy]))
      have hlt' : a0.toRat < x.toRat := (frac_blt_iff h0 (hd x (by simp))).mp hlt
      refine ⟨ihd, le_of_lt (lt_of_lt_of_le hlt' ihseed), ?_⟩
      intro y hy
      rcases List.mem_cons.mp hy with rfl | hy
      · exact ihseed
      · exact ihmax y hy
    · rw [if_neg hlt]
      obtain ⟨ihd, ihseed, ihmax⟩ := ih a0 h0 (fun y hy => hd y (by simp [hy]))
      have hnlt : ¬ a0.toRat < x.toRat := by
        intro hc
        exact hlt ((frac_blt_iff h0 (hd x (by simp))).mpr hc)
      refine ⟨ihd, ihseed, ?_⟩
      intro y hy
      rcases List.mem_cons.mp hy with rfl | hy
      · exact le_trans (le_of_not_lt hnlt) ihseed
      · exact ihmax y hy

theorem maxFrac_ge_mem {l : List Frac} (hd : ∀ x ∈ l, 0 < x.den) (x : Frac)
    (hx : x ∈ l) : x.toRat ≤ (maxFrac l).toRat := by
  cases l with
  | nil => cases hx
  | cons a xs =>
    rw [maxFrac]
    obtain ⟨_, hseed, hmax⟩ :=
      foldMaxFrac_spec xs a (hd a (by simp)) (fun y hy => hd y (by simp [hy]))
    rcases List.mem_cons.mp hx with rfl | hx
    · exact hseed
    · exact hmax x hx

theorem maxFrac_const {l : List Frac} {c : Frac}
    (h : ∀ x ∈ l, x = c) (h0 : l ≠ []) : maxFrac l = c :=
  h _ (maxFrac_mem l h0)

theorem foldMaxInt_spec : ∀ (xs : List Int) (a0 : Int),
    a0 ≤ xs.foldl max a0 ∧ ∀ y ∈ xs, y ≤ xs.foldl max a0 := by
  intro xs
  induction xs with
  | nil =>
    intro a0
    exact ⟨le_refl _, by intro y hy; cases hy⟩
  | cons x xs ih =>
    intro a0
    rw [List.foldl_cons]
    obtain ⟨hseed, hmax⟩ := ih (max a0 x)
    refine ⟨le_trans (le_max_left _ _) hseed, ?_⟩
    intro y hy
    rcases List.mem_cons.mp hy with rfl | hy
    · exact le_trans (le_max_right _ _) hseed
    · exact hmax y hy

theorem foldMaxInt_const : ∀ (xs : List Int) (a0 : Int),
    (∀ y ∈ xs, y ≤ a0) → xs.foldl max a0 = a0 := by
  intro xs
  induction xs with
  | nil => intro a0 _; rfl
  | cons x xs ih =>
    intro a0 h
    rw [List.foldl_cons, max_eq_left (h x (by simp))]
    exact ih a0 (fun y hy => h y (by simp [hy]))

theorem maxLevels_ge_mem {errors : List ErrRec} (e : ErrRec) (he : e ∈ errors) :
    e.levelsUntilExhaustion ≤ maxLevelsUntilExhaustion errors := by
  cases errors with
  | nil => cases he
  | cons a xs =>
    have hred : maxLevelsUntilExhaustion (a :: xs) =
        (xs.map (fun e => e.levelsUntilExhaustion)).foldl max a.levelsUntilExhaustion := rfl
    rw [hred]
    obtain ⟨hseed, hmax⟩ :=
      foldMaxInt_spec (xs.map (fun e => e.levelsUntilExhaustion)) a.levelsUntilExhaustion
    rcases List.mem_cons.mp he with rfl | he
    · exact hseed
    · exact hmax _ (List.mem_map.mpr ⟨e, he, rfl⟩)

theorem maxLevels_const {errors : List ErrRec} (h0 : errors ≠ [])
    (hl : ∀ e ∈ errors, e.levelsUntilExhaustion = -1) :
    maxLevelsUntilExhaustion errors = -1 := by
  cases errors with
  | nil => cases h0 rfl
  | cons a xs =>
    have hred : maxLevelsUntilExhaustion (a :: xs) =
        (xs.map (fun e => e.levelsUntilExhaustion)).foldl max a.levelsUntilExhaustion := rfl
    have hbound : ∀ y ∈ xs.map (fun e => e.levelsUntilExhaustion),
        y ≤ a.levelsUntilExhaustion := by
      intro y hy
      rcases List.mem_map.mp hy with ⟨e, he, rfl⟩
      rw [hl e (List.mem_cons_of_mem _ he), hl a (List.mem_cons_self a xs)]
    rw [hred, foldMaxInt_const _ _ hbound]
    exact hl a (List.mem_cons_self a xs)

theorem branchScore_leaf {errs : List ErrRec} (h0 : errs ≠ [])
    (hs : ∀ e ∈ errs, recScore e = Frac.ofInt (-1))
    (hl : ∀ e ∈ errs, e.levelsUntilExhaustion = -1) :
    branchScore errs = (Frac.ofInt (-1), -1) := by
  rw [branchScore_eq]
  have h1 : maxFrac (errs.map recScore) = Frac.ofInt (-1) := by
    apply maxFrac_const
    · intro x hx
      rcases List.mem_map.mp hx with ⟨e, he, rfl⟩
      exact hs e he
    · simp [h0]
  rw [h1, maxLevels_const h0 hl]

theorem multiMaxByAll_ne_nil {α : Type} (score : α → Frac × Int)
    {l : List α} (h0 : l ≠ []) : multiMaxByAll l score ≠ [] := by
  cases l with
  | nil => cases h0 rfl
  | cons x xs =>
    rw [multiMaxByAll]
    have hbm : lexBest score x xs = score x ∨
        ∃ z ∈ xs, lexBest score x xs = score z := by
      clear h0
      induction xs generalizing x with
      | nil => exact Or.inl rfl
      | cons y ys ih =>
        rw [show lexBest score x (y :: ys) =
            (if scorePairLt (score x) (score y) then
              lexBest score y ys else
              ys.foldl (fun acc z =>
                if scorePairLt acc (score z) then score z else acc) (score x)) from by
          rw [lexBest, List.foldl_cons]
          by_cases h : scorePairLt (score x) (score y) = true
          · rw [if_pos h, if_pos h, lexBest]
          · rw [if_neg h, if_neg h]]
        by_cases h : scorePairLt (score x) (score y) = true
        · rw [if_pos h]
          rcases ih y with h1 | ⟨z, hz, h1⟩
          · exact Or.inr ⟨y, by simp, h1⟩
          · exact Or.inr ⟨z, by simp [hz], h1⟩
        · rw [if_neg h]
          rcases ih x with h1 | ⟨z, hz, h1⟩
          · exact Or.inl h1
          · exact Or.inr ⟨z, by simp [hz], h1⟩
    rcases hbm with h | ⟨z, hz, h⟩
    · exact List.ne_nil_of_mem (List.mem_filter.mpr
        ⟨List.mem_cons_self x xs, by rw [h]; exact scorePairEq_refl _⟩)
    · exact List.ne_nil_of_mem (List.mem_filter.mpr
        ⟨List.mem_cons_of_mem x hz, by rw [h]; exact scorePairEq_refl _⟩)

theorem sortBy_ne_nil {m : α → Int} {l : List α} (h0 : l ≠ []) :
    sortBy m l ≠ [] := by
  intro hc
  apply h0
  have hp := sortBy_perm m l
  rw [hc] at hp
  exact hp.symm.eq_nil

theorem filterBranches_ne_nil {pt : Option Codec} {B : List (String × List ErrRec)}
    (h0 : B ≠ []) : filterBranches pt B ≠ [] := by
  rw [filterBranches]
  have hs : sortBy (fun b => maxLevelsUntilExhaustion b.2) B ≠ [] := sortBy_ne_nil h0
  by_cases hu : isUnionO pt = true
  · rw [if_pos hu, selectBestUnionVariant]
    have hm := multiMaxByAll_ne_nil (fun b => branchScore b.2) hs
    cases hmm : multiMaxByAll (sortBy (fun b => maxLevelsUntilExhaustion b.2) B)
        (fun b => branchScore b.2) with
    | nil => exact absurd hmm hm
    | cons c cs => simp
  · rw [if_neg hu]
    exact hs

theorem selected_union_max {pt : Option Codec} {B : List (String × List ErrRec)}
    {b : String × List ErrRec} (hu : isUnionO pt = true)
    (hb : headB (filterBranches pt B) = some b) :
    b ∈ B ∧ ∀ y ∈ B, ¬ PairLtP (branchScore b.2) (branchScore y.2) := by
  rw [filterBranches, if_pos hu] at hb
  have hspec := (selectBest_spec (sortBy (fun b => maxLevelsUntilExhaustion b.2) B)).2
  have hbmem : b ∈ selectBestUnionVariant
      (sortBy (fun b => maxLevelsUntilExhaustion b.2) B) := by
    cases hsel : selectBestUnionVariant
        (sortBy (fun b => maxLevelsUntilExhaustion b.2) B) with
    | nil => rw [hsel] at hb; cases hb
    | cons c cs =>
      rw [hsel, headB] at hb
      injection hb with h1
      rw [← h1]
      simp
  obtain ⟨hmemS, hmax, _⟩ := hspec b hbmem
  refine ⟨mem_sortBy.mp hmemS, ?_⟩
  intro y hy
  exact hmax y (mem_sortBy.mpr hy)

theorem filterBranches_union_singleton {pt : Option Codec}
    {B : List (String × List ErrRec)} {b : String × List ErrRec}
    (hu : isUnionO pt = true) (hb : headB (filterBranches pt B) = some b) :
    filterBranches pt B = [b] := by
  rw [filterBranches, if_pos hu] at hb ⊢
  have hlen := (selectBest_spec (sortBy (fun b => maxLevelsUntilExhaustion b.2) B)).1
  cases hsel : selectBestUnionVariant
      (sortBy (fun b => maxLevelsUntilExhaustion b.2) B) with
  | nil => rw [hsel] at hb; cases hb
  | cons c cs =>
    rw [hsel, headB] at hb
    injection hb with h1
    rw [hsel] at hlen
    have hcs : cs = [] := by
      rw [List.length_cons] at hlen
      exact List.eq_nil_of_length_eq_zero (by omega)
    rw [hcs, h1]

theorem selected_nonunion_mem {pt : Option Codec} {B : List (String × List ErrRec)}
    {b : String × List ErrRec} (hu : isUnionO pt = false)
    (hb : headB (filterBranches pt B) = some b) : b ∈ B := by
  rw [filterBranches, if_neg (by rw [hu]; exact Bool.false_ne_true)] at hb
  cases hS : sortBy (fun b => maxLevelsUntilExhaustion b.2) B with
  | nil => rw [hS] at hb; cases hb
  | cons c cs =>
    rw [hS, headB] at hb
    injection hb with h1
    rw [← h1]
    exact mem_sortBy.mp (by rw [hS]; simp)

theorem head_append_of_ne_nil {l l2 : List α} (h : l ≠ []) :
    (l ++ l2).head? = l.head? := by
  cases l with
  | nil => cases h rfl
  | cons x xs => rfl

-- ## B6: level emission lemmas

/-- The `adjusted` path/key pair of one `detectTypeMismatches` entry. -/
def tmAdjusted (opts : Options) (e : ErrRec) : List String × Option String :=
  if isInterO opts.parentType then initTail opts.path else (opts.path, some e.key)

/-- The message text of one `detectTypeMismatches` entry. -/
def tmMessage (opts : Options) (e : ErrRec) : String :=
  match e.message with
  | some m => opts.messages.custom m (tmAdjusted opts e).1
  | none =>
    opts.messages.mismatch ((tmAdjusted opts e).2.getD "") (tmAdjusted opts e).1
      e.actual e.type

/-- The per-record filter of `detectTypeMismatches`, named. -/
def tmEntry (allExhausted : Bool) (opts : Options) (e : ErrRec) : Option String :=
  if e.actual = JSValue.undef then none
  else if isUnionO opts.parentType then none
  else if e.type.isInter then none
  else if allExhausted then some (tmMessage opts e)
  else if e.type.isUnion || ¬ e.isExhausted then none
  else some (tmMessage opts e)

theorem detectTM_eq (groups : List (String × List ErrRec)) (opts : Options) :
    detectTypeMismatches groups opts =
      groups.flatMap (fun g =>
        g.2.filterMap (tmEntry (g.2.all (fun e => e.isExhausted)) opts)) := rfl

theorem tmMessage_ne_empty {opts : Options} {e : ErrRec}
    (hmis : ∀ k p a t, opts.messages.mismatch k p a t ≠ "")
    (hcus : ∀ c p, opts.messages.custom c p ≠ "") :
    tmMessage opts e ≠ "" := by
  rw [tmMessage]
  cases hm : e.message with
  | some m => exact hcus m _
  | none => exact hmis _ _ _ _

theorem tmEntry_eq_some {allEx : Bool} {opts : Options} {e : ErrRec} {s : String}
    (h : tmEntry allEx opts e = some s) : s = tmMessage opts e := by
  rw [tmEntry] at h
  split at h
  · cases h
  · split at h
    · cases h
    · split at h
      · cases h
      · split at h
        · injection h with h1
          exact h1.symm
        · split at h
          · cases h
          · injection h with h1
            exact h1.symm

theorem tmEntry_some_of {allEx : Bool} {opts : Options} {e : ErrRec}
    (ha : e.actual ≠ JSValue.undef) (hpt : isUnionO opts.parentType = false)
    (hni : e.type.isInter = false)
    (hcase : allEx = true ∨ (e.type.isUnion = false ∧ e.isExhausted = true)) :
    tmEntry allEx opts e = some (tmMessage opts e) := by
  rw [tmEntry, if_neg ha, if_neg (by simp [hpt]), if_neg (by simp [hni])]
  rcases hcase with rfl | ⟨hnu, hexh⟩
  · rw [if_pos rfl]
  · cases allEx with
    | true => rw [if_pos rfl]
    | false =>
      rw [if_neg (by simp), if_neg (by simp [hnu, hexh])]

theorem mem_detectTM_ne_empty {groups : List (String × List ErrRec)}
    {opts : Options} {s : String}
    (hmis : ∀ k p a t, opts.messages.mismatch k p a t ≠ "")
    (hcus : ∀ c p, opts.messages.custom c p ≠ "")
    (hs : s ∈ detectTypeMismatches groups opts) : s ≠ "" := by
  rw [detectTM_eq] at hs
  rcases List.mem_flatMap.mp hs with ⟨g, hg, hsg⟩
  rcases List.mem_filterMap.mp hsg with ⟨e, he, hfe⟩
  rw [tmEntry_eq_some hfe]
  exact tmMessage_ne_empty hmis hcus

theorem detectTM_ne_nil_of {groups : List (String × List ErrRec)} {opts : Options}
    {g : String × List ErrRec} {e : ErrRec} (hg : g ∈ groups) (he : e ∈ g.2)
    (ha : e.actual ≠ JSValue.undef) (hpt : isUnionO opts.parentType = false)
    (hni : e.type.isInter = false) (hnu : e.type.isUnion = false)
    (hexh : e.isExhausted = true) :
    detectTypeMismatches groups opts ≠ [] := by
  have hsome : tmEntry (g.2.all (fun x => x.isExhausted)) opts e =
      some (tmMessage opts e) :=
    tmEntry_some_of ha hpt hni (Or.inr ⟨hnu, hexh⟩)
  have hmem : tmMessage opts e ∈ detectTypeMismatches groups opts := by
    rw [detectTM_eq]
    exact List.mem_flatMap.mpr ⟨g, hg, List.mem_filterMap.mpr ⟨e, he, hsome⟩⟩
  exact List.ne_nil_of_mem hmem

theorem headStr_of_ne_nil {l : List String} (h0 : l ≠ []) (h1 : ∀ s ∈ l, s ≠ "") :
    ∃ s, headStr l = some s ∧ s ≠ "" ∧ l.head? = some s := by
  cases l with
  | nil => cases h0 rfl
  | cons a t =>
    refine ⟨a, ?_, h1 a (List.mem_cons_self a t), rfl⟩
    rw [headStr, if_neg]
    simp [h1 a (List.mem_cons_self a t)]

theorem detectMP_nil_iff {E : List ErrRec} {path : List String} {pt : Option Codec}
    {m : Messages} :
    detectMissingProperties E ⟨path, pt, m⟩ = [] ↔
      ∀ e ∈ E, getMissingPropertyFromErrorContext e = none := by
  rw [detectMissingProperties_eq]
  constructor
  · intro hnil
    split at hnil
    · next h =>
      have hded : dedupe (E.filterMap getMissingPropertyFromErrorContext) = [] := by
        cases hd : dedupe (E.filterMap getMissingPropertyFromErrorContext) with
        | nil => rfl
        | cons a t => rw [hd] at h; cases h
      have hfm : E.filterMap getMissingPropertyFromErrorContext = [] :=
        dedupe_nil_iff.mp hded
      intro e he
      cases hge : getMissingPropertyFromErrorContext e with
      | none => rfl
      | some k =>
        have hmem : k ∈ E.filterMap getMissingPropertyFromErrorContext :=
          List.mem_filterMap.mpr ⟨e, he, hge⟩
        rw [hfm] at hmem
        cases hmem
    · cases hnil
  · intro hall
    have hfm : E.filterMap getMissingPropertyFromErrorContext = [] := by
      cases hf : E.filterMap getMissingPropertyFromErrorContext with
      | nil => rfl
      | cons a t =>
        have hmem : a ∈ E.filterMap getMissingPropertyFromErrorContext := by
          rw [hf]; simp
        rcases List.mem_filterMap.mp hmem with ⟨e, he, hge⟩
        rw [hall e he] at hge
        cases hge
    rw [if_pos]
    rw [dedupe_nil_iff.mpr hfm]
    rfl

theorem detectMP_emit {E : List ErrRec} {path : List String} {pt : Option Codec}
    {m : Messages} (hm : ∀ keys p, m.missing keys p ≠ "")
    (hne : detectMissingProperties E ⟨path, pt, m⟩ ≠ []) :
    ∃ s, headStr (detectMissingProperties E ⟨path, pt, m⟩) = some s ∧ s ≠ "" ∧
      (detectMissingProperties E ⟨path, pt, m⟩).head? = some s := by
  apply headStr_of_ne_nil hne
  intro s hs
  rw [detectMissingProperties_eq] at hs
  split at hs
  · cases hs
  · rcases List.mem_singleton.mp hs with rfl
    exact hm _ _

-- ## B7a: narrowing-index characterization and small plumbing

theorem levelsIdx_cons2 (a b : ContextEntry) (rest : List ContextEntry) :
    levelsUntilExhaustionIdx (a :: b :: rest) =
      if jsEq a.actual b.actual then
        (if levelsUntilExhaustionIdx (b :: rest) == -1 then (-1 : Int)
         else levelsUntilExhaustionIdx (b :: rest) + 1)
      else 0 := rfl

theorem levelsIdx_ge_neg1 : ∀ ctx : List ContextEntry,
    -1 ≤ levelsUntilExhaustionIdx ctx := by
  intro ctx
  induction ctx with
  | nil => exact le_refl (-1)
  | cons a tl ih =>
    cases tl with
    | nil => exact le_refl (-1)
    | cons b rest =>
      rw [levelsIdx_cons2]
      by_cases he : jsEq a.actual b.actual = true
      · rw [if_pos he]
        by_cases hr : levelsUntilExhaustionIdx (b :: rest) = -1
        · rw [if_pos (by simpa using hr)]
        · rw [if_neg (by simpa using hr)]
          omega
      · rw [if_neg he]
        norm_num

theorem levelsIdx_neg1_iff : ∀ (a : ContextEntry) (tl : List ContextEntry),
    (levelsUntilExhaustionIdx (a :: tl) = -1 ↔ ∀ c ∈ tl, c.actual = a.actual) := by
  intro a tl
  induction tl generalizing a with
  | nil =>
    simp only [show levelsUntilExhaustionIdx [a] = -1 from rfl]
    simp
  | cons b rest ih =>
    rw [levelsIdx_cons2]
    by_cases he : jsEq a.actual b.actual = true
    · rw [if_pos he]
      have hab : b.actual = a.actual := (jsEq_iff.mp he).symm
      constructor
      · intro h c hc
        have hr : levelsUntilExhaustionIdx (b :: rest) = -1 := by
          by_contra hne
          rw [if_neg (by simpa using hne)] at h
          have hge := levelsIdx_ge_neg1 (b :: rest)
          omega
        rcases List.mem_cons.mp hc with rfl | hc
        · exact hab
        · rw [((ih b).mp hr) c hc, hab]
      · intro h
        have hr : levelsUntilExhaustionIdx (b :: rest) = -1 :=
          (ih b).mpr (fun c hc => by rw [h c (List.mem_cons_of_mem _ hc), hab])
        rw [if_pos (by simpa using hr)]
    · rw [if_neg he]
      constructor
      · intro h
        exact absurd h (by norm_num)
      · intro h
        exact absurd (jsEq_iff.mpr (h b (List.mem_cons_self b rest)).symm) he

theorem all_jsEq_iff {tl : List ContextEntry} {v : JSValue} :
    (tl.all (fun c => jsEq c.actual v) = true) ↔ ∀ c ∈ tl, c.actual = v := by
  rw [List.all_eq_true]
  constructor
  · intro h c hc
    exact jsEq_iff.mp (h c hc)
  · intro h c hc
    exact jsEq_iff.mpr (h c hc)

theorem headB_some_mem {l : List α} {x : α} (h : headB l = some x) : x ∈ l := by
  cases l with
  | nil => cases h
  | cons a t =>
    rw [headB] at h
    injection h with h1
    rw [← h1]
    simp

theorem headStr_none_iff {l : List String} (h1 : ∀ s ∈ l, s ≠ "") :
    headStr l = none ↔ l = [] := by
  cases l with
  | nil => simp [headStr]
  | cons a t =>
    rw [headStr]
    rw [if_neg (by simpa using h1 a (List.mem_cons_self a t))]
    simp

theorem filterMap_attach_ne_nil {E : List ErrRec} (h0 : E ≠ [])
    (hctx : ∀ e ∈ E, e.context ≠ []) :
    E.filterMap attachExtraInfoToError ≠ [] := by
  cases E with
  | nil => cases h0 rfl
  | cons e t =>
    have hc := hctx e (List.mem_cons_self e t)
    cases hcc : e.context with
    | nil => exact absurd hcc hc
    | cons hd tl =>
      exact List.ne_nil_of_mem (attach_mem_of_mem (List.mem_cons_self e t) hcc)

-- ## B7b: codec-kind plumbing for the master induction

theorem wholesale_not_union_inter {c : Codec} {v : JSValue}
    (h : wholesaleFail c v = true) : c.isUnion = false ∧ c.isInter = false := by
  cases c with
  | number => exact ⟨rfl, rfl⟩
  | strC => exact ⟨rfl, rfl⟩
  | boolC => exact ⟨rfl, rfl⟩
  | nullC => exact ⟨rfl, rfl⟩
  | typeC props => exact ⟨rfl, rfl⟩
  | arrayC item => exact ⟨rfl, rfl⟩
  | tupleC items => exact ⟨rfl, rfl⟩
  | unionC ts => cases h
  | interC ts => cases h

theorem isUnion_exists {c : Codec} (h : c.isUnion = true) :
    ∃ ts, c = Codec.unionC ts := by
  cases c with
  | unionC ts => exact ⟨ts, rfl⟩
  | number => cases h
  | strC => cases h
  | boolC => cases h
  | nullC => cases h
  | typeC props => cases h
  | arrayC item => cases h
  | tupleC items => cases h
  | interC ts => cases h

theorem isUnion_not_inter {c : Codec} (h : c.isUnion = true) : c.isInter = false := by
  obtain ⟨ts, rfl⟩ := isUnion_exists h
  rfl

theorem isUnionO_some (c : Codec) : isUnionO (some c) = c.isUnion := rfl

theorem headB_eq_none {l : List α} (h : headB l = none) : l = [] := by
  cases l with
  | nil => rfl
  | cons a t => cases h

theorem map_eq_singleton_nil {l : List ErrRec}
    (h : l.map (fun e => e.context) = [[]]) :
    ∃ r, l = [r] ∧ r.context = [] := by
  cases l with
  | nil => cases h
  | cons r t =>
    rw [List.map_cons] at h
    injection h with h1 h2
    rw [List.map_eq_nil] at h2
    exact ⟨r, by rw [h2], h1⟩

theorem detectTM_ne_nil_allEx {groups : List (String × List ErrRec)} {opts : Options}
    {g : String × List ErrRec} {e : ErrRec} (hg : g ∈ groups) (he : e ∈ g.2)
    (ha : e.actual ≠ JSValue.undef) (hpt : isUnionO opts.parentType = false)
    (hni : e.type.isInter = false)
    (hallex : g.2.all (fun x => x.isExhausted) = true) :
    detectTypeMismatches groups opts ≠ [] := by
  have hsome : tmEntry (g.2.all (fun x => x.isExhausted)) opts e =
      some (tmMessage opts e) :=
    tmEntry_some_of ha hpt hni (Or.inl hallex)
  have hmem : tmMessage opts e ∈ detectTypeMismatches groups opts := by
    rw [detectTM_eq]
    exact List.mem_flatMap.mpr ⟨g, hg, List.mem_filterMap.mpr ⟨e, he, hsome⟩⟩
  exact List.ne_nil_of_mem hmem

-- ## B7: totality and first-of-all agreement of the drivers

theorem explain_total_master (m : Messages)
    (hmis : ∀ k p a t, m.mismatch k p a t ≠ "")
    (hcus : ∀ c p, m.custom c p ≠ "")
    (hmng : ∀ ks p, m.missing ks p ≠ "") :
    ∀ (fuel : Nat) (E : List ErrRec) (path : List String) (pt : Option Codec),
      E ≠ [] →
      (∀ e ∈ E, e.context ≠ []) →
      (∀ e ∈ E, e.context.length ≤ fuel) →
      (∀ e ∈ E, ∀ hd tl, e.context = hd :: tl → hd.actual = JSValue.undef →
        e.isExhausted = false) →
      (∃ (fs : Nat) (kids : List (String × Codec × JSValue)),
        (kids.map (fun kcv => kcv.1)).Nodup ∧
        (∀ k ∈ kids, Codec.wf k.2.1 = true ∧ Codec.depth k.2.1 ≤ fs) ∧
        E.map (fun e => e.context) = kids.flatMap (KidChains fs)) →
      (isUnionO pt = true → ∃ e ∈ E, 0 ≤ levelsUntilExhaustionIdx e.context) →
      ∃ s, explain fuel E ⟨path, pt, m⟩ = some s ∧ s ≠ "" ∧
        (explainAll fuel E ⟨path, pt, m⟩).head? = some s := by
  intro fuel
  induction fuel with
  | zero =>
    intro E path pt hE hctx hlen _ _ _
    exfalso
    cases E with
    | nil => exact hE rfl
    | cons e t =>
      have h1 := hctx e (List.mem_cons_self e t)
      have h2 := hlen e (List.mem_cons_self e t)
      cases hc : e.context with
      | nil => exact h1 hc
      | cons a b =>
        rw [hc] at h2
        simp at h2
  | succ fuel ih =>
    intro E path pt hE hctx hlen hCin hStruct hGuard
    obtain ⟨fs, kids, hnodup, hkids, hmapE⟩ := hStruct
    have hPS : PopSegs fs E kids := popSegs_of_map_eq kids E fs hmapE
    obtain ⟨gsegs, hGB, hSub, hGfacts, hCov⟩ := grouped_of_popSegs hPS hnodup
    have hE'ne : E.filterMap attachExtraInfoToError ≠ [] :=
      filterMap_attach_ne_nil hE hctx
    have hlen' : ∀ r ∈ E.filterMap attachExtraInfoToError, r.context.length ≤ fuel := by
      intro r hr
      obtain ⟨e, he, hd, tl, hctxe, rfl⟩ := mem_filterMap_attach hr
      have h2 := hlen e he
      rw [hctxe] at h2
      simp only [List.length_cons] at h2
      show tl.length ≤ fuel
      omega
    cases hTM : detectTypeMismatches
        (jsEntriesOrder (groupByKey (E.filterMap attachExtraInfoToError)))
        ⟨path, pt, m⟩ with
    | cons t ts =>
      -- a mismatch message is emitted, and it heads the exhaustive report
      have htne : t ≠ "" :=
        mem_detectTM_ne_empty hmis hcus (by rw [hTM]; exact List.mem_cons_self _ _)
      refine ⟨t, ?_, htne, ?_⟩
      · rw [explain_succ, hTM, headStr_cons_of_ne htne]
      · rw [explainAll_succ, hTM, List.cons_append, dedupe_cons]
        rfl
    | nil =>
      cases hMP : detectMissingProperties (E.filterMap attachExtraInfoToError)
          ⟨path, pt, m⟩ with
      | cons p ps =>
        -- the missing-property message is emitted and heads the exhaustive report
        obtain ⟨s0, hsh, hs0, hshead⟩ := detectMP_emit hmng (by rw [hMP]; simp)
        refine ⟨s0, ?_, hs0, ?_⟩
        · rw [explain_succ, hTM]
          rw [show headStr ([] : List String) = none from rfl]
          rw [hsh]
        · rw [explainAll_succ, hTM, hMP, List.nil_append, dedupe_cons]
          rw [hMP] at hshead
          simp only [List.cons_append, List.head?_cons]
          simpa using hshead
      | nil =>
        -- descent: both runs recurse into the same first branch
        have hMPnone := detectMP_nil_iff.mp hMP
        have hAllNotUndef : ∀ r ∈ E.filterMap attachExtraInfoToError,
            r.actual ≠ JSValue.undef := by
          intro r hr hund
          obtain ⟨e, he, hd, tl, hctxe, rfl⟩ := mem_filterMap_attach hr
          have hund' : hd.actual = JSValue.undef := hund
          have hwpe : e.isExhausted = false := hCin e he hd tl hctxe hund'
          have hmiss := hMPnone _ hr
          rw [getMissingPropertyFromErrorContext] at hmiss
          rw [if_neg (not_not_intro hund)] at hmiss
          rw [if_neg (by simp [hwpe])] at hmiss
          cases hmiss
        have hGBne : groupByKey (E.filterMap attachExtraInfoToError) ≠ [] := by
          obtain ⟨r0, hr0⟩ : ∃ r0, r0 ∈ E.filterMap attachExtraInfoToError := by
            cases hE'c : E.filterMap attachExtraInfoToError with
            | nil => exact absurd hE'c hE'ne
            | cons a t => exact ⟨a, List.mem_cons_self a t⟩
          obtain ⟨g0, hg0, -⟩ := hCov r0 hr0
          rw [hGB]
          intro hnil
          rw [List.map_eq_nil_iff] at hnil
          rw [hnil] at hg0
          cases hg0
        have hgroupsne : jsEntriesOrder
            (groupByKey (E.filterMap attachExtraInfoToError)) ≠ [] :=
          jsEntriesOrder_ne_nil hGBne
        have hFBne : filterBranches pt (jsEntriesOrder
            (groupByKey (E.filterMap attachExtraInfoToError))) ≠ [] :=
          filterBranches_ne_nil hgroupsne
        cases hhd : headB (filterBranches pt (jsEntriesOrder
            (groupByKey (E.filterMap attachExtraInfoToError)))) with
        | none => exact absurd (headB_eq_none hhd) hFBne
        | some branch =>
          have hbmem : branch ∈ jsEntriesOrder
              (groupByKey (E.filterMap attachExtraInfoToError)) := by
            by_cases hu : isUnionO pt = true
            · exact (selected_union_max hu hhd).1
            · exact selected_nonunion_mem (Bool.eq_false_iff.mpr hu) hhd
          obtain ⟨⟨⟨gkey, kt, kv⟩, gE⟩, hgmem, hbeq⟩ :=
            List.mem_map.mp (by rw [← hGB]; exact mem_jsEntriesOrder.mp hbmem)
          obtain ⟨hgne, hex2, hg3⟩ := hGfacts _ hgmem
          obtain ⟨cs, hc, hcmap⟩ := hex2
          have hbr2 : branch.2 = gE := by rw [← hbeq]
          have hgne' : gE ≠ [] := hgne
          have hcmap' : gE.map (fun r => r.context) = cs := hcmap
          have hg3' : ∀ r ∈ gE, r.key = gkey ∧ r.type = kt ∧ r.actual = kv ∧
              r ∈ E.filterMap attachExtraInfoToError := hg3
          cases hfe : headB branch.2 with
          | none =>
            rw [hbr2] at hfe
            exact absurd (headB_eq_none hfe) hgne'
          | some firstError =>
            have hfemem : firstError ∈ gE := by
              rw [hbr2] at hfe
              exact headB_some_mem hfe
            have hfetype' : firstError.type = kt := (hg3' firstError hfemem).2.1
            have hkmem : ((gkey, kt, kv) : String × Codec × JSValue) ∈ kids :=
              hSub.subset (List.mem_map_of_mem Prod.fst hgmem)
            have hwfk' : Codec.wf kt = true := (hkids _ hkmem).1
            have hdepk' : Codec.depth kt ≤ fs := (hkids _ hkmem).2
            obtain ⟨fs', rfl⟩ : ∃ fs', fs = fs' + 1 := by
              have := depth_pos kt
              exact ⟨fs - 1, by omega⟩
            have hcK : chainsF (fs' + 1) kt kv = some cs := hc
            -- under a union ambient, the selected branch never scores (-1, -1)
            have hscore : isUnionO pt = true →
                branchScore branch.2 ≠ (Frac.ofInt (-1), (-1 : Int)) := by
              intro hu hbad
              obtain ⟨-, hmax⟩ := selected_union_max hu hhd
              obtain ⟨e0, he0, hlev0⟩ := hGuard hu
              cases hctx0 : e0.context with
              | nil => exact absurd hctx0 (hctx e0 he0)
              | cons hd0 tl0 =>
                have hr0mem := attach_mem_of_mem he0 hctx0
                obtain ⟨g0, hg0, hrg0⟩ := hCov _ hr0mem
                have hy : ((g0.1.1, g0.2) : String × List ErrRec) ∈ jsEntriesOrder
                    (groupByKey (E.filterMap attachExtraInfoToError)) := by
                  apply mem_jsEntriesOrder.mpr
                  rw [hGB]
                  exact List.mem_map_of_mem _ hg0
                apply hmax _ hy
                rw [hbad, branchScore_eq]
                have hden : ∀ x ∈ (g0.2).map recScore, 0 < x.den := by
                  intro x hx
                  rcases List.mem_map.mp hx with ⟨r, -, rfl⟩
                  exact recScore_den_pos' r
                have hsim : (Frac.ofInt (-1)).toRat ≤
                    (maxFrac ((g0.2).map recScore)).toRat :=
                  le_trans (recScore_ge_neg1 _)
                    (maxFrac_ge_mem hden _ (List.mem_map_of_mem _ hrg0))
                have hnar : (0 : Int) ≤ maxLevelsUntilExhaustion g0.2 := by
                  refine le_trans ?_ (maxLevels_ge_mem _ hrg0)
                  exact hlev0
                rcases lt_or_eq_of_le hsim with hlt | heq
                · exact Or.inl hlt
                · refine Or.inr ⟨heq, ?_⟩
                  show (-1 : Int) < maxLevelsUntilExhaustion g0.2
                  omega
            have hshape := chainsF_shape hcK
            have hnotleaf : ¬ (cs = [[]] ∧ wholesaleFail kt kv = true) := by
              rintro ⟨hcs, hwh⟩
              have hcmap2 : gE.map (fun r => r.context) = [[]] := by
                rw [hcmap', hcs]
              obtain ⟨r0, hgeq, hr0ctx⟩ := map_eq_singleton_nil hcmap2
              have hr0mem : r0 ∈ gE := by
                rw [hgeq]
                exact List.mem_cons_self _ _
              obtain ⟨hr0key, hr0type, hr0act, hr0E'⟩ := hg3' r0 hr0mem
              have hr0ex : r0.isExhausted = true := by
                obtain ⟨e1, he1, hd1, tl1, hctx1, rfl⟩ := mem_filterMap_attach hr0E'
                have htl : tl1 = [] := hr0ctx
                subst htl
                rfl
              obtain ⟨hwun, hwin⟩ := wholesale_not_union_inter hwh
              by_cases hu : isUnionO pt = true
              · refine hscore hu ?_
                rw [hbr2, hgeq]
                refine branchScore_leaf (by simp) ?_ ?_
                · intro r hrm
                  rw [List.mem_singleton] at hrm
                  subst hrm
                  exact recScore_of_wholesale hwh _ hr0type hr0act
                · intro r hrm
                  rw [List.mem_singleton] at hrm
                  subst hrm
                  obtain ⟨e1, he1, hd1, tl1, hctx1, rfl⟩ := mem_filterMap_attach hr0E'
                  have htl : tl1 = [] := hr0ctx
                  show levelsUntilExhaustionIdx e1.context = -1
                  rw [hctx1, htl]
                  rfl
              · exact absurd hTM (detectTM_ne_nil_of hbmem
                  (by rw [hbr2]; exact hr0mem) (hAllNotUndef _ hr0E')
                  (Bool.eq_false_iff.mpr hu) (by rw [hr0type]; exact hwin)
                  (by rw [hr0type]; exact hwun) hr0ex)
            have hchne : ∀ ch ∈ cs, ch ≠ [] := by
              rcases hshape with hleaf | ⟨h1, -⟩
              · exact absurd hleaf hnotleaf
              · exact h1
            have hcseq : cs = (childList kt kv).flatMap (KidChains fs') := by
              rcases hshape with hleaf | ⟨-, h2⟩
              · exact absurd hleaf hnotleaf
              · exact h2
            have hctx2 : ∀ r ∈ gE, r.context ≠ [] := by
              intro r hrm
              have hin : r.context ∈ cs := by
                rw [← hcmap']
                exact List.mem_map_of_mem _ hrm
              exact hchne _ hin
            have hlen2 : ∀ r ∈ gE, r.context.length ≤ fuel := by
              intro r hrm
              exact hlen' r (hg3' r hrm).2.2.2
            have hCin2 : ∀ r ∈ gE, ∀ hd' tl', r.context = hd' :: tl' →
                hd'.actual = JSValue.undef → r.isExhausted = false := by
              intro r hrm hd' tl' hctx' hund'
              by_contra hexc
              rw [Bool.not_eq_false] at hexc
              obtain ⟨e1, he1, hd1, tl1, hctx1, rfl⟩ :=
                mem_filterMap_attach ((hg3' r hrm).2.2.2)
              have hex' : tl1.all (fun c => jsEq c.actual hd1.actual) = true := hexc
              have hall : ∀ c ∈ tl1, c.actual = hd1.actual := all_jsEq_iff.mp hex'
              have htl : tl1 = hd' :: tl' := hctx'
              have hda : hd'.actual = hd1.actual :=
                hall hd' (by rw [htl]; exact List.mem_cons_self _ _)
              refine hAllNotUndef _ ((hg3' _ hrm).2.2.2) ?_
              show hd1.actual = JSValue.undef
              rw [← hda, hund']
            have hStruct2 : ∃ (fs2 : Nat) (kids2 : List (String × Codec × JSValue)),
                (kids2.map (fun kcv => kcv.1)).Nodup ∧
                (∀ k ∈ kids2, Codec.wf k.2.1 = true ∧ Codec.depth k.2.1 ≤ fs2) ∧
                gE.map (fun e => e.context) = kids2.flatMap (KidChains fs2) := by
              refine ⟨fs', childList kt kv, childList_keys_nodup hwfk', ?_,
                by rw [hcmap', hcseq]⟩
              intro k' hk'
              obtain ⟨k1, ct1, cv1⟩ := k'
              refine ⟨childList_wf hwfk' hk', ?_⟩
              have hlt := childList_depth_lt hk'
              show Codec.depth ct1 ≤ fs'
              omega
            have hGuard2 : isUnionO (some firstError.type) = true →
                ∃ r ∈ gE, 0 ≤ levelsUntilExhaustionIdx r.context := by
              intro hu'
              have hktu : kt.isUnion = true := by
                rw [isUnionO_some, hfetype'] at hu'
                exact hu'
              obtain ⟨ts, hkteq⟩ := isUnion_exists hktu
              have hnall : ¬ (∀ r ∈ gE, r.isExhausted = true) := by
                intro hall
                by_cases hu : isUnionO pt = true
                · refine hscore hu ?_
                  rw [hbr2]
                  refine branchScore_leaf hgne' ?_ ?_
                  · intro r hrm
                    exact recScore_of_union r (by rw [(hg3' r hrm).2.1, hkteq])
                  · intro r hrm
                    obtain ⟨e1, he1, hd1, tl1, hctx1, rfl⟩ :=
                      mem_filterMap_attach ((hg3' r hrm).2.2.2)
                    have hex' : tl1.all (fun c => jsEq c.actual hd1.actual) = true :=
                      hall _ hrm
                    have hallc : ∀ c ∈ tl1, c.actual = hd1.actual :=
                      all_jsEq_iff.mp hex'
                    show levelsUntilExhaustionIdx e1.context = -1
                    rw [hctx1]
                    exact (levelsIdx_neg1_iff hd1 tl1).mpr hallc
                · have hallb : gE.all (fun x => x.isExhausted) = true :=
                    List.all_eq_true.mpr (fun x hx => hall x hx)
                  exact absurd hTM (detectTM_ne_nil_allEx hbmem
                    (by rw [hbr2]; exact hfemem)
                    (hAllNotUndef _ (hg3' firstError hfemem).2.2.2)
                    (Bool.eq_false_iff.mpr hu)
                    (by rw [hfetype', hkteq]; rfl)
                    (by rw [hbr2]; exact hallb))
              push_neg at hnall
              obtain ⟨r, hrm, hrex⟩ := hnall
              have hchm : r.context ∈ cs := by
                rw [← hcmap']
                exact List.mem_map_of_mem _ hrm
              have hcK2 : chainsF (fs' + 1) (Codec.unionC ts) kv = some cs := by
                rw [← hkteq]
                exact hcK
              obtain ⟨en, rest, hche, hena⟩ := chainsF_union_head hcK2 hchm
              obtain ⟨e1, he1, hd1, tl1, hctx1, rfl⟩ :=
                mem_filterMap_attach ((hg3' r hrm).2.2.2)
              refine ⟨_, hrm, ?_⟩
              have hrex' : ¬ tl1.all (fun c => jsEq c.actual hd1.actual) = true :=
                hrex
              have hnex : ¬ ∀ c ∈ tl1, c.actual = hd1.actual := by
                intro hallc
                exact hrex' (all_jsEq_iff.mpr hallc)
              push_neg at hnex
              obtain ⟨c, hcm, hcne⟩ := hnex
              have htl2 : tl1 = en :: rest := hche
              have hena' : en.actual = kv := hena
              have hact : hd1.actual = kv := (hg3' _ hrm).2.2.1
              show 0 ≤ levelsUntilExhaustionIdx tl1
              rw [htl2]
              have hne1 : levelsUntilExhaustionIdx (en :: rest) ≠ -1 := by
                intro heq
                have hallr := (levelsIdx_neg1_iff en rest).mp heq
                rw [htl2] at hcm
                rcases List.mem_cons.mp hcm with rfl | hcr
                · exact hcne (by rw [hena', hact])
                · exact hcne (by rw [hallr c hcr, hena', hact])
              have hge := levelsIdx_ge_neg1 (en :: rest)
              omega
            obtain ⟨s, hs1, hs2, hs3⟩ := ih gE (extendPath branch.1 ⟨path, pt, m⟩)
              (some firstError.type) hgne' hctx2 hlen2 hCin2 hStruct2 hGuard2
            have hstep : explain (fuel + 1) E ⟨path, pt, m⟩ =
                explain fuel branch.2
                  ⟨extendPath branch.1 ⟨path, pt, m⟩, some firstError.type, m⟩ := by
              rw [explain_succ, hTM, hMP]
              show (match headB (filterBranches pt (jsEntriesOrder
                  (groupByKey (E.filterMap attachExtraInfoToError)))) with
                | none => none
                | some branch =>
                  match headB branch.2 with
                  | none => none
                  | some firstError =>
                    explain fuel branch.2
                      ⟨extendPath branch.1 ⟨path, pt, m⟩, some firstError.type, m⟩) = _
              rw [hhd]
              show (match headB branch.2 with
                | none => none
                | some firstError =>
                  explain fuel branch.2
                    ⟨extendPath branch.1 ⟨path, pt, m⟩, some firstError.type, m⟩) = _
              rw [hfe]
            have hstepAll : explainAll (fuel + 1) E ⟨path, pt, m⟩ =
                (filterBranches pt (jsEntriesOrder
                    (groupByKey (E.filterMap attachExtraInfoToError)))).flatMap
                  (fun branch =>
                    match headB branch.2 with
                    | none => []
                    | some firstError =>
                      explainAll fuel branch.2
                        ⟨extendPath branch.1 ⟨path, pt, m⟩, some firstError.type, m⟩) := by
              rw [explainAll_succ, hTM, hMP]
              rfl
            have hfb : (match headB branch.2 with
                | none => ([] : List String)
                | some firstError =>
                  explainAll fuel branch.2
                    ⟨extendPath branch.1 ⟨path, pt, m⟩, some firstError.type, m⟩) =
                explainAll fuel branch.2
                  ⟨extendPath branch.1 ⟨path, pt, m⟩, some firstError.type, m⟩ := by
              rw [hfe]
            refine ⟨s, ?_, hs2, ?_⟩
            · rw [hstep, hbr2]
              exact hs1
            · rw [hstepAll]
              by_cases hu : isUnionO pt = true
              · rw [filterBranches_union_singleton hu hhd]
                simp only [List.flatMap_cons, List.flatMap_nil, List.append_nil]
                rw [hfb, hbr2]
                exact hs3
              · cases hFBl : filterBranches pt (jsEntriesOrder
                    (groupByKey (E.filterMap attachExtraInfoToError))) with
                | nil => exact absurd hFBl hFBne
                | cons b0 rest0 =>
                  have hb0 : b0 = branch := by
                    rw [hFBl, headB] at hhd
                    injection hhd
                  subst hb0
                  simp only [List.flatMap_cons]
                  rw [hfb, hbr2]
                  rw [head_append_of_ne_nil (by
                    intro hnil
                    rw [hnil] at hs3
                    cases hs3)]
                  exact hs3

-- ## B8: root-level invariants and the C1/C10 claim theorems

theorem foldMaxNat_ge : ∀ (xs : List Nat) (a0 : Nat),
    a0 ≤ xs.foldl max a0 ∧ ∀ y ∈ xs, y ≤ xs.foldl max a0 := by
  intro xs
  induction xs with
  | nil =>
    intro a0
    exact ⟨le_refl _, by intro y hy; cases hy⟩
  | cons x xs ih =>
    intro a0
    rw [List.foldl_cons]
    obtain ⟨hseed, hmax⟩ := ih (max a0 x)
    refine ⟨le_trans (le_max_left _ _) hseed, ?_⟩
    intro y hy
    rcases List.mem_cons.mp hy with rfl | hy
    · exact le_trans (le_max_right _ _) hseed
    · exact hmax y hy

theorem mem_le_maxCtxLen {errors : List ErrRec} {e : ErrRec} (he : e ∈ errors) :
    e.context.length ≤ maxCtxLen errors := by
  rw [maxCtxLen]
  exact (foldMaxNat_ge _ 0).2 _ (List.mem_map_of_mem _ he)

/-- Root instantiation of the master theorem: for any failing decode of a
well-formed codec, the first-only driver emits a nonempty message that heads
the exhaustive driver's report, under the default resolved options. -/
theorem reportOne_report_root {c : Codec} {v : JSValue} {errors : List ErrRec}
    (hwf : Codec.wf c = true) (hdf : decodeFail c v = some errors) :
    ∃ s, explain (reportFuel errors) errors (Options.withDefault {}) = some s ∧
      s ≠ "" ∧
      (explainAll (reportFuel errors) errors (Options.withDefault {})).head? =
        some s := by
  rw [decodeFail] at hdf
  cases hch : chainsF (Codec.depth c) c v with
  | none => rw [hch] at hdf; cases hdf
  | some chs =>
    rw [hch, Option.map_some'] at hdf
    injection hdf with hdf
    have hchne : chs ≠ [] := chainsF_ne_nil (Codec.depth c) c v chs hwf hch
    have hE : errors ≠ [] := by
      rw [← hdf]
      intro hnil
      rw [List.map_eq_nil_iff] at hnil
      exact hchne hnil
    have hsrc : ∀ e ∈ errors, ∃ ch ∈ chs,
        e = { context := (⟨"", c, v⟩ : ContextEntry) :: ch } := by
      intro e he
      rw [← hdf] at he
      rcases List.mem_map.mp he with ⟨ch, hch2, rfl⟩
      exact ⟨ch, hch2, rfl⟩
    have hctx : ∀ e ∈ errors, e.context ≠ [] := by
      intro e he
      obtain ⟨ch, -, rfl⟩ := hsrc e he
      simp
    have hlen : ∀ e ∈ errors, e.context.length ≤ reportFuel errors := by
      intro e he
      have h1 := mem_le_maxCtxLen he
      rw [reportFuel]
      omega
    have hCin : ∀ e ∈ errors, ∀ hd tl, e.context = hd :: tl →
        hd.actual = JSValue.undef → e.isExhausted = false := by
      intro e he hd tl _ _
      obtain ⟨ch, -, rfl⟩ := hsrc e he
      rfl
    have hStruct : ∃ (fs : Nat) (kids : List (String × Codec × JSValue)),
        (kids.map (fun kcv => kcv.1)).Nodup ∧
        (∀ k ∈ kids, Codec.wf k.2.1 = true ∧ Codec.depth k.2.1 ≤ fs) ∧
        errors.map (fun e => e.context) = kids.flatMap (KidChains fs) := by
      refine ⟨Codec.depth c, [("", c, v)], by simp, ?_, ?_⟩
      · intro k hk
        rw [List.mem_singleton] at hk
        subst hk
        exact ⟨hwf, le_refl _⟩
      · rw [List.flatMap_cons, List.flatMap_nil, List.append_nil]
        rw [KidChains]
        rw [show chainsF (Codec.depth c) (("", c, v) : String × Codec × JSValue).2.1
            (("", c, v) : String × Codec × JSValue).2.2 = some chs from hch]
        rw [← hdf, List.map_map]
        rfl
    have hGuard : isUnionO (none : Option Codec) = true →
        ∃ e ∈ errors, 0 ≤ levelsUntilExhaustionIdx e.context :=
      fun h => absurd h Bool.false_ne_true
    obtain ⟨s, h1, h2, h3⟩ := explain_total_master (Messages.withDefault {})
      (fun k p a t => defaultMessages_mismatch_ne_empty k p a t)
      (fun cm p => defaultMessages_custom_ne_empty cm p)
      (fun ks p => defaultMessages_missing_ne_empty ks p)
      (reportFuel errors) errors [] none hE hctx hlen hCin hStruct hGuard
    exact ⟨s, h1, h2, h3⟩

theorem decodeV_error_decodeFail {c : Codec} {v : JSValue} {errors : List ErrRec}
    (hdec : decodeV c v = .error errors) : decodeFail c v = some errors := by
  rw [decodeV] at hdec
  cases hf : decodeFail c v with
  | none => rw [hf] at hdec; cases hdec
  | some errs =>
    rw [hf] at hdec
    injection hdec with h1
    rw [h1]

/-- C1: totality of the public entry points on failing validations produced
by decoding a value against a well-formed codec: `reportOne` returns a
nonempty message (never null) and the exhaustive `report` returns a
nonempty list. -/
theorem C1_totality {c : Codec} {v : JSValue} {errors : List ErrRec}
    (hwf : Codec.wf c = true) (hdec : decodeV c v = .error errors) :
    (∃ s, reportOne (.error errors) = some s ∧ s ≠ "") ∧
      report (.error errors) ≠ [] := by
  obtain ⟨s, h1, h2, h3⟩ := reportOne_report_root hwf (decodeV_error_decodeFail hdec)
  refine ⟨⟨s, h1, h2⟩, ?_⟩
  intro hnil
  have h4 : explainAll (reportFuel errors) errors (Options.withDefault {}) = [] := hnil
  rw [h4] at h3
  cases h3

theorem C1_totality_witness :
    Codec.wf Codec.number = true ∧
    decodeV Codec.number (JSValue.str "x") =
      .error [{ context := [⟨"", Codec.number, JSValue.str "x"⟩] }] ∧
    ((∃ s, reportOne (.error
        [{ context := [⟨"", Codec.number, JSValue.str "x"⟩] }]) = some s ∧ s ≠ "") ∧
      report (.error [{ context := [⟨"", Codec.number, JSValue.str "x"⟩] }]) ≠ []) :=
  ⟨rfl, rfl,
    @C1_totality Codec.number (JSValue.str "x")
      [{ context := [⟨"", Codec.number, JSValue.str "x"⟩] }] rfl rfl⟩

/-- C10 counterexample: a `Left` whose records were not produced by the
decoder (the context trails are adversarial) makes `reportOne` return null
while the exhaustive `report` is nonempty, so the two entry modes disagree:
the report's first element is not what `reportOne` returns. -/
theorem C10_counterexample_adversarial_left :
    reportOne (.error
      [{ context := [⟨"a", Codec.mkInter [Codec.number], JSValue.num 1⟩,
                     ⟨"0", Codec.mkInter [Codec.number], JSValue.num 2⟩] },
       { context := [⟨"b", Codec.mkUnion [Codec.mkType []], JSValue.num 7⟩,
                     ⟨"0", Codec.mkType [], JSValue.num 9⟩,
                     ⟨"z", Codec.number, JSValue.num 9⟩] }]) = none ∧
    report (.error
      [{ context := [⟨"a", Codec.mkInter [Codec.number], JSValue.num 1⟩,
                     ⟨"0", Codec.mkInter [Codec.number], JSValue.num 2⟩] },
       { context := [⟨"b", Codec.mkUnion [Codec.mkType []], JSValue.num 7⟩,
                     ⟨"0", Codec.mkType [], JSValue.num 9⟩,
                     ⟨"z", Codec.number, JSValue.num 9⟩] }]) =
      ["got `9` expected 'number' at 'b.z'"] := by
  constructor
  · decide
  · decide

/-- C10 (amended): for validation results actually produced by decoding a
value against a well-formed codec, and the default options, `reportOne`
is exactly the head of the exhaustive `report` (null exactly when the
report is empty, its first element otherwise). -/
theorem C10_amended_first_of_all {c : Codec} {v : JSValue}
    (hwf : Codec.wf c = true) :
    reportOne (decodeV c v) = (report (decodeV c v)).head? := by
  cases hd : decodeV c v with
  | ok w => rfl
  | error errors =>
    obtain ⟨s, h1, h2, h3⟩ := reportOne_report_root hwf (decodeV_error_decodeFail hd)
    show explain (reportFuel errors) errors (Options.withDefault {}) =
      (explainAll (reportFuel errors) errors (Options.withDefault {})).head?
    rw [h1, h3]

theorem C10_amended_first_of_all_witness :
    Codec.wf Codec.number = true ∧
    reportOne (decodeV Codec.number (JSValue.str "x")) =
      (report (decodeV Codec.number (JSValue.str "x"))).head? :=
  ⟨rfl, @C10_amended_first_of_all Codec.number (JSValue.str "x") rfl⟩
